import Mathlib

/-! # Helio Workstation: the playback thread (`PlayerThread.cpp`)

A shallow embedding of `PlayerThread::startPlayback` and `PlayerThread::run`
(`Source/Core/Audio/Transport/PlayerThread.cpp`).

Conventions of the embedding:

* `float` and `double` values (beats, milliseconds, tempo) are exact rationals;
  `float(..)` conversions are the identity.  `uint32(x)` of a `double` truncates
  towards zero and is taken modulo `2 ^ 32`; a negative argument (undefined in C++)
  is taken to `0`.  A build may wrap a negative argument around instead: the wait
  computed from a negative delta returns at once either way, but the target recorded
  for it here (the clock at the pull) need not be the argument such a build passes.
* The millisecond counter is an ideal, unbounded clock held in `State.now`: it only
  advances in `Thread::sleep` and `Time::waitForMillisecondCounter`.
* Everything the thread does to the outside world is recorded, in program order, as a
  list of `Effect`s.
* `threadShouldExit()` is an oracle: `PlayerThread.threadShouldExit k` is the answer to
  the `k`-th call (counting from `0`) made by the run.
* One call of `step` is one iteration of the `while (1)` loop of `run`.
-/

namespace Helio

/-- The constant `MINIMUM_STOP_CHECK_TIME_MS` of `PlayerThread.cpp`. -/
def MINIMUM_STOP_CHECK_TIME_MS : ℕ := 1000

/-- A destination queue (`MidiMessageCollector *`), identified by a number.  An
instrument is identified with the collector of its processor player. -/
abbrev MidiMessageCollector := ℕ

/-- The payload of a `MidiMessage`, classified the way `run` inspects it: `noteOn` is a
message for which `isNoteOn()` holds, `noteOff` one for which `isNoteOff()` holds,
`tempoMetaEvent` one for which `isTempoMetaEvent()` holds; `midiStart` and `midiStop`
are the messages built by `MidiMessage::midiStart()` and `MidiMessage::midiStop()`. -/
inductive MidiMessage
  | noteOn (channel key : ℤ) (velocity : ℕ)
  | noteOff (channel key : ℤ) (velocity : ℕ)
  | tempoMetaEvent (secondsPerQuarterNote : ℚ)
  | midiStart
  | midiStop
  | other (tag : ℕ)
  deriving DecidableEq

namespace MidiMessage

def isNoteOn : MidiMessage → Bool
  | noteOn _ _ _ => true
  | _ => false

def isNoteOff : MidiMessage → Bool
  | noteOff _ _ _ => true
  | _ => false

def isTempoMetaEvent : MidiMessage → Bool
  | tempoMetaEvent _ => true
  | _ => false

def getNoteNumber : MidiMessage → ℤ
  | noteOn _ key _ => key
  | noteOff _ key _ => key
  | _ => 0

def getChannel : MidiMessage → ℤ
  | noteOn channel _ _ => channel
  | noteOff channel _ _ => channel
  | _ => 0

def getTempoSecondsPerQuarterNote : MidiMessage → ℚ
  | tempoMetaEvent spq => spq
  | _ => 0

end MidiMessage

/-- The struct `CachedMidiMessage`: an event of the playback cache.  `timeStamp` is the beat the
cache stamped on the message (`wrapper.message.getTimeStamp()`). -/
structure CachedMidiMessage where
  timeStamp : ℚ
  message : MidiMessage
  listener : MidiMessageCollector
  deriving DecidableEq

/-- The local `struct HoldingNote` of `run`. -/
structure HoldingNote where
  key : ℤ
  channel : ℤ
  listener : MidiMessageCollector
  deriving DecidableEq

/-- What the thread does to its collaborators, in program order.  The last argument
of `addMessageToQueue` and `setTimeStamp` is the clock value the message is stamped
with. -/
inductive Effect
  | addMessageToQueue (listener : MidiMessageCollector) (message : MidiMessage) (now : ℕ)
  | getNextMessage (result : Option CachedMidiMessage)
  | setTimeStamp (wrapper : CachedMidiMessage) (now : ℕ)
  | sleep (ms : ℕ)
  | waitForMillisecondCounter (targetTime : ℕ)
  | threadShouldExit (result : Bool)
  | seekToTime (beat : ℚ)
  | broadcastSeek (beat currentTimeMs totalTimeMs : ℚ)
  | broadcastTempoChanged (msPerQuarter : ℚ)
  | broadcastStop
  | allNotesControllersAndSoundOff
  | seekToBeat (beat : ℚ)
  deriving DecidableEq

/-- The collaborators of the thread, taken as parameters: `seekToTime b` is the list of
events `getNextMessage` returns, in order, after `sequences.seekToTime(b)`;
`uniqueInstruments` is `sequences.getUniqueInstruments()`; `findTimeAndTempoAt b` is the
pair `(timeMs, tempo)` that `Transport::findTimeAndTempoAt` writes. -/
structure Transport where
  seekToTime : ℚ → List CachedMidiMessage
  uniqueInstruments : List MidiMessageCollector
  findTimeAndTempoAt : ℚ → ℚ × ℚ
  projectLastBeat : ℚ
  seekBeat : ℚ

/-- The fields of `PlayerThread`, with the cancellation oracle and the thread flag. -/
structure PlayerThread where
  transport : Transport
  broadcastMode : Bool
  loopedMode : Bool
  startBeat : ℚ
  endBeat : ℚ
  threadShouldExit : ℕ → Bool
  isThreadRunning : Bool

/-- The method `PlayerThread::startPlayback`: it stores the four arguments and starts the thread. -/
def startPlayback (p : PlayerThread) (relStartBeat relEndBeat : ℚ)
    (shouldLoop shouldBroadcastTransportEvents : Bool) : PlayerThread :=
  { p with
    broadcastMode := shouldBroadcastTransportEvents
    loopedMode := shouldLoop
    startBeat := relStartBeat
    endBeat := relEndBeat
    isThreadRunning := true }

/-- How an execution of `run` stands: still in the `while (1)` loop, returned after
observing `threadShouldExit()`, or returned at the natural end of a non-loop run. -/
inductive Status
  | running
  | interrupted
  | finished
  deriving DecidableEq

/-- The local variables of `run`, the cursor of the cache and the clock. -/
structure State where
  cursor : List CachedMidiMessage
  prevTimeStamp : ℚ
  currentTimeMs : ℚ
  msPerQuarter : ℚ
  holdingNotes : List HoldingNote
  now : ℕ
  exitChecks : ℕ
  status : Status
  deriving DecidableEq

/-- The conversion `uint32(x)` of a `double`: truncation, modulo `2 ^ 32`.  The
conversion of a negative `x` is undefined in C++ and is taken to `0` here. -/
def toUInt32 (x : ℚ) : ℕ := (Rat.floor x).toNat % 2 ^ 32

/-- The value `totalTimeMs` computed at the head of `run`. -/
def totalTimeMs (p : PlayerThread) : ℚ :=
  (p.transport.findTimeAndTempoAt p.transport.projectLastBeat).1

/-- The lambda `sendMidiStart`. -/
def sendMidiStart (p : PlayerThread) (s : State) : List Effect :=
  p.transport.uniqueInstruments.map (fun i => Effect.addMessageToQueue i .midiStart s.now)

/-- The messages of the lambda `sendHoldingNotesOffAndMidiStop`, before its closing
`Thread::sleep(50)`. -/
def holdingNotesOffAndMidiStop (p : PlayerThread) (s : State) : List Effect :=
  s.holdingNotes.map
      (fun h => Effect.addMessageToQueue h.listener (.noteOff h.channel h.key 0) s.now)
    ++ p.transport.uniqueInstruments.map
      (fun i => Effect.addMessageToQueue i .midiStop s.now)

/-- The lambda `sendHoldingNotesOffAndMidiStop`. -/
def sendHoldingNotesOffAndMidiStop (p : PlayerThread) (s : State) : List Effect × State :=
  (holdingNotesOffAndMidiStop p s ++ [Effect.sleep 50], { s with now := s.now + 50 })

/-- The lambda `sendTempoChangeToEverybody`. -/
def sendTempoChangeToEverybody (p : PlayerThread) (tempoEvent : MidiMessage) (s : State) :
    List Effect :=
  p.transport.uniqueInstruments.map (fun i => Effect.addMessageToQueue i tempoEvent s.now)

/-- Iterations that suffice for the loop `while (nextEventTimeDelta > 1000)`. -/
def sliceFuel (delta : ℚ) : ℕ := (Rat.floor (delta / 1000)).toNat

/-- The loop `while (nextEventTimeDelta > MINIMUM_STOP_CHECK_TIME_MS)` of both branches:
each round subtracts the slice, sleeps it and asks `threadShouldExit()`.  The flag
tells whether the exit was observed. -/
def sleepSlices (p : PlayerThread) : ℕ → ℚ → State → List Effect × State × Bool
  | 0, _, s => ([], s, false)
  | fuel + 1, nextEventTimeDelta, s =>
    if nextEventTimeDelta > (MINIMUM_STOP_CHECK_TIME_MS : ℚ) then
      let s1 := { s with now := s.now + MINIMUM_STOP_CHECK_TIME_MS,
                         exitChecks := s.exitChecks + 1 }
      if p.threadShouldExit s.exitChecks then
        ([Effect.sleep MINIMUM_STOP_CHECK_TIME_MS, Effect.threadShouldExit true], s1, true)
      else
        let r := sleepSlices p fuel (nextEventTimeDelta - MINIMUM_STOP_CHECK_TIME_MS) s1
        (Effect.sleep MINIMUM_STOP_CHECK_TIME_MS :: Effect.threadShouldExit false :: r.1,
          r.2.1, r.2.2)
    else ([], s, false)

/-- The exit `sendHoldingNotesOffAndMidiStop(); return;` taken when `threadShouldExit()`
was observed. -/
def interrupt (p : PlayerThread) (es : List Effect) (s : State) : List Effect × State :=
  let f := sendHoldingNotesOffAndMidiStop p s
  (es ++ f.1, { f.2 with status := .interrupted })

/-- The seek back to the start beat, at the end of the cache of a looped run and on
`shouldRewind`. -/
def rewind (p : PlayerThread) (s : State) : List Effect × State :=
  (Effect.seekToTime p.startBeat ::
      (if p.broadcastMode then
        [Effect.broadcastSeek p.startBeat s.currentTimeMs (totalTimeMs p)] else []),
    { s with cursor := p.transport.seekToTime p.startBeat, prevTimeStamp := p.startBeat })

/-- The branch `if (!sequences.getNextMessage(wrapper))`: playback from the last event
to the end of the track. -/
def endOfCache (p : PlayerThread) (s : State) : List Effect × State :=
  let nextEventTimeDelta := s.msPerQuarter * (p.endBeat - s.prevTimeStamp)
  let targetTime := s.now + toUInt32 nextEventTimeDelta
  let w := sleepSlices p (sliceFuel nextEventTimeDelta) nextEventTimeDelta s
  if w.2.2 then
    interrupt p (Effect.getNextMessage none :: w.1) w.2.1
  else
    let s2 := { w.2.1 with now := max w.2.1.now targetTime }
    let es := Effect.getNextMessage none :: w.1 ++ [Effect.waitForMillisecondCounter targetTime]
    if p.loopedMode then
      let r := rewind p s2
      (es ++ r.1, r.2)
    else
      let f := sendHoldingNotesOffAndMidiStop p s2
      (es ++ f.1 ++ [Effect.allNotesControllersAndSoundOff]
          ++ (if p.broadcastMode then
                [Effect.seekToBeat p.transport.seekBeat, Effect.broadcastStop] else []),
        { f.2 with status := .finished })

/-- The bookkeeping of `holdingNotes` after a message went out: `add` on a note-on, and on
a note-off the removal of the first entry with the same key, channel and listener. -/
def updateHoldingNotes (wrapper : CachedMidiMessage) (holdingNotes : List HoldingNote) :
    List HoldingNote :=
  let key := wrapper.message.getNoteNumber
  let channel := wrapper.message.getChannel
  let h1 := if wrapper.message.isNoteOn then
      holdingNotes ++ [{ key := key, channel := channel, listener := wrapper.listener }]
    else holdingNotes
  if wrapper.message.isNoteOff then
    h1.eraseP (fun h => h.key == key && h.channel == channel && h.listener == wrapper.listener)
  else h1

/-- The `else` branch of `if (shouldRewind)`: the message is stamped and sent, to
everybody when it is a tempo event and to its own listener otherwise. -/
def dispatch (p : PlayerThread) (wrapper : CachedMidiMessage) (s : State) :
    List Effect × State :=
  let s1 := { s with holdingNotes := updateHoldingNotes wrapper s.holdingNotes }
  if wrapper.message.isTempoMetaEvent then
    let msPerQuarter := wrapper.message.getTempoSecondsPerQuarterNote * 1000
    (Effect.setTimeStamp wrapper s.now ::
        (if p.broadcastMode then [Effect.broadcastTempoChanged msPerQuarter] else [])
        ++ sendTempoChangeToEverybody p wrapper.message s,
      { s1 with msPerQuarter := msPerQuarter })
  else
    ([Effect.setTimeStamp wrapper s.now,
      Effect.addMessageToQueue wrapper.listener wrapper.message s.now], s1)

/-- The tail `if (shouldRewind) .. else ..` of an iteration. -/
def rewindOrDispatch (p : PlayerThread) (shouldRewind : Bool) (wrapper : CachedMidiMessage)
    (s : State) : List Effect × State :=
  if shouldRewind then rewind p s else dispatch p wrapper s

/-- The flag `shouldRewind` of an iteration that pulled `wrapper`. -/
def shouldRewind (p : PlayerThread) (wrapper : CachedMidiMessage) : Bool :=
  p.loopedMode && decide (wrapper.timeStamp > p.endBeat)

/-- The value `nextEventTimeStamp` of an iteration that pulled `wrapper`. -/
def nextEventTimeStamp (p : PlayerThread) (wrapper : CachedMidiMessage) : ℚ :=
  if shouldRewind p wrapper then p.endBeat else wrapper.timeStamp

/-- The part of an iteration from the zero-delay check on: `s` already holds the
updated `currentTimeMs` and `prevTimeStamp`.  When `uint32(nextEventTimeDelta)` is not
zero the thread waits in slices, checks for the exit after every slice and after the
final wait, and notifies the seek; then it rewinds or sends the message. -/
def waitThenPlay (p : PlayerThread) (wrapper : CachedMidiMessage) (nextEventTimeDelta : ℚ)
    (s : State) : List Effect × State :=
  let pull := Effect.getNextMessage (some wrapper)
  if toUInt32 nextEventTimeDelta ≠ 0 then
    let targetTime := s.now + toUInt32 nextEventTimeDelta
    let w := sleepSlices p (sliceFuel nextEventTimeDelta) nextEventTimeDelta s
    if w.2.2 then
      interrupt p (pull :: w.1) w.2.1
    else
      let s2 := { w.2.1 with now := max w.2.1.now targetTime,
                             exitChecks := w.2.1.exitChecks + 1 }
      let es := pull :: w.1 ++ [Effect.waitForMillisecondCounter targetTime]
      if p.threadShouldExit w.2.1.exitChecks then
        interrupt p (es ++ [Effect.threadShouldExit true]) s2
      else
        let r := rewindOrDispatch p (shouldRewind p wrapper) wrapper s2
        (es ++ [Effect.threadShouldExit false]
            ++ (if p.broadcastMode then
                  [Effect.broadcastSeek s2.prevTimeStamp s2.currentTimeMs (totalTimeMs p)]
                else [])
            ++ r.1, r.2)
  else
    let r := rewindOrDispatch p (shouldRewind p wrapper) wrapper s
    (pull :: r.1, r.2)

/-- An iteration in which `getNextMessage` returned `wrapper`; `s.cursor` is already
past it. -/
def eventTick (p : PlayerThread) (wrapper : CachedMidiMessage) (s : State) :
    List Effect × State :=
  let nextEventTimeDelta := s.msPerQuarter * (nextEventTimeStamp p wrapper - s.prevTimeStamp)
  waitThenPlay p wrapper nextEventTimeDelta
    { s with currentTimeMs := s.currentTimeMs + nextEventTimeDelta,
             prevTimeStamp := nextEventTimeStamp p wrapper }

/-- One iteration of the `while (1)` loop of `run`; a run that has returned stays as it
is. -/
def step (p : PlayerThread) (s : State) : List Effect × State :=
  match s.status with
  | .running =>
    match s.cursor with
    | [] => endOfCache p s
    | wrapper :: rest => eventTick p wrapper { s with cursor := rest }
  | _ => ([], s)

/-- The part of `run` before the `while (1)` loop, on a clock that shows `now`. -/
def start (p : PlayerThread) (now : ℕ) : List Effect × State :=
  let t := p.transport.findTimeAndTempoAt p.startBeat
  let s : State :=
    { cursor := p.transport.seekToTime p.startBeat
      prevTimeStamp := p.startBeat
      currentTimeMs := t.1
      msPerQuarter := t.2
      holdingNotes := []
      now := now
      exitChecks := 0
      status := .running }
  ((if p.broadcastMode then [Effect.broadcastTempoChanged t.2] else [])
      ++ [Effect.seekToTime p.startBeat]
      ++ (if p.broadcastMode then
            [Effect.broadcastSeek p.startBeat t.1 (totalTimeMs p)] else [])
      ++ sendMidiStart p s,
    s)

/-- The first `n` iterations of the `while (1)` loop from the state `s`. -/
def runLoop (p : PlayerThread) : ℕ → State → List Effect × State
  | 0, s => ([], s)
  | n + 1, s =>
    let r := step p s
    let r2 := runLoop p n r.2
    (r.1 ++ r2.1, r2.2)

/-- The method `PlayerThread::run` up to the end of its `n`-th iteration. -/
def run (p : PlayerThread) (now : ℕ) (n : ℕ) : List Effect × State :=
  let i := start p now
  let r := runLoop p n i.2
  (i.1 ++ r.1, r.2)

/-! ## Observations on traces, and the inputs used in the examples -/

/-- The messages a trace puts into destination queues, in order, with their
destination. -/
def enqueued : List Effect → List (MidiMessageCollector × MidiMessage)
  | [] => []
  | Effect.addMessageToQueue l m _ :: es => (l, m) :: enqueued es
  | _ :: es => enqueued es

/-- A transport with one instrument, a constant tempo of 500 ms per quarter note and a
cache that returns `events` after every seek. -/
def exTransport (events : List CachedMidiMessage) : Transport :=
  { seekToTime := fun _ => events
    uniqueInstruments := [0]
    findTimeAndTempoAt := fun _ => (0, 500)
    projectLastBeat := 4
    seekBeat := 0 }

/-- A thread over `exTransport events` that plays from beat `0`. -/
def exThread (events : List CachedMidiMessage) (loop broadcast : Bool) (endBeat : ℚ)
    (exit : ℕ → Bool) : PlayerThread :=
  { transport := exTransport events
    broadcastMode := broadcast
    loopedMode := loop
    startBeat := 0
    endBeat := endBeat
    threadShouldExit := exit
    isThreadRunning := false }

/-- The effects that neither reach a destination queue nor move the cache or the
transport: pulls, sleeps and waits, exit checks and seek notifications. -/
def Effect.isQuiet : Effect → Bool
  | .getNextMessage _ => true
  | .sleep _ => true
  | .waitForMillisecondCounter _ => true
  | .threadShouldExit _ => true
  | .broadcastSeek _ _ _ => true
  | _ => false

/-- The four ways an iteration started in `s` can go, each with the effects and the
state it yields: `q` is the quiet part before the outcome, `s1` the state in which the
outcome is taken. -/
inductive StepResult (p : PlayerThread) (s : State) : List Effect × State → Prop
  | interrupted (q : List Effect) (s1 : State) :
      (∀ e ∈ q, e.isQuiet = true) → s1.holdingNotes = s.holdingNotes →
      (∃ k, p.threadShouldExit k = true) →
      StepResult p s (q ++ (sendHoldingNotesOffAndMidiStop p s1).1,
        { (sendHoldingNotesOffAndMidiStop p s1).2 with status := .interrupted })
  | wrapped (q : List Effect) (s1 : State) :
      (∀ e ∈ q, e.isQuiet = true) → s1.holdingNotes = s.holdingNotes →
      s1.msPerQuarter = s.msPerQuarter → s1.status = .running → p.loopedMode = true →
      (s.cursor = [] ∨ ∃ w rest, s.cursor = w :: rest ∧ shouldRewind p w = true) →
      StepResult p s (q ++ (rewind p s1).1, (rewind p s1).2)
  | ended (q : List Effect) (s1 : State) :
      (∀ e ∈ q, e.isQuiet = true) → s1.holdingNotes = s.holdingNotes →
      s.cursor = [] → p.loopedMode = false →
      StepResult p s
        (q ++ (sendHoldingNotesOffAndMidiStop p s1).1 ++ [Effect.allNotesControllersAndSoundOff]
          ++ (if p.broadcastMode then
                [Effect.seekToBeat p.transport.seekBeat, Effect.broadcastStop] else []),
        { (sendHoldingNotesOffAndMidiStop p s1).2 with status := .finished })
  | dispatched (q : List Effect) (s1 : State) (wrapper : CachedMidiMessage)
      (rest : List CachedMidiMessage) :
      (∀ e ∈ q, e.isQuiet = true) → s1.holdingNotes = s.holdingNotes →
      s1.msPerQuarter = s.msPerQuarter → s1.status = .running →
      s.cursor = wrapper :: rest → s1.cursor = rest → shouldRewind p wrapper = false →
      s1.prevTimeStamp = wrapper.timeStamp →
      s1.currentTimeMs
        = s.currentTimeMs + s.msPerQuarter * (wrapper.timeStamp - s.prevTimeStamp) →
      StepResult p s (q ++ (dispatch p wrapper s1).1, (dispatch p wrapper s1).2)

/-- The (key, channel, destination) triple of a cached message, as `run` would record
it in `holdingNotes`. -/
def noteOf (wrapper : CachedMidiMessage) : HoldingNote :=
  { key := wrapper.message.getNoteNumber
    channel := wrapper.message.getChannel
    listener := wrapper.listener }

/-- Whether the first note message of the triple `t` in the list is a note-on, that is,
whether a note-on of `t` comes before any note-off of `t`. -/
def noteOnBeforeOff (t : HoldingNote) : List CachedMidiMessage → Bool
  | [] => false
  | w :: rest =>
    if noteOf w = t ∧ w.message.isNoteOn = true then true
    else if noteOf w = t ∧ w.message.isNoteOff = true then false
    else noteOnBeforeOff t rest

/-- A well-formed cached sequence: no note-on is followed by another note-on of the same
(key, channel, destination) triple without a note-off of that triple in between. -/
def wellFormed : List CachedMidiMessage → Bool
  | [] => true
  | w :: rest =>
    !(w.message.isNoteOn && noteOnBeforeOff (noteOf w) rest) && wellFormed rest

/-- The invariant behind "at most one held note per triple": `holdingNotes` has no
repeated entry and, while the thread runs, no held triple meets a further note-on
before its note-off in the rest of the pass, which is itself well formed. -/
def HeldInv (s : State) : Prop :=
  s.holdingNotes.Nodup ∧
    (s.status = .running →
      (∀ t ∈ s.holdingNotes, noteOnBeforeOff t s.cursor = false) ∧ wellFormed s.cursor = true)

/-- A matching of the note-ons of a list of enqueued messages: `R i j` pairs the note-on
at position `i` with a note-off at a later position `j` that has the same destination,
channel and key; every note-on is paired, and no note-off serves two note-ons. -/
def IsMatching (l : List (MidiMessageCollector × MidiMessage)) (R : ℕ → ℕ → Prop) : Prop :=
  (∀ i j, R i j → i < j ∧ ∃ d ch k v v2,
      l[i]? = some (d, .noteOn ch k v) ∧ l[j]? = some (d, .noteOff ch k v2))
    ∧ (∀ i d ch k v, l[i]? = some (d, .noteOn ch k v) → ∃ j, R i j)
    ∧ (∀ i i2 j, R i j → R i2 j → i = i2)

/-- The position of `i` after one element was inserted at position `k`. -/
def bump (k i : ℕ) : ℕ := if i < k then i else i + 1

/-- The note-ons of the list can be matched with later note-offs, one each. -/
def Matchable (l : List (MidiMessageCollector × MidiMessage)) : Prop := ∃ R, IsMatching l R

/-- The list `O` holds, entry by entry, a note-on for each held note with that note's
destination, channel and key. -/
def OnsFor (O : List (MidiMessageCollector × MidiMessage)) (held : List HoldingNote) : Prop :=
  List.Forall₂ (fun x n => ∃ v, x = (n.listener, MidiMessage.noteOn n.channel n.key v)) O held

/-- The note-offs the flush sends for the held notes. -/
def noteOffsFor (held : List HoldingNote) : List (MidiMessageCollector × MidiMessage) :=
  held.map (fun h => (h.listener, MidiMessage.noteOff h.channel h.key 0))

/-- The effects of the natural end of a non-loop run: the reset, the listeners' seek and
the stop notification. -/
def Effect.isClosing : Effect → Bool
  | .allNotesControllersAndSoundOff => true
  | .broadcastStop => true
  | .seekToBeat _ => true
  | _ => false

/-- A non-loop, broadcasting run up to beat 4 over a note-on at beat 1 and its note-off
at beat 5, with no exit request. -/
def exNonLoop : PlayerThread :=
  exThread [⟨1, .noteOn 1 60 100, 0⟩, ⟨5, .noteOff 1 60 0, 0⟩] false true 4 (fun _ => false)

/-- The cached events a trace sent out, in order (each is stamped right before it is
sent). -/
def dispatched : List Effect → List CachedMidiMessage
  | [] => []
  | Effect.setTimeStamp w _ :: es => w :: dispatched es
  | _ :: es => dispatched es

/-- The beat an iteration started in `s` waits for: the end beat at the end of the cache,
`nextEventTimeStamp` of the pulled event otherwise. -/
def targetBeat (p : PlayerThread) (s : State) : ℚ :=
  match s.cursor with
  | [] => p.endBeat
  | w :: _ => nextEventTimeStamp p w

/-- The beats the next `n` iterations from `s` wait for in total: the sum of
`targetBeat - prevTimeStamp`, the factor of `msPerQuarter` in each
`nextEventTimeDelta`. -/
def beatsWaited (p : PlayerThread) : ℕ → State → ℚ
  | 0, _ => 0
  | n + 1, s => (targetBeat p s - s.prevTimeStamp) + beatsWaited p n (step p s).2

/-- The events of one pass of a looped run: those the cache returns after
`seekToTime(startBeat)` whose time stamp does not exceed the end beat. -/
def passEvents (p : PlayerThread) : List CachedMidiMessage :=
  (p.transport.seekToTime p.startBeat).filter (fun w => decide (w.timeStamp ≤ p.endBeat))

/-- A looped, broadcasting run from beat 0 to beat 4 over a note-on at beat 1, its
note-off at beat 2 and a further event at beat 5, with no exit request. -/
def exLoop : PlayerThread :=
  exThread [⟨1, .noteOn 1 60 100, 0⟩, ⟨2, .noteOff 1 60 0, 0⟩, ⟨5, .other 7, 0⟩] true true 4
    (fun _ => false)

/-- A non-loop run over a tempo event at beat 1 (a quarter of a second per quarter note)
sent to instrument 3, which is not among the unique instruments, and a note-on at
beat 2. -/
def exTempo : PlayerThread :=
  exThread [⟨1, .tempoMetaEvent (1 / 4), 3⟩, ⟨2, .noteOn 1 60 100, 0⟩] false false 4
    (fun _ => false)

/-- The waits, in whole milliseconds, that the thread requests on the way through the
events of `c` at the constant tempo `m`, starting from beat `b`: the sum of
`uint32(m * (timeStamp - previous))`. -/
def truncatedWaits (m : ℚ) : ℚ → List CachedMidiMessage → ℕ
  | _, [] => 0
  | b, w :: c => toUInt32 (m * (w.timeStamp - b)) + truncatedWaits m w.timeStamp c

/-- Every delta on the way through the events of `c` from beat `b` at the tempo `m` is
below `2 ^ 32` milliseconds. -/
def deltasFit (m : ℚ) : ℚ → List CachedMidiMessage → Prop
  | _, [] => True
  | b, w :: c => m * (w.timeStamp - b) < 2 ^ 32 ∧ deltasFit m w.timeStamp c

/-- Every delta on the way through the events of `c` from beat `b` at the tempo `m` is a
whole, non-negative number of milliseconds. -/
def deltasWhole (m : ℚ) : ℚ → List CachedMidiMessage → Prop
  | _, [] => True
  | b, w :: c => (∃ k : ℕ, m * (w.timeStamp - b) = k) ∧ deltasWhole m w.timeStamp c

/-- A non-loop run at 500 ms per quarter note over a note-on at beat 0 and its note-off
a third of a beat later. -/
def exTrunc : PlayerThread :=
  exThread [⟨0, .noteOn 1 60 100, 0⟩, ⟨1 / 3, .noteOff 1 60 0, 0⟩] false false 4
    (fun _ => false)

/-- A non-loop run at 500 ms per quarter note over a note-on at beat 1, another event at
beat 3 / 2 and the note-off at beat 4. -/
def exWhole : PlayerThread :=
  exThread [⟨1, .noteOn 1 60 100, 0⟩, ⟨3 / 2, .other 7, 0⟩, ⟨4, .noteOff 1 60 0, 0⟩]
    false false 4 (fun _ => false)

/-- A looped run from beat 0 to beat 1 (half a second at 500 ms per quarter note) over an
empty cache, with the exit requested from before the first iteration. -/
def exStuck : PlayerThread := exThread [] true false 1 (fun _ => true)

/-- The calls that notify the transport's listeners: `broadcastSeek`,
`broadcastTempoChanged`, `broadcastStop` and `seekToBeat`. -/
def Effect.isNotification : Effect → Bool
  | .broadcastSeek _ _ _ => true
  | .broadcastTempoChanged _ => true
  | .broadcastStop => true
  | .seekToBeat _ => true
  | _ => false

/-- The same thread with `broadcastMode` off. -/
def muted (p : PlayerThread) : PlayerThread := { p with broadcastMode := false }

/-- A trace without its notifications to listeners. -/
def silent (es : List Effect) : List Effect := es.filter (fun e => !e.isNotification)


/-- The exit request is seen in an iteration exactly when the iteration ends interrupted;
the flush then follows the check at once and ends the iteration. -/
def ObservedOrNot (p : PlayerThread) (s : State) (r : List Effect × State) : Prop :=
  (r.2.status = .interrupted ∧ ∃ q s1, Effect.threadShouldExit true ∉ q
      ∧ s1.holdingNotes = s.holdingNotes
      ∧ r.1 = q ++ Effect.threadShouldExit true :: (sendHoldingNotesOffAndMidiStop p s1).1
      ∧ r.2 = { (sendHoldingNotesOffAndMidiStop p s1).2 with status := .interrupted })
    ∨ (r.2.status ≠ .interrupted ∧ Effect.threadShouldExit true ∉ r.1)

/-- The cached events a trace pulled from the cache with `getNextMessage`, in order. -/
def pulled : List Effect → List CachedMidiMessage
  | [] => []
  | Effect.getNextMessage (some w) :: es => w :: pulled es
  | _ :: es => pulled es

/-- The effects of the slicing loops and of the checks for the exit: `Thread::sleep` and
`threadShouldExit()`. -/
def Effect.isSlice : Effect → Bool
  | .sleep _ => true
  | .threadShouldExit _ => true
  | _ => false

/-- A trace without its sleeps and exit checks. -/
def unsliced (es : List Effect) : List Effect := es.filter (fun e => !e.isSlice)

/-- The scenario run: looped and broadcasting, from beat 0 to beat 4, at the constant
tempo of `m` ms per quarter note, over a note-on at beat 1 and its note-off at beat 2,
with one instrument and no exit request. -/
def exScenario (m : ℚ) : PlayerThread :=
  { transport :=
      { seekToTime := fun _ => [⟨1, .noteOn 1 60 100, 0⟩, ⟨2, .noteOff 1 60 0, 0⟩]
        uniqueInstruments := [0]
        findTimeAndTempoAt := fun _ => (0, m)
        projectLastBeat := 4
        seekBeat := 0 }
    broadcastMode := true
    loopedMode := true
    startBeat := 0
    endBeat := 4
    threadShouldExit := fun _ => false
    isThreadRunning := false }

/-- The tempo events a trace sent out, in order. -/
def tempoEvents (es : List Effect) : List CachedMidiMessage :=
  (dispatched es).filter (fun w => w.message.isTempoMetaEvent)

/-- A looped, broadcasting run from beat 0 to beat 4 over a single tempo event at beat 1
that sets a quarter of a second per quarter note, where `findTimeAndTempoAt` gives
500 ms per quarter note at every beat; no exit request. -/
def exTempoLoop : PlayerThread :=
  exThread [⟨1, .tempoMetaEvent (1 / 4), 0⟩] true true 4 (fun _ => false)

/-- What a cursor needs for non-negative deltas: it is in non-decreasing beat order, no
event of it lies before `prevTimeStamp`, and no tempo event of it is negative. -/
def CursorOk (beat : ℚ) (c : List CachedMidiMessage) : Prop :=
  c.Pairwise (fun a b => a.timeStamp ≤ b.timeStamp)
    ∧ ∀ w ∈ c, beat ≤ w.timeStamp ∧ 0 ≤ w.message.getTempoSecondsPerQuarterNote

/-- The pacing invariant at the head of an iteration: the tempo is not negative, the rest
of the pass is in order and not before `prevTimeStamp`, and in loop mode `prevTimeStamp`
lies between the start beat and the end beat. -/
def Paced (p : PlayerThread) (s : State) : Prop :=
  0 ≤ s.msPerQuarter ∧ CursorOk s.prevTimeStamp s.cursor
    ∧ (p.loopedMode = true → p.startBeat ≤ s.prevTimeStamp ∧ s.prevTimeStamp ≤ p.endBeat)

/-- The elapsed-time arguments of the seek notifications of a trace, in order. -/
def seekTimes : List Effect → List ℚ
  | [] => []
  | Effect.broadcastSeek _ currentTimeMs _ :: es => currentTimeMs :: seekTimes es
  | _ :: es => seekTimes es

/-! ## The undo action `AutomationTrackRemoveAction` (`AutomationTrackActions.cpp`)

The action works on the project tree through `ProjectTreeItem::findChildByLayerId`,
`TreeItem::deleteItem`, `addChildTreeItem`, `deserialize` and `onRename`, none of which is
in this file: they are parameters of the embedding (`TreeOps`). -/

/-- An `XmlElement`, as far as the action handles it: a value that is stored and passed
on. -/
abbrev XmlElement := String

/-- A child of the project tree, with what `perform` reads from it: whether it is an
`AutomationTrackTreeItem`, `getSequence()->getLayerIdAsString()`,
`getSequence()->size()`, `serialize()` and `getXPath()`. -/
structure TreeItem where
  isAutomationTrack : Bool
  layerId : String
  sequenceSize : ℕ
  serialized : XmlElement
  xPath : String
  deriving DecidableEq

/-- The `ProjectTreeItem` the action belongs to: its children. -/
structure ProjectTreeItem where
  children : List TreeItem
  deriving DecidableEq

/-- The tree operations the action calls.  `findChildByLayerId` is the instance for
`AutomationTrackTreeItem`; `deleteItem` gives the result of `TreeItem::deleteItem` and the
project after it; `insertDeserialized project xml xPath` is the project after
`addChildTreeItem(new AutomationTrackTreeItem("empty"))`, `deserialize(xml)` and
`onRename(xPath)` on the new child. -/
structure TreeOps where
  findChildByLayerId : ProjectTreeItem → String → Option TreeItem
  deleteItem : ProjectTreeItem → TreeItem → Bool × ProjectTreeItem
  insertDeserialized : ProjectTreeItem → XmlElement → String → ProjectTreeItem

/-- The fields of `AutomationTrackRemoveAction`; a null `serializedTreeItem` is `none`. -/
structure AutomationTrackRemoveAction where
  layerId : String
  numEvents : ℕ
  serializedTreeItem : Option XmlElement
  xPath : String
  deriving DecidableEq

namespace AutomationTrackRemoveAction

/-- The constructor: it stores the layer id and sets `numEvents` to 0. -/
def create (targetLayerId : String) : AutomationTrackRemoveAction :=
  { layerId := targetLayerId, numEvents := 0, serializedTreeItem := none, xPath := "" }

/-- The method `AutomationTrackRemoveAction::perform`: the result, the project and the action
after the call. -/
def perform (ops : TreeOps) (project : ProjectTreeItem) (a : AutomationTrackRemoveAction) :
    Bool × ProjectTreeItem × AutomationTrackRemoveAction :=
  match ops.findChildByLayerId project a.layerId with
  | some treeItem =>
    let a1 := { a with numEvents := treeItem.sequenceSize
                       serializedTreeItem := some treeItem.serialized
                       xPath := treeItem.xPath }
    let r := ops.deleteItem project treeItem
    (r.1, r.2, a1)
  | none => (false, project, a)

/-- The method `AutomationTrackRemoveAction::undo`. -/
def undo (ops : TreeOps) (project : ProjectTreeItem) (a : AutomationTrackRemoveAction) :
    Bool × ProjectTreeItem × AutomationTrackRemoveAction :=
  match a.serializedTreeItem with
  | some xml => (true, ops.insertDeserialized project xml a.xPath, a)
  | none => (false, project, a)

/-- The method `AutomationTrackRemoveAction::deserialize`, on the two attributes and the
first child element of the given element; `none` when there is no child element to
copy. -/
def deserialize (a : AutomationTrackRemoveAction) (xPathAttribute layerIdAttribute : String)
    (firstChildElement : Option XmlElement) : Option AutomationTrackRemoveAction :=
  match firstChildElement with
  | some child =>
    some { a with xPath := xPathAttribute, layerId := layerIdAttribute,
                  serializedTreeItem := some child }
  | none => none

end AutomationTrackRemoveAction

/-- The contract of `findChildByLayerId<AutomationTrackTreeItem>`: the first child that is an
`AutomationTrackTreeItem` with the given layer id, if there is one. -/
def FindsByLayerId (ops : TreeOps) : Prop :=
  ∀ project layerId, ops.findChildByLayerId project layerId
    = project.children.find? (fun c => c.isAutomationTrack && c.layerId == layerId)

/-- Tree operations on a list of children: the search by layer id, a deletion that removes
the item and succeeds, and an insertion at the end. -/
def exTreeOps : TreeOps :=
  { findChildByLayerId := fun project layerId =>
      project.children.find? (fun c => c.isAutomationTrack && c.layerId == layerId)
    deleteItem := fun project item => (true, { children := project.children.erase item })
    insertDeserialized := fun project xml xPath =>
      { children := project.children ++ [⟨true, xml, 0, xml, xPath⟩] } }

/-- A project with a piano track of layer id `a` and an automation track of layer id
`b` holding seven events. -/
def exProject : ProjectTreeItem :=
  { children := [⟨false, "a", 3, "<piano/>", "Piano"⟩, ⟨true, "b", 7, "<auto/>", "Volume"⟩] }
/-! # Theorems -/

/-! ## The slicing loop -/

theorem ratFloor_eq (x : ℚ) : Rat.floor x = ⌊x⌋ :=
  (Rat.floor_def' x).trans Rat.floor_def.symm

theorem sleepSlices_of_le (p : PlayerThread) (fuel : ℕ) (delta : ℚ) (s : State)
    (h : delta ≤ 1000) : sleepSlices p fuel delta s = ([], s, false) := by
  cases fuel with
  | zero => rfl
  | succ n =>
    have : ¬ delta > (MINIMUM_STOP_CHECK_TIME_MS : ℚ) := by
      simp [MINIMUM_STOP_CHECK_TIME_MS]; exact h
    simp [sleepSlices, this]

theorem sliceFuel_sub (delta : ℚ) (h : delta > 1000) :
    sliceFuel delta = sliceFuel (delta - 1000) + 1 := by
  unfold sliceFuel
  have e : (delta - 1000) / 1000 = delta / 1000 - 1 := by ring
  rw [e, ratFloor_eq, ratFloor_eq, Int.floor_sub_one]
  have h1 : (1 : ℚ) ≤ delta / 1000 := by
    rw [le_div_iff₀ (by norm_num)]; linarith
  have h2 : (1 : ℤ) ≤ ⌊delta / 1000⌋ := Int.le_floor.2 (by exact_mod_cast h1)
  omega

/-- The fuel `sliceFuel delta` is enough: more fuel does not change the slicing loop. -/
theorem sleepSlices_fuel (p : PlayerThread) (fuel : ℕ) :
    ∀ (delta : ℚ) (s : State), sliceFuel delta ≤ fuel →
      sleepSlices p fuel delta s = sleepSlices p (sliceFuel delta) delta s := by
  induction fuel with
  | zero =>
    intro delta s h
    have : sliceFuel delta = 0 := by omega
    rw [this]
  | succ n ih =>
    intro delta s h
    by_cases hd : delta > 1000
    · have hf := sliceFuel_sub delta hd
      have hd' : delta > (MINIMUM_STOP_CHECK_TIME_MS : ℚ) := by
        simp [MINIMUM_STOP_CHECK_TIME_MS]; exact hd
      rw [hf]
      simp only [sleepSlices, hd', if_true]
      have hc : ((MINIMUM_STOP_CHECK_TIME_MS : ℕ) : ℚ) = 1000 := by
        simp [MINIMUM_STOP_CHECK_TIME_MS]
      rw [hc, ih (delta - 1000) _ (by omega)]
    · rw [sleepSlices_of_le p _ delta s (le_of_not_gt hd),
        sleepSlices_of_le p _ delta s (le_of_not_gt hd)]

/-- The slicing loop touches only the clock and the count of exit checks. -/
theorem sleepSlices_state (p : PlayerThread) (fuel : ℕ) :
    ∀ (delta : ℚ) (s : State),
      (sleepSlices p fuel delta s).2.1 =
        { s with now := (sleepSlices p fuel delta s).2.1.now,
                 exitChecks := (sleepSlices p fuel delta s).2.1.exitChecks } := by
  induction fuel with
  | zero => intro delta s; rfl
  | succ n ih =>
    intro delta s
    unfold sleepSlices
    split
    · split
      · rfl
      · simp only
        rw [ih]
    · rfl

/-- The slicing loop only sleeps and asks `threadShouldExit()`. -/
theorem mem_sleepSlices (p : PlayerThread) (fuel : ℕ) :
    ∀ (delta : ℚ) (s : State) (e : Effect), e ∈ (sleepSlices p fuel delta s).1 →
      e = Effect.sleep MINIMUM_STOP_CHECK_TIME_MS ∨ ∃ b, e = Effect.threadShouldExit b := by
  induction fuel with
  | zero => intro delta s e h; simp [sleepSlices] at h
  | succ n ih =>
    intro delta s e h
    unfold sleepSlices at h
    split at h
    · split at h
      · simp at h
        rcases h with h | h
        · exact Or.inl h
        · exact Or.inr ⟨true, h⟩
      · simp only [List.mem_cons] at h
        rcases h with h | h | h
        · exact Or.inl h
        · exact Or.inr ⟨false, h⟩
        · exact ih _ _ _ h
    · simp at h

theorem enqueued_append (a b : List Effect) : enqueued (a ++ b) = enqueued a ++ enqueued b := by
  induction a with
  | nil => rfl
  | cons e a ih => cases e <;> simp [enqueued, ih]

theorem enqueued_eq_nil (a : List Effect)
    (h : ∀ e ∈ a, ∀ l m t, e ≠ Effect.addMessageToQueue l m t) : enqueued a = [] := by
  induction a with
  | nil => rfl
  | cons e a ih =>
    have := ih (fun e he => h e (List.mem_cons_of_mem _ he))
    cases e <;> simp [enqueued, this]
    exact h _ (List.mem_cons_self _ _) _ _ _ rfl

theorem enqueued_sleepSlices (p : PlayerThread) (fuel : ℕ) (delta : ℚ) (s : State) :
    enqueued (sleepSlices p fuel delta s).1 = [] := by
  apply enqueued_eq_nil
  intro e he l m t
  rcases mem_sleepSlices p fuel delta s e he with h | ⟨b, h⟩ <;> simp [h]


/-! ## Iterating the loop -/

theorem runLoop_succ (p : PlayerThread) (n : ℕ) (s : State) :
    runLoop p (n + 1) s = ((step p s).1 ++ (runLoop p n (step p s).2).1,
      (runLoop p n (step p s).2).2) := rfl

theorem step_of_not_running (p : PlayerThread) (s : State) (h : s.status ≠ .running) :
    step p s = ([], s) := by
  unfold step
  split
  · rename_i h'; exact absurd h' h
  · rfl

theorem runLoop_of_not_running (p : PlayerThread) (n : ℕ) (s : State)
    (h : s.status ≠ .running) : runLoop p n s = ([], s) := by
  induction n with
  | zero => rfl
  | succ n ih => rw [runLoop_succ, step_of_not_running p s h]; simp [ih]

/-! ## C9 -/

/-- C9, counterexample: `startPlayback` called with `relEndBeat = 0 < relStartBeat = 4`
starts the thread with exactly that range, and the run begins at beat 4. -/
theorem startPlayback_accepts_reversed_range :
    (startPlayback (exThread [] false false 0 (fun _ => false)) 4 0 false false).isThreadRunning
        = true
      ∧ (startPlayback (exThread [] false false 0 (fun _ => false)) 4 0 false false).endBeat
        < (startPlayback (exThread [] false false 0 (fun _ => false)) 4 0 false false).startBeat
      ∧ (start (startPlayback (exThread [] false false 0 (fun _ => false)) 4 0 false false)
          0).2.status = .running
      ∧ (start (startPlayback (exThread [] false false 0 (fun _ => false)) 4 0 false false)
          0).2.prevTimeStamp = 4 := by
  decide!

/-- C9, amended: `startPlayback` validates nothing.  For all arguments, also with
`relEndBeat < relStartBeat`, it stores the four arguments unchanged, starts the thread,
and the run starts from `relStartBeat` with `endBeat = relEndBeat`. -/
theorem startPlayback_stores_arguments (p : PlayerThread) (relStartBeat relEndBeat : ℚ)
    (shouldLoop shouldBroadcast : Bool) (now : ℕ) :
    (startPlayback p relStartBeat relEndBeat shouldLoop shouldBroadcast).startBeat = relStartBeat
      ∧ (startPlayback p relStartBeat relEndBeat shouldLoop shouldBroadcast).endBeat = relEndBeat
      ∧ (startPlayback p relStartBeat relEndBeat shouldLoop shouldBroadcast).loopedMode
          = shouldLoop
      ∧ (startPlayback p relStartBeat relEndBeat shouldLoop shouldBroadcast).broadcastMode
          = shouldBroadcast
      ∧ (startPlayback p relStartBeat relEndBeat shouldLoop shouldBroadcast).isThreadRunning
          = true
      ∧ (start (startPlayback p relStartBeat relEndBeat shouldLoop shouldBroadcast)
          now).2.status = .running
      ∧ (start (startPlayback p relStartBeat relEndBeat shouldLoop shouldBroadcast)
          now).2.prevTimeStamp = relStartBeat :=
  ⟨rfl, rfl, rfl, rfl, rfl, rfl, rfl⟩

/-! ## The shape of an iteration -/

theorem isQuiet_of_mem_sleepSlices (p : PlayerThread) (fuel : ℕ) (delta : ℚ) (s : State)
    (e : Effect) (h : e ∈ (sleepSlices p fuel delta s).1) : e.isQuiet = true := by
  rcases mem_sleepSlices p fuel delta s _ h with h | ⟨_, h⟩ <;> subst h <;> rfl

theorem sleepSlices_holdingNotes (p : PlayerThread) (fuel : ℕ) (delta : ℚ) (s : State) :
    (sleepSlices p fuel delta s).2.1.holdingNotes = s.holdingNotes := by
  rw [sleepSlices_state]

theorem sleepSlices_msPerQuarter (p : PlayerThread) (fuel : ℕ) (delta : ℚ) (s : State) :
    (sleepSlices p fuel delta s).2.1.msPerQuarter = s.msPerQuarter := by
  rw [sleepSlices_state]

theorem sleepSlices_status (p : PlayerThread) (fuel : ℕ) (delta : ℚ) (s : State) :
    (sleepSlices p fuel delta s).2.1.status = s.status := by
  rw [sleepSlices_state]

theorem sleepSlices_cursor (p : PlayerThread) (fuel : ℕ) (delta : ℚ) (s : State) :
    (sleepSlices p fuel delta s).2.1.cursor = s.cursor := by
  rw [sleepSlices_state]

theorem sleepSlices_prevTimeStamp (p : PlayerThread) (fuel : ℕ) (delta : ℚ) (s : State) :
    (sleepSlices p fuel delta s).2.1.prevTimeStamp = s.prevTimeStamp := by
  rw [sleepSlices_state]

theorem sleepSlices_currentTimeMs (p : PlayerThread) (fuel : ℕ) (delta : ℚ) (s : State) :
    (sleepSlices p fuel delta s).2.1.currentTimeMs = s.currentTimeMs := by
  rw [sleepSlices_state]

theorem nextEventTimeStamp_of_not_rewind (p : PlayerThread) (w : CachedMidiMessage)
    (h : shouldRewind p w = false) : nextEventTimeStamp p w = w.timeStamp := by
  simp [nextEventTimeStamp, h]

theorem sleepSlices_exit (p : PlayerThread) (fuel : ℕ) :
    ∀ (delta : ℚ) (s : State), (sleepSlices p fuel delta s).2.2 = true →
      ∃ k, p.threadShouldExit k = true := by
  induction fuel with
  | zero => intro delta s h; simp [sleepSlices] at h
  | succ n ih =>
    intro delta s h
    unfold sleepSlices at h
    split at h
    · split at h
      · rename_i hk; exact ⟨_, hk⟩
      · exact ih _ _ h
    · simp at h

theorem endOfCache_result (p : PlayerThread) (s : State) (hrun : s.status = .running)
    (hc : s.cursor = []) : StepResult p s (endOfCache p s) := by
  unfold endOfCache
  simp only
  have hq := isQuiet_of_mem_sleepSlices p (sliceFuel (s.msPerQuarter * (p.endBeat - s.prevTimeStamp)))
    (s.msPerQuarter * (p.endBeat - s.prevTimeStamp)) s
  have hh := sleepSlices_holdingNotes p (sliceFuel (s.msPerQuarter * (p.endBeat - s.prevTimeStamp)))
    (s.msPerQuarter * (p.endBeat - s.prevTimeStamp)) s
  have hm := sleepSlices_msPerQuarter p (sliceFuel (s.msPerQuarter * (p.endBeat - s.prevTimeStamp)))
    (s.msPerQuarter * (p.endBeat - s.prevTimeStamp)) s
  have hs := sleepSlices_status p (sliceFuel (s.msPerQuarter * (p.endBeat - s.prevTimeStamp)))
    (s.msPerQuarter * (p.endBeat - s.prevTimeStamp)) s
  have hx := sleepSlices_exit p (sliceFuel (s.msPerQuarter * (p.endBeat - s.prevTimeStamp)))
    (s.msPerQuarter * (p.endBeat - s.prevTimeStamp)) s
  generalize sleepSlices p (sliceFuel (s.msPerQuarter * (p.endBeat - s.prevTimeStamp)))
    (s.msPerQuarter * (p.endBeat - s.prevTimeStamp)) s = w at hq hh hm hs hx ⊢
  obtain ⟨es, s1, b⟩ := w
  simp only at hq hh hm hs hx ⊢
  have hq1 : ∀ e ∈ Effect.getNextMessage none :: es, e.isQuiet = true := by
    intro e he
    rcases List.mem_cons.1 he with he | he
    · subst he; rfl
    · exact hq e he
  cases b with
  | true => exact StepResult.interrupted _ s1 hq1 hh (hx rfl)
  | false =>
    simp only [Bool.false_eq_true, if_false]
    have hq2 : ∀ t, ∀ e ∈ Effect.getNextMessage none :: es ++ [Effect.waitForMillisecondCounter t],
        e.isQuiet = true := by
      intro t e he
      rcases List.mem_append.1 he with he | he
      · exact hq1 e he
      · simp at he; subst he; rfl
    cases hl : p.loopedMode with
    | true =>
      simp only [if_true]
      exact StepResult.wrapped _ _ (hq2 _) hh hm (by rw [← hrun]; exact hs) hl (Or.inl hc)
    | false =>
      simp only [Bool.false_eq_true, if_false]
      exact StepResult.ended _ _ (hq2 _) hh hc hl

theorem waitThenPlay_result (p : PlayerThread) (s s0 : State) (w : CachedMidiMessage)
    (rest : List CachedMidiMessage) (delta : ℚ) (hc : s.cursor = w :: rest)
    (h0h : s0.holdingNotes = s.holdingNotes) (h0m : s0.msPerQuarter = s.msPerQuarter)
    (h0s : s0.status = .running) (h0c : s0.cursor = rest)
    (h0p : s0.prevTimeStamp = nextEventTimeStamp p w)
    (h0t : s0.currentTimeMs
      = s.currentTimeMs + s.msPerQuarter * (nextEventTimeStamp p w - s.prevTimeStamp)) :
    StepResult p s (waitThenPlay p w delta s0) := by
  unfold waitThenPlay
  simp only
  have hpull : ∀ e ∈ [Effect.getNextMessage (some w)], e.isQuiet = true := by
    intro e he; simp at he; subst he; rfl
  split
  · -- a wait is needed
    have hq := isQuiet_of_mem_sleepSlices p (sliceFuel delta) delta s0
    have hh := sleepSlices_holdingNotes p (sliceFuel delta) delta s0
    have hm := sleepSlices_msPerQuarter p (sliceFuel delta) delta s0
    have hs := sleepSlices_status p (sliceFuel delta) delta s0
    have hcu := sleepSlices_cursor p (sliceFuel delta) delta s0
    have hx := sleepSlices_exit p (sliceFuel delta) delta s0
    have hp := sleepSlices_prevTimeStamp p (sliceFuel delta) delta s0
    have ht := sleepSlices_currentTimeMs p (sliceFuel delta) delta s0
    generalize sleepSlices p (sliceFuel delta) delta s0 = r at hq hh hm hs hcu hx hp ht ⊢
    obtain ⟨es, s1, b⟩ := r
    simp only at hq hh hm hs hcu hx hp ht ⊢
    rw [h0p] at hp
    rw [h0t] at ht
    rw [h0h] at hh
    rw [h0m] at hm
    rw [h0s] at hs
    rw [h0c] at hcu
    have hq1 : ∀ e ∈ Effect.getNextMessage (some w) :: es, e.isQuiet = true := by
      intro e he
      rcases List.mem_cons.1 he with he | he
      · subst he; rfl
      · exact hq e he
    cases b with
    | true => exact StepResult.interrupted _ s1 hq1 hh (hx rfl)
    | false =>
      simp only [Bool.false_eq_true, if_false]
      have hq2 : ∀ t, ∀ e ∈ Effect.getNextMessage (some w) :: es
          ++ [Effect.waitForMillisecondCounter t], e.isQuiet = true := by
        intro t e he
        rcases List.mem_append.1 he with he | he
        · exact hq1 e he
        · simp at he; subst he; rfl
      split
      · rename_i hk
        refine StepResult.interrupted _ _ ?_ hh ⟨_, hk⟩
        intro e he
        rcases List.mem_append.1 he with he | he
        · exact hq2 _ e he
        · simp at he; subst he; rfl
      · have hq3 : ∀ (t : ℕ) (b : ℚ × ℚ × ℚ), ∀ e ∈ Effect.getNextMessage (some w) :: es
            ++ [Effect.waitForMillisecondCounter t] ++ [Effect.threadShouldExit false]
            ++ (if p.broadcastMode = true then [Effect.broadcastSeek b.1 b.2.1 b.2.2] else []),
            e.isQuiet = true := by
          intro t b e he
          rcases List.mem_append.1 he with he | he
          · rcases List.mem_append.1 he with he | he
            · exact hq2 _ e he
            · simp at he; subst he; rfl
          · split at he
            · simp at he; subst he; rfl
            · simp at he
        unfold rewindOrDispatch
        cases hr : shouldRewind p w with
        | true =>
          simp only [if_true]
          have hl : p.loopedMode = true := by
            unfold shouldRewind at hr
            simp at hr
            exact hr.1
          exact StepResult.wrapped _ _ (hq3 _ (_, _, _)) hh hm hs hl (Or.inr ⟨w, rest, hc, hr⟩)
        | false =>
          simp only [Bool.false_eq_true, if_false]
          rw [nextEventTimeStamp_of_not_rewind p w hr] at hp ht
          exact StepResult.dispatched _ _ w rest (hq3 _ (_, _, _)) hh hm hs hc hcu hr hp ht
  · -- zero delay
    unfold rewindOrDispatch
    cases hr : shouldRewind p w with
    | true =>
      simp only [if_true]
      have hl : p.loopedMode = true := by
        unfold shouldRewind at hr
        simp at hr
        exact hr.1
      exact StepResult.wrapped [Effect.getNextMessage (some w)] _ hpull h0h h0m h0s hl
        (Or.inr ⟨w, rest, hc, hr⟩)
    | false =>
      simp only [Bool.false_eq_true, if_false]
      rw [nextEventTimeStamp_of_not_rewind p w hr] at h0p h0t
      exact StepResult.dispatched [Effect.getNextMessage (some w)] _ w rest hpull h0h h0m h0s
        hc h0c hr h0p h0t

/-- Every iteration of a running thread has one of the four shapes of `StepResult`. -/
theorem step_result (p : PlayerThread) (s : State) (hrun : s.status = .running) :
    StepResult p s (step p s) := by
  unfold step
  simp only [hrun]
  cases hc : s.cursor with
  | nil => exact endOfCache_result p s hrun hc
  | cons w rest => exact waitThenPlay_result p s _ w rest _ hc rfl rfl rfl rfl rfl rfl

theorem enqueued_of_quiet (q : List Effect) (h : ∀ e ∈ q, e.isQuiet = true) :
    enqueued q = [] := by
  apply enqueued_eq_nil
  intro e he l m t hn
  have := h e he
  subst hn
  simp [Effect.isQuiet] at this

theorem enqueued_rewind (p : PlayerThread) (s : State) : enqueued (rewind p s).1 = [] := by
  unfold rewind
  split <;> rfl

theorem seekToTime_not_mem_flush (p : PlayerThread) (s : State) (b : ℚ) :
    Effect.seekToTime b ∉ (sendHoldingNotesOffAndMidiStop p s).1 := by
  simp [sendHoldingNotesOffAndMidiStop, holdingNotesOffAndMidiStop]

theorem seekToTime_not_mem_dispatch (p : PlayerThread) (w : CachedMidiMessage) (s : State)
    (b : ℚ) : Effect.seekToTime b ∉ (dispatch p w s).1 := by
  unfold dispatch
  split
  · simp [sendTempoChangeToEverybody]
  · simp

theorem seekToTime_not_mem_quiet (q : List Effect) (h : ∀ e ∈ q, e.isQuiet = true) (b : ℚ) :
    Effect.seekToTime b ∉ q := by
  intro hm
  have := h _ hm
  simp [Effect.isQuiet] at this

/-! ## C4 -/

/-- C4, counterexample: a looped run from beat 0 to beat 4 over a cache holding a single
note-on at beat 1.  After two iterations the thread has wrapped (the trace ends with the
seek to beat 0 and the cursor is back at the start), no note-off was sent and the note
is still in `holdingNotes`. -/
theorem held_note_survives_loop_wrap :
    (run (exThread [⟨1, .noteOn 1 60 100, 0⟩] true false 4 (fun _ => false)) 0 2).1
        = [Effect.seekToTime 0,
            Effect.addMessageToQueue 0 .midiStart 0,
            Effect.getNextMessage (some ⟨1, .noteOn 1 60 100, 0⟩),
            Effect.waitForMillisecondCounter 500,
            Effect.threadShouldExit false,
            Effect.setTimeStamp ⟨1, .noteOn 1 60 100, 0⟩ 500,
            Effect.addMessageToQueue 0 (.noteOn 1 60 100) 500,
            Effect.getNextMessage none,
            Effect.sleep 1000,
            Effect.threadShouldExit false,
            Effect.waitForMillisecondCounter 2000,
            Effect.seekToTime 0]
      ∧ (run (exThread [⟨1, .noteOn 1 60 100, 0⟩] true false 4 (fun _ => false)) 0 2).2.cursor
        = [⟨1, .noteOn 1 60 100, 0⟩]
      ∧ (run (exThread [⟨1, .noteOn 1 60 100, 0⟩] true false 4
          (fun _ => false)) 0 2).2.holdingNotes
        = [⟨60, 1, 0⟩] := by
  decide!

/-- C4, amended: an iteration that wraps (it seeks the cache back to `startBeat`) sends
nothing to any destination and leaves `holdingNotes` exactly as it was, so the list is
empty after the wrap only if it was empty before; the run goes on from the start
beat. -/
theorem loop_wrap_keeps_holdingNotes (p : PlayerThread) (s : State)
    (hrun : s.status = .running) (hwrap : Effect.seekToTime p.startBeat ∈ (step p s).1) :
    (step p s).2.holdingNotes = s.holdingNotes
      ∧ enqueued (step p s).1 = []
      ∧ (step p s).2.cursor = p.transport.seekToTime p.startBeat
      ∧ (step p s).2.prevTimeStamp = p.startBeat
      ∧ (step p s).2.status = .running := by
  have h := step_result p s hrun
  generalize step p s = r at h hwrap ⊢
  cases h with
  | interrupted q s1 hq hh hk =>
    exfalso
    rcases List.mem_append.1 hwrap with hm | hm
    · exact seekToTime_not_mem_quiet q hq _ hm
    · exact seekToTime_not_mem_flush p s1 _ hm
  | wrapped q s1 hq hh hm hs hl hcw =>
    refine ⟨hh, ?_, rfl, rfl, hs⟩
    rw [enqueued_append, enqueued_of_quiet q hq, enqueued_rewind]
    rfl
  | ended q s1 hq hh hc hl =>
    exfalso
    simp only [List.mem_append] at hwrap
    rcases hwrap with ((hm | hm) | hm) | hm
    · exact seekToTime_not_mem_quiet q hq _ hm
    · exact seekToTime_not_mem_flush p s1 _ hm
    · simp at hm
    · split at hm <;> simp at hm
  | dispatched q s1 w rest hq hh hm hs hc hcu hr hpt hct =>
    exfalso
    rcases List.mem_append.1 hwrap with hm | hm
    · exact seekToTime_not_mem_quiet q hq _ hm
    · exact seekToTime_not_mem_dispatch p w s1 _ hm

/-- C4, witness: the second iteration of the looped run over a single note-on at beat 1 is a
wrap; it keeps the held note and sends nothing. -/
theorem loop_wrap_keeps_holdingNotes_witness :
    (step (exThread [⟨1, .noteOn 1 60 100, 0⟩] true false 4 (fun _ => false))
        (run (exThread [⟨1, .noteOn 1 60 100, 0⟩] true false 4 (fun _ => false)) 0 1).2
      ).2.holdingNotes = [⟨60, 1, 0⟩]
      ∧ enqueued (step (exThread [⟨1, .noteOn 1 60 100, 0⟩] true false 4 (fun _ => false))
        (run (exThread [⟨1, .noteOn 1 60 100, 0⟩] true false 4 (fun _ => false)) 0 1).2).1
        = [] := by
  have h := loop_wrap_keeps_holdingNotes
    (exThread [⟨1, .noteOn 1 60 100, 0⟩] true false 4 (fun _ => false))
    (run (exThread [⟨1, .noteOn 1 60 100, 0⟩] true false 4 (fun _ => false)) 0 1).2
    (by decide!) (by decide!)
  refine ⟨h.1.trans (by decide!), h.2.1⟩

/-! ## C10 -/

theorem dispatch_holdingNotes (p : PlayerThread) (w : CachedMidiMessage) (s : State) :
    (dispatch p w s).2.holdingNotes = updateHoldingNotes w s.holdingNotes := by
  unfold dispatch; split <;> rfl

theorem dispatch_cursor (p : PlayerThread) (w : CachedMidiMessage) (s : State) :
    (dispatch p w s).2.cursor = s.cursor := by
  unfold dispatch; split <;> rfl

theorem dispatch_status (p : PlayerThread) (w : CachedMidiMessage) (s : State) :
    (dispatch p w s).2.status = s.status := by
  unfold dispatch; split <;> rfl

theorem updateHoldingNotes_noteOn (w : CachedMidiMessage) (l : List HoldingNote)
    (h : w.message.isNoteOn = true) : updateHoldingNotes w l = l ++ [noteOf w] := by
  have h2 : w.message.isNoteOff = false := by
    cases hm : w.message <;> simp [hm, MidiMessage.isNoteOn, MidiMessage.isNoteOff] at h ⊢
  simp [updateHoldingNotes, h, h2, noteOf]

theorem updateHoldingNotes_noteOff (w : CachedMidiMessage) (l : List HoldingNote)
    (h : w.message.isNoteOff = true) : updateHoldingNotes w l = l.erase (noteOf w) := by
  have h2 : w.message.isNoteOn = false := by
    cases hm : w.message <;> simp [hm, MidiMessage.isNoteOn, MidiMessage.isNoteOff] at h ⊢
  simp only [updateHoldingNotes, h, h2, if_true, Bool.false_eq_true, if_false]
  rw [List.erase_eq_eraseP]
  congr 1
  funext x
  cases x
  rw [Bool.eq_iff_iff]
  simp only [noteOf, Bool.and_eq_true, beq_iff_eq, HoldingNote.mk.injEq]
  constructor
  · rintro ⟨⟨a, b⟩, c⟩; exact ⟨a.symm, b.symm, c.symm⟩
  · rintro ⟨a, b, c⟩; exact ⟨⟨a.symm, b.symm⟩, c.symm⟩

theorem updateHoldingNotes_other (w : CachedMidiMessage) (l : List HoldingNote)
    (h1 : w.message.isNoteOn = false) (h2 : w.message.isNoteOff = false) :
    updateHoldingNotes w l = l := by
  simp [updateHoldingNotes, h1, h2]

theorem updateHoldingNotes_inv (w : CachedMidiMessage) (rest : List CachedMidiMessage)
    (held : List HoldingNote) (hnd : held.Nodup)
    (hno : ∀ t ∈ held, noteOnBeforeOff t (w :: rest) = false)
    (hwf : wellFormed (w :: rest) = true) :
    (updateHoldingNotes w held).Nodup
      ∧ (∀ t ∈ updateHoldingNotes w held, noteOnBeforeOff t rest = false)
      ∧ wellFormed rest = true := by
  simp only [wellFormed, Bool.and_eq_true, Bool.not_eq_true', Bool.and_eq_false_iff] at hwf
  obtain ⟨hw1, hw2⟩ := hwf
  refine ⟨?_, ?_, hw2⟩
  · cases hon : w.message.isNoteOn with
    | true =>
      rw [updateHoldingNotes_noteOn w held hon]
      refine List.Nodup.append hnd (List.nodup_singleton _) ?_
      intro t ht ht'
      rw [List.mem_singleton] at ht'
      subst ht'
      have := hno _ ht
      simp [noteOnBeforeOff, hon] at this
    | false =>
      cases hoff : w.message.isNoteOff with
      | true =>
        rw [updateHoldingNotes_noteOff w held hoff]
        exact hnd.erase _
      | false =>
        rw [updateHoldingNotes_other w held hon hoff]
        exact hnd
  · intro t ht
    cases hon : w.message.isNoteOn with
    | true =>
      rw [updateHoldingNotes_noteOn w held hon, List.mem_append, List.mem_singleton] at ht
      rcases ht with ht | ht
      · have := hno _ ht
        by_cases e : noteOf w = t
        · simp [noteOnBeforeOff, hon, e] at this
        · simpa [noteOnBeforeOff, e] using this
      · subst ht
        rcases hw1 with h | h
        · rw [hon] at h; exact absurd h (by simp)
        · exact h
    | false =>
      cases hoff : w.message.isNoteOff with
      | true =>
        rw [updateHoldingNotes_noteOff w held hoff] at ht
        have hmem := (List.Nodup.mem_erase_iff hnd).1 ht
        have := hno _ hmem.2
        have e : ¬ noteOf w = t := fun e => hmem.1 e.symm
        simpa [noteOnBeforeOff, e] using this
      | false =>
        rw [updateHoldingNotes_other w held hon hoff] at ht
        have := hno _ ht
        simpa [noteOnBeforeOff, hon, hoff] using this

theorem seekToTime_mem_rewind (p : PlayerThread) (s : State) :
    Effect.seekToTime p.startBeat ∈ (rewind p s).1 := by
  simp [rewind]

/-- An iteration that does not wrap keeps the invariant of `holdingNotes`. -/
theorem step_heldInv (p : PlayerThread) (s : State) (hinv : HeldInv s)
    (hnw : Effect.seekToTime p.startBeat ∉ (step p s).1) : HeldInv (step p s).2 := by
  by_cases hrun : s.status = .running
  · have h := step_result p s hrun
    generalize step p s = r at h hnw ⊢
    cases h with
    | interrupted q s1 hq hh hk =>
      refine ⟨?_, fun hs => by simp at hs⟩
      show s1.holdingNotes.Nodup
      rw [hh]; exact hinv.1
    | wrapped q s1 hq hh hm hs hl hcw =>
      exact absurd (List.mem_append_right _ (seekToTime_mem_rewind p s1)) hnw
    | ended q s1 hq hh hc hl =>
      refine ⟨?_, fun hs => by simp at hs⟩
      show s1.holdingNotes.Nodup
      rw [hh]; exact hinv.1
    | dispatched q s1 w rest hq hh hm hs hc hcu hr hpt hct =>
      have h2 := hinv.2 hrun
      rw [hc] at h2
      have := updateHoldingNotes_inv w rest s.holdingNotes hinv.1 h2.1 h2.2
      refine ⟨?_, fun _ => ⟨?_, ?_⟩⟩
      · rw [dispatch_holdingNotes, hh]; exact this.1
      · rw [dispatch_holdingNotes, hh, dispatch_cursor, hcu]; exact this.2.1
      · rw [dispatch_cursor, hcu]; exact this.2.2
  · rw [step_of_not_running p s hrun]
    exact hinv

theorem runLoop_heldInv (p : PlayerThread) (n : ℕ) :
    ∀ s, HeldInv s → Effect.seekToTime p.startBeat ∉ (runLoop p n s).1 →
      HeldInv (runLoop p n s).2 := by
  induction n with
  | zero => intro s h _; exact h
  | succ n ih =>
    intro s h hnw
    rw [runLoop_succ] at hnw ⊢
    simp only [List.mem_append, not_or] at hnw
    exact ih _ (step_heldInv p s h hnw.1) hnw.2

/-- A non-loop run never seeks the cache inside its loop. -/
theorem seekToTime_not_mem_step (p : PlayerThread) (hl : p.loopedMode = false) (s : State)
    (b : ℚ) : Effect.seekToTime b ∉ (step p s).1 := by
  by_cases hrun : s.status = .running
  · have h := step_result p s hrun
    generalize step p s = r at h ⊢
    cases h with
    | interrupted q s1 hq hh hk =>
      intro hm
      rcases List.mem_append.1 hm with hm | hm
      · exact seekToTime_not_mem_quiet q hq _ hm
      · exact seekToTime_not_mem_flush p s1 _ hm
    | wrapped q s1 hq hh hm hs hl' hcw => rw [hl] at hl'; exact absurd hl' (by simp)
    | ended q s1 hq hh hc hl =>
      intro hwrap
      simp only [List.mem_append] at hwrap
      rcases hwrap with ((hm | hm) | hm) | hm
      · exact seekToTime_not_mem_quiet q hq _ hm
      · exact seekToTime_not_mem_flush p s1 _ hm
      · simp at hm
      · split at hm <;> simp at hm
    | dispatched q s1 w rest hq hh hm hs hc hcu hr hpt hct =>
      intro hm
      rcases List.mem_append.1 hm with hm | hm
      · exact seekToTime_not_mem_quiet q hq _ hm
      · exact seekToTime_not_mem_dispatch p w s1 _ hm
  · rw [step_of_not_running p s hrun]
    simp

theorem seekToTime_not_mem_runLoop (p : PlayerThread) (hl : p.loopedMode = false) (n : ℕ) :
    ∀ s b, Effect.seekToTime b ∉ (runLoop p n s).1 := by
  induction n with
  | zero => intro s b; simp [runLoop]
  | succ n ih =>
    intro s b
    rw [runLoop_succ]
    simp only [List.mem_append, not_or]
    exact ⟨seekToTime_not_mem_step p hl s b, ih _ b⟩

theorem heldInv_start (p : PlayerThread) (now : ℕ)
    (hwf : wellFormed (p.transport.seekToTime p.startBeat) = true) :
    HeldInv (start p now).2 :=
  ⟨List.nodup_nil, fun _ => ⟨fun _ h => absurd h (List.not_mem_nil _), hwf⟩⟩

/-- C10, counterexample: a looped run from beat 0 to beat 4 over the well-formed cache
that holds one note-on at beat 1.  After three iterations (note-on, wrap, note-on)
`holdingNotes` has two entries for the same triple. -/
theorem holdingNotes_duplicate_after_wrap :
    wellFormed ((exThread [⟨1, .noteOn 1 60 100, 0⟩] true false 4
        (fun _ => false)).transport.seekToTime 0) = true
      ∧ (run (exThread [⟨1, .noteOn 1 60 100, 0⟩] true false 4
          (fun _ => false)) 0 3).2.holdingNotes
        = [⟨60, 1, 0⟩, ⟨60, 1, 0⟩]
      ∧ (run (exThread [⟨1, .noteOn 1 60 100, 0⟩] true false 4
          (fun _ => false)) 0 3).2.holdingNotes.count ⟨60, 1, 0⟩ = 2 := by
  decide!

/-- C10, amended: over a well-formed cached sequence `holdingNotes` has at most one
entry per (key, channel, destination) triple at every point of a non-loop run, and at
every point of a looped run up to its first wrap (while the loop has not sought the
cache back to `startBeat`). -/
theorem holdingNotes_at_most_one_until_wrap (p : PlayerThread) (now : ℕ)
    (hwf : wellFormed (p.transport.seekToTime p.startBeat) = true) :
    (p.loopedMode = false → ∀ n t, (run p now n).2.holdingNotes.count t ≤ 1)
      ∧ (∀ n, Effect.seekToTime p.startBeat ∉ (runLoop p n (start p now).2).1 →
          ∀ t, (run p now n).2.holdingNotes.count t ≤ 1) := by
  have key : ∀ n, Effect.seekToTime p.startBeat ∉ (runLoop p n (start p now).2).1 →
      ∀ t, (run p now n).2.holdingNotes.count t ≤ 1 := by
    intro n hnw t
    have := (runLoop_heldInv p n _ (heldInv_start p now hwf) hnw).1
    exact List.nodup_iff_count_le_one.1 this t
  exact ⟨fun hl n t => key n (seekToTime_not_mem_runLoop p hl n _ _) t, key⟩

/-- C10, witness: a non-loop run over note-on, note-off and note-on of one triple holds that
triple at most once after three iterations. -/
theorem holdingNotes_at_most_one_until_wrap_witness :
    wellFormed ((exThread [⟨1, .noteOn 1 60 100, 0⟩, ⟨2, .noteOff 1 60 0, 0⟩,
        ⟨3, .noteOn 1 60 90, 0⟩] false false 4 (fun _ => false)).transport.seekToTime 0) = true
      ∧ (run (exThread [⟨1, .noteOn 1 60 100, 0⟩, ⟨2, .noteOff 1 60 0, 0⟩,
          ⟨3, .noteOn 1 60 90, 0⟩] false false 4 (fun _ => false)) 0 3).2.holdingNotes.count
            ⟨60, 1, 0⟩ ≤ 1 :=
  ⟨by decide!,
    (holdingNotes_at_most_one_until_wrap
      (exThread [⟨1, .noteOn 1 60 100, 0⟩, ⟨2, .noteOff 1 60 0, 0⟩, ⟨3, .noteOn 1 60 90, 0⟩]
        false false 4 (fun _ => false)) 0 (by decide!)).1 rfl 3 ⟨60, 1, 0⟩⟩

/-! ## Matchings of note-ons with later note-offs -/

theorem bump_lt (k : ℕ) {i j : ℕ} (h : i < j) : bump k i < bump k j := by
  unfold bump; split <;> split <;> omega

theorem bump_ne (k i : ℕ) : bump k i ≠ k := by
  unfold bump; split <;> omega

theorem bump_inj (k : ℕ) {i j : ℕ} (h : bump k i = bump k j) : i = j := by
  unfold bump at h; split at h <;> split at h <;> omega

theorem exists_bump (k : ℕ) {i : ℕ} (h : i ≠ k) : ∃ j, bump k j = i := by
  by_cases hi : i < k
  · exact ⟨i, by simp [bump, hi]⟩
  · refine ⟨i - 1, ?_⟩
    unfold bump; split <;> omega

theorem getElem?_bump {α : Type} (a b : List α) (x : α) (i : ℕ) :
    (a ++ x :: b)[bump a.length i]? = (a ++ b)[i]? := by
  unfold bump
  split
  · rename_i h
    rw [List.getElem?_append_left h, List.getElem?_append_left h]
  · rename_i h
    have h1 : a.length ≤ i + 1 := by omega
    have h2 : a.length ≤ i := by omega
    rw [List.getElem?_append_right h1, List.getElem?_append_right h2]
    have : i + 1 - a.length = (i - a.length) + 1 := by omega
    rw [this, List.getElem?_cons_succ]

theorem getElem?_inserted {α : Type} (a b : List α) (x : α) :
    (a ++ x :: b)[a.length]? = some x := by
  rw [List.getElem?_append_right (le_refl _)]
  simp

/-- A matching survives the insertion of a message that is not a note-on. -/
theorem isMatching_insert {a b : List (MidiMessageCollector × MidiMessage)}
    {R : ℕ → ℕ → Prop} (h : IsMatching (a ++ b) R) (x : MidiMessageCollector × MidiMessage)
    (hx : x.2.isNoteOn = false) :
    IsMatching (a ++ x :: b) (fun i j => ∃ i0 j0, R i0 j0 ∧ bump a.length i0 = i
      ∧ bump a.length j0 = j) := by
  obtain ⟨h1, h2, h3⟩ := h
  refine ⟨?_, ?_, ?_⟩
  · rintro i j ⟨i0, j0, hr, rfl, rfl⟩
    obtain ⟨hlt, d, ch, k, v, v2, e1, e2⟩ := h1 i0 j0 hr
    exact ⟨bump_lt _ hlt, d, ch, k, v, v2, by rw [getElem?_bump, e1], by rw [getElem?_bump, e2]⟩
  · intro i d ch k v hi
    by_cases hk : i = a.length
    · subst hk
      rw [getElem?_inserted] at hi
      have : x = (d, .noteOn ch k v) := Option.some.inj hi
      subst this
      simp [MidiMessage.isNoteOn] at hx
    · obtain ⟨i0, rfl⟩ := exists_bump a.length hk
      rw [getElem?_bump] at hi
      obtain ⟨j0, hr⟩ := h2 i0 d ch k v hi
      exact ⟨bump a.length j0, i0, j0, hr, rfl, rfl⟩
  · rintro i i2 j ⟨i0, j0, hr, rfl, rfl⟩ ⟨i1, j1, hr1, rfl, e⟩
    have := bump_inj _ e
    subst this
    rw [h3 _ _ _ hr hr1]

/-- A matching survives the insertion of a note-on together with a later note-off of the
same destination, channel and key. -/
theorem isMatching_insertPair {a b c : List (MidiMessageCollector × MidiMessage)}
    {R : ℕ → ℕ → Prop} (h : IsMatching (a ++ (b ++ c)) R) (d : MidiMessageCollector)
    (ch k : ℤ) (v v2 : ℕ) :
    IsMatching (a ++ (d, .noteOn ch k v) :: (b ++ (d, .noteOff ch k v2) :: c))
      (fun i j => (∃ i0 j0, R i0 j0 ∧ bump a.length (bump (a.length + b.length) i0) = i
          ∧ bump a.length (bump (a.length + b.length) j0) = j)
        ∨ (i = a.length ∧ j = a.length + b.length + 1)) := by
  obtain ⟨h1, h2, h3⟩ := h
  have hget : ∀ i, (a ++ (d, MidiMessage.noteOn ch k v) :: (b ++ (d, .noteOff ch k v2) :: c))[
      bump a.length (bump (a.length + b.length) i)]? = (a ++ (b ++ c))[i]? := by
    intro i
    rw [getElem?_bump, ← List.append_assoc, ← List.append_assoc, ← List.length_append,
      getElem?_bump]
  have hoff : (a ++ (d, MidiMessage.noteOn ch k v) :: (b ++ (d, .noteOff ch k v2) :: c))[
      a.length + b.length + 1]? = some (d, .noteOff ch k v2) := by
    have e : a ++ (d, MidiMessage.noteOn ch k v) :: (b ++ (d, .noteOff ch k v2) :: c)
        = (a ++ (d, MidiMessage.noteOn ch k v) :: b) ++ (d, .noteOff ch k v2) :: c := by simp
    have e2 : a.length + b.length + 1 = (a ++ (d, MidiMessage.noteOn ch k v) :: b).length := by
      simp; omega
    rw [e, e2, getElem?_inserted]
  have hmid : bump a.length (a.length + b.length) = a.length + b.length + 1 := by
    unfold bump; split <;> omega
  refine ⟨?_, ?_, ?_⟩
  · rintro i j (⟨i0, j0, hr, rfl, rfl⟩ | ⟨rfl, rfl⟩)
    · obtain ⟨hlt, d', ch', k', v', v2', e1, e2⟩ := h1 i0 j0 hr
      exact ⟨bump_lt _ (bump_lt _ hlt), d', ch', k', v', v2', by rw [hget, e1],
        by rw [hget, e2]⟩
    · exact ⟨by omega, d, ch, k, v, v2, getElem?_inserted _ _ _, hoff⟩
  · intro i d' ch' k' v' hi
    by_cases hk : i = a.length
    · exact ⟨a.length + b.length + 1, Or.inr ⟨hk, rfl⟩⟩
    · obtain ⟨i1, rfl⟩ := exists_bump a.length hk
      by_cases hk2 : i1 = a.length + b.length
      · subst hk2
        rw [hmid, hoff] at hi
        simp at hi
      · obtain ⟨i0, rfl⟩ := exists_bump (a.length + b.length) hk2
        rw [hget] at hi
        obtain ⟨j0, hr⟩ := h2 i0 d' ch' k' v' hi
        exact ⟨_, Or.inl ⟨i0, j0, hr, rfl, rfl⟩⟩
  · rintro i i2 j (⟨i0, j0, hr, rfl, rfl⟩ | ⟨rfl, rfl⟩) (⟨i1, j1, hr1, rfl, e⟩ | ⟨rfl, e⟩)
    · have := bump_inj _ (bump_inj _ e)
      subst this
      rw [h3 _ _ _ hr hr1]
    · exfalso
      rw [← hmid] at e
      exact bump_ne _ _ (bump_inj _ e)
    · exfalso
      rw [← hmid] at e
      exact bump_ne _ _ (bump_inj _ e)
    · rfl

theorem matchable_nil : Matchable [] :=
  ⟨fun _ _ => False, fun _ _ h => h.elim, fun i d ch k v h => by simp at h,
    fun _ _ _ h => h.elim⟩

theorem matchable_insert {a b : List (MidiMessageCollector × MidiMessage)}
    (h : Matchable (a ++ b)) (x : MidiMessageCollector × MidiMessage)
    (hx : x.2.isNoteOn = false) : Matchable (a ++ x :: b) := by
  obtain ⟨R, hR⟩ := h
  exact ⟨_, isMatching_insert hR x hx⟩

theorem matchable_insertList {a b : List (MidiMessageCollector × MidiMessage)}
    (E : List (MidiMessageCollector × MidiMessage)) (hE : ∀ x ∈ E, x.2.isNoteOn = false)
    (h : Matchable (a ++ b)) : Matchable (a ++ (E ++ b)) := by
  induction E with
  | nil => exact h
  | cons x E ih =>
    exact matchable_insert (ih (fun y hy => hE y (List.mem_cons_of_mem _ hy))) x
      (hE x (List.mem_cons_self _ _))

theorem matchable_insertPair {a b c : List (MidiMessageCollector × MidiMessage)}
    (h : Matchable (a ++ (b ++ c))) (d : MidiMessageCollector) (ch k : ℤ) (v v2 : ℕ) :
    Matchable (a ++ (d, .noteOn ch k v) :: (b ++ (d, .noteOff ch k v2) :: c)) := by
  obtain ⟨R, hR⟩ := h
  exact ⟨_, isMatching_insertPair hR d ch k v v2⟩

/-- The note-offs of the flush close every held note. -/
theorem matchable_flush (tail : List (MidiMessageCollector × MidiMessage))
    (ht : ∀ x ∈ tail, x.2.isNoteOn = false) (O : List (MidiMessageCollector × MidiMessage))
    (held : List HoldingNote) (h : OnsFor O held) :
    Matchable (O ++ (noteOffsFor held ++ tail)) := by
  induction h with
  | nil =>
    have := matchable_insertList (a := []) (b := []) tail ht matchable_nil
    simpa [noteOffsFor] using this
  | @cons x n O held hx _ ih =>
    obtain ⟨v, rfl⟩ := hx
    have := matchable_insertPair (a := []) (b := O) (c := noteOffsFor held ++ tail)
      (by simpa using ih) n.listener n.channel n.key v 0
    simpa [noteOffsFor] using this

theorem enqueued_map (α : Type) (l : List α) (f : α → MidiMessageCollector)
    (g : α → MidiMessage) (t : ℕ) :
    enqueued (l.map (fun i => Effect.addMessageToQueue (f i) (g i) t))
      = l.map (fun i => (f i, g i)) := by
  induction l with
  | nil => rfl
  | cons x l ih => simp [enqueued, ih]

theorem enqueued_flush (p : PlayerThread) (s : State) :
    enqueued (sendHoldingNotesOffAndMidiStop p s).1
      = noteOffsFor s.holdingNotes
        ++ p.transport.uniqueInstruments.map (fun i => (i, MidiMessage.midiStop)) := by
  unfold sendHoldingNotesOffAndMidiStop holdingNotesOffAndMidiStop noteOffsFor
  simp only [enqueued_append]
  rw [enqueued_map HoldingNote s.holdingNotes (fun h => h.listener)
      (fun h => .noteOff h.channel h.key 0) s.now,
    enqueued_map MidiMessageCollector p.transport.uniqueInstruments (fun i => i)
      (fun _ => .midiStop) s.now]
  simp [enqueued]

theorem enqueued_dispatch (p : PlayerThread) (w : CachedMidiMessage) (s : State) :
    enqueued (dispatch p w s).1
      = if w.message.isTempoMetaEvent then
          p.transport.uniqueInstruments.map (fun i => (i, w.message))
        else [(w.listener, w.message)] := by
  unfold dispatch
  split
  · simp only [sendTempoChangeToEverybody]
    have e : ∀ es, enqueued (Effect.setTimeStamp w s.now :: es) = enqueued es := fun es => rfl
    rw [List.cons_append, e, enqueued_append,
      enqueued_map MidiMessageCollector p.transport.uniqueInstruments (fun i => i)
        (fun _ => w.message) s.now]
    split <;> simp [enqueued]
  · simp [enqueued]

theorem onsFor_erase (n : HoldingNote) (O : List (MidiMessageCollector × MidiMessage))
    (held : List HoldingNote) (h : OnsFor O held) (hn : n ∈ held) :
    ∃ O1 O2 v, O = O1 ++ (n.listener, MidiMessage.noteOn n.channel n.key v) :: O2
      ∧ OnsFor (O1 ++ O2) (held.erase n) := by
  induction h with
  | nil => simp at hn
  | @cons x m O held hx hrest ih =>
    by_cases e : m = n
    · subst e
      obtain ⟨v, rfl⟩ := hx
      exact ⟨[], O, v, rfl, by simpa using hrest⟩
    · have hn' : n ∈ held := by
        rcases List.mem_cons.1 hn with h | h
        · exact absurd h.symm e
        · exact h
      obtain ⟨O1, O2, v, rfl, h2⟩ := ih hn'
      refine ⟨x :: O1, O2, v, rfl, ?_⟩
      have : (m :: held).erase n = m :: held.erase n := by
        rw [List.erase_cons_tail]
        simpa using e
      rw [this]
      exact List.Forall₂.cons hx h2

/-- Sending a cached message keeps the note-ons matchable: a note-on joins the held
notes, a note-off closes the first held note of its triple. -/
theorem dispatch_matchable (p : PlayerThread) (w : CachedMidiMessage) (s : State)
    (T : List (MidiMessageCollector × MidiMessage))
    (hT : ∀ O, OnsFor O (updateHoldingNotes w s.holdingNotes) → Matchable (O ++ T))
    (O : List (MidiMessageCollector × MidiMessage)) (hO : OnsFor O s.holdingNotes) :
    Matchable (O ++ (enqueued (dispatch p w s).1 ++ T)) := by
  rw [enqueued_dispatch]
  cases hon : w.message.isNoteOn with
  | true =>
    obtain ⟨ts, m, l⟩ := w
    cases m <;> simp [MidiMessage.isNoteOn] at hon
    rename_i ch k v
    have hu := updateHoldingNotes_noteOn ⟨ts, .noteOn ch k v, l⟩ s.holdingNotes rfl
    have := hT (O ++ [(l, .noteOn ch k v)]) (by
      rw [hu]
      exact List.rel_append hO (List.Forall₂.cons ⟨v, rfl⟩ List.Forall₂.nil))
    simpa [MidiMessage.isTempoMetaEvent] using this
  | false =>
    cases hoff : w.message.isNoteOff with
    | true =>
      obtain ⟨ts, m, l⟩ := w
      cases m <;> simp [MidiMessage.isNoteOff] at hoff
      rename_i ch k v
      have hu := updateHoldingNotes_noteOff ⟨ts, .noteOff ch k v, l⟩ s.holdingNotes rfl
      simp only [MidiMessage.isTempoMetaEvent, Bool.false_eq_true, if_false]
      by_cases hmem : noteOf ⟨ts, .noteOff ch k v, l⟩ ∈ s.holdingNotes
      · obtain ⟨O1, O2, v', rfl, h2⟩ := onsFor_erase _ O _ hO hmem
        rw [← hu] at h2
        have := matchable_insertPair (by simpa using hT _ h2) l ch k v' v
        simpa [noteOf, MidiMessage.getChannel, MidiMessage.getNoteNumber] using this
      · rw [List.erase_of_not_mem hmem] at hu
        rw [← hu] at hO
        exact matchable_insert (hT O hO) _ rfl
    | false =>
      have hu := updateHoldingNotes_other w s.holdingNotes hon hoff
      rw [← hu] at hO
      split
      · refine matchable_insertList _ ?_ (hT O hO)
        intro x hx
        simp only [List.mem_map] at hx
        obtain ⟨i, _, rfl⟩ := hx
        exact hon
      · exact matchable_insert (hT O hO) _ hon

theorem not_noteOn_midiStop (l : List MidiMessageCollector) :
    ∀ x ∈ l.map (fun i => (i, MidiMessage.midiStop)), x.2.isNoteOn = false := by
  intro x hx
  simp only [List.mem_map] at hx
  obtain ⟨i, _, rfl⟩ := hx
  rfl

/-- From a running state to the return of `run`: the note-ons already held and those sent
on the way can all be matched with later note-offs. -/
theorem runLoop_matchable (p : PlayerThread) (n : ℕ) :
    ∀ s, s.status = .running → (runLoop p n s).2.status ≠ .running →
      ∀ O, OnsFor O s.holdingNotes → Matchable (O ++ enqueued (runLoop p n s).1) := by
  induction n with
  | zero => intro s hrun hterm; exact absurd hrun hterm
  | succ n ih =>
    intro s hrun hterm O hO
    rw [runLoop_succ] at hterm ⊢
    simp only at hterm ⊢
    have h := step_result p s hrun
    generalize step p s = r at h hterm ⊢
    cases h with
    | interrupted q s1 hq hh hk =>
      rw [runLoop_of_not_running p n _ (by simp)]
      simp only [List.append_nil, enqueued_append, enqueued_of_quiet q hq, List.nil_append,
        enqueued_flush]
      rw [hh]
      exact matchable_flush _ (not_noteOn_midiStop _) O _ hO
    | ended q s1 hq hh hc hl =>
      rw [runLoop_of_not_running p n _ (by simp)]
      have e : enqueued (if p.broadcastMode = true then
          [Effect.seekToBeat p.transport.seekBeat, Effect.broadcastStop] else []) = [] := by
        split <;> rfl
      simp only [List.append_nil, enqueued_append, enqueued_of_quiet q hq, List.nil_append,
        enqueued_flush, e]
      rw [hh]
      simpa [enqueued] using matchable_flush _ (not_noteOn_midiStop _) O _ hO
    | wrapped q s1 hq hh hm hs hl hcw =>
      simp only [enqueued_append, enqueued_of_quiet q hq, enqueued_rewind, List.nil_append]
      have hO' : OnsFor O (rewind p s1).2.holdingNotes := by
        show OnsFor O s1.holdingNotes
        rw [hh]; exact hO
      exact ih (rewind p s1).2 hs hterm O hO'
    | dispatched q s1 w rest hq hh hm hs hc hcu hr hpt hct =>
      simp only [enqueued_append, enqueued_of_quiet q hq, List.nil_append]
      have hst : (dispatch p w s1).2.status = .running := by rw [dispatch_status, hs]
      refine dispatch_matchable p w s1 _ ?_ O (by rw [hh]; exact hO)
      intro O' hO'
      exact ih _ hst hterm O' (by rw [dispatch_holdingNotes]; exact hO')

theorem enqueued_start (p : PlayerThread) (now : ℕ) :
    enqueued (start p now).1
      = p.transport.uniqueInstruments.map (fun i => (i, MidiMessage.midiStart)) := by
  unfold start sendMidiStart
  simp only [enqueued_append]
  rw [enqueued_map MidiMessageCollector p.transport.uniqueInstruments (fun i => i)
    (fun _ => .midiStart) now]
  split <;> simp [enqueued]

theorem run_matchable (p : PlayerThread) (now n : ℕ)
    (hterm : (run p now n).2.status ≠ .running) : Matchable (enqueued (run p now n).1) := by
  unfold run at hterm ⊢
  simp only at hterm ⊢
  rw [enqueued_append, enqueued_start]
  have := runLoop_matchable p n (start p now).2 rfl hterm [] List.Forall₂.nil
  have hst : ∀ x ∈ p.transport.uniqueInstruments.map (fun i => (i, MidiMessage.midiStart)),
      x.2.isNoteOn = false := by
    intro x hx
    simp only [List.mem_map] at hx
    obtain ⟨i, _, rfl⟩ := hx
    rfl
  exact matchable_insertList (a := []) _ hst this

/-- Where the note-offs of a trace come from: a note-off sent by an iteration is a cached
message sent to its own listener, or the flush's note-off for a note that is held when
`run` returns. -/
theorem noteOff_origin_runLoop (p : PlayerThread) (n : ℕ) :
    ∀ s, (∀ w ∈ s.cursor, w ∈ p.transport.seekToTime p.startBeat) →
      ∀ d ch k v2, (d, MidiMessage.noteOff ch k v2) ∈ enqueued (runLoop p n s).1 →
        (∃ w ∈ p.transport.seekToTime p.startBeat,
            w.listener = d ∧ w.message = .noteOff ch k v2)
          ∨ (v2 = 0 ∧ (⟨k, ch, d⟩ : HoldingNote) ∈ (runLoop p n s).2.holdingNotes) := by
  induction n with
  | zero => intro s _ d ch k v2 h; simp [runLoop, enqueued] at h
  | succ n ih =>
    intro s hcur d ch k v2 hmem
    by_cases hrun : s.status = .running
    · rw [runLoop_succ] at hmem ⊢
      simp only at hmem ⊢
      have h := step_result p s hrun
      generalize step p s = r at h hmem ⊢
      have hflush : ∀ s1 : State, (d, MidiMessage.noteOff ch k v2)
          ∈ noteOffsFor s1.holdingNotes
            ++ p.transport.uniqueInstruments.map (fun i => (i, MidiMessage.midiStop)) →
          v2 = 0 ∧ (⟨k, ch, d⟩ : HoldingNote) ∈ s1.holdingNotes := by
        intro s1 hm
        rcases List.mem_append.1 hm with hm | hm
        · simp only [noteOffsFor, List.mem_map] at hm
          obtain ⟨h0, hh0, e⟩ := hm
          simp only [Prod.mk.injEq, MidiMessage.noteOff.injEq] at e
          obtain ⟨e1, e2, e3, e4⟩ := e
          refine ⟨e4.symm, ?_⟩
          have : h0 = ⟨k, ch, d⟩ := by cases h0; simp_all
          rw [← this]; exact hh0
        · simp at hm
      cases h with
      | interrupted q s1 hq hh hk =>
        rw [runLoop_of_not_running p n _ (by simp)] at hmem ⊢
        simp only [List.append_nil, enqueued_append, enqueued_of_quiet q hq, List.nil_append,
          enqueued_flush] at hmem
        exact Or.inr (hflush s1 hmem)
      | ended q s1 hq hh hc hl =>
        rw [runLoop_of_not_running p n _ (by simp)] at hmem ⊢
        have e : enqueued (if p.broadcastMode = true then
            [Effect.seekToBeat p.transport.seekBeat, Effect.broadcastStop] else []) = [] := by
          split <;> rfl
        simp only [List.append_nil, enqueued_append, enqueued_of_quiet q hq, List.nil_append,
          enqueued_flush, e, enqueued] at hmem
        exact Or.inr (hflush s1 hmem)
      | wrapped q s1 hq hh hm hs hl hcw =>
        simp only [enqueued_append, enqueued_of_quiet q hq, enqueued_rewind,
          List.nil_append] at hmem
        exact ih (rewind p s1).2 (fun w hw => hw) d ch k v2 hmem
      | dispatched q s1 w rest hq hh hm hs hc hcu hr hpt hct =>
        simp only [enqueued_append, enqueued_of_quiet q hq, List.nil_append,
          List.mem_append] at hmem
        rcases hmem with hmem | hmem
        · left
          rw [enqueued_dispatch] at hmem
          split at hmem
          · rename_i ht
            simp only [List.mem_map, Prod.mk.injEq] at hmem
            obtain ⟨i, _, _, e⟩ := hmem
            rw [e] at ht
            simp [MidiMessage.isTempoMetaEvent] at ht
          · simp only [List.mem_singleton, Prod.mk.injEq] at hmem
            exact ⟨w, hcur w (by rw [hc]; exact List.mem_cons_self _ _), hmem.1.symm,
              hmem.2.symm⟩
        · refine ih (dispatch p w s1).2 ?_ d ch k v2 hmem
          intro w' hw'
          rw [dispatch_cursor, hcu] at hw'
          exact hcur w' (by rw [hc]; exact List.mem_cons_of_mem _ hw')
    · rw [runLoop_of_not_running p _ s hrun] at hmem
      simp [enqueued] at hmem

/-! ## C1 -/

/-- C1: for every run that has returned (after observing the exit request or at the
natural end), the note-ons enqueued to destinations are matched one to one with later
note-offs: `f` sends the position of each note-on to the position of a later note-off
with the same destination, channel and key, and distinct note-ons go to distinct
note-offs.  Every enqueued note-off is a cached message sent to its own listener or the
velocity-0 note-off that `sendHoldingNotesOffAndMidiStop` sends for a held note. -/
theorem every_noteOn_gets_its_noteOff (p : PlayerThread) (now n : ℕ)
    (hterm : (run p now n).2.status ≠ .running) :
    (∃ f : ℕ → ℕ,
        (∀ i d ch k v, (enqueued (run p now n).1)[i]? = some (d, .noteOn ch k v) →
          i < f i ∧ ∃ v2, (enqueued (run p now n).1)[f i]? = some (d, .noteOff ch k v2))
        ∧ (∀ i i2 d ch k v d2 ch2 k2 v2,
            (enqueued (run p now n).1)[i]? = some (d, .noteOn ch k v) →
            (enqueued (run p now n).1)[i2]? = some (d2, .noteOn ch2 k2 v2) →
            f i = f i2 → i = i2))
      ∧ (∀ d ch k v2, (d, MidiMessage.noteOff ch k v2) ∈ enqueued (run p now n).1 →
          (∃ w ∈ p.transport.seekToTime p.startBeat,
              w.listener = d ∧ w.message = .noteOff ch k v2)
            ∨ (v2 = 0 ∧ (⟨k, ch, d⟩ : HoldingNote) ∈ (run p now n).2.holdingNotes)) := by
  constructor
  · obtain ⟨R, h1, h2, h3⟩ := run_matchable p now n hterm
    classical
    refine ⟨fun i => if h : ∃ j, R i j then Classical.choose h else 0, ?_, ?_⟩
    · intro i d ch k v hi
      have hex := h2 i d ch k v hi
      simp only [hex, dif_pos]
      obtain ⟨hlt, d', ch', k', v', v2, e1, e2⟩ := h1 _ _ (Classical.choose_spec hex)
      rw [hi] at e1
      simp only [Option.some.injEq, Prod.mk.injEq, MidiMessage.noteOn.injEq] at e1
      obtain ⟨rfl, rfl, rfl, rfl⟩ := e1
      exact ⟨hlt, v2, e2⟩
    · intro i i2 d ch k v d2 ch2 k2 v2 hi hi2 hf
      have hex := h2 i d ch k v hi
      have hex2 := h2 i2 d2 ch2 k2 v2 hi2
      simp only [hex, hex2, dif_pos] at hf
      have r1 := Classical.choose_spec hex
      have r2 := Classical.choose_spec hex2
      rw [hf] at r1
      exact h3 _ _ _ r1 r2
  · intro d ch k v2 hmem
    unfold run at hmem ⊢
    simp only [enqueued_append, enqueued_start, List.mem_append, List.mem_map,
      Prod.mk.injEq] at hmem ⊢
    rcases hmem with ⟨i, _, _, e⟩ | hmem
    · exact absurd e (by simp)
    · exact noteOff_origin_runLoop p n (start p now).2 (fun w hw => hw) d ch k v2 hmem

/-- C1, witness: a looped run interrupted in its second pass, while the note of the first
pass is still held; the flush closes it. -/
theorem every_noteOn_gets_its_noteOff_witness :
    (run (exThread [⟨1, .noteOn 1 60 100, 0⟩, ⟨5, .noteOff 1 60 0, 0⟩] true true 4
        (fun k => decide (3 ≤ k))) 0 6).2.status ≠ .running
      ∧ enqueued (run (exThread [⟨1, .noteOn 1 60 100, 0⟩, ⟨5, .noteOff 1 60 0, 0⟩] true true 4
        (fun k => decide (3 ≤ k))) 0 6).1
          = [(0, .midiStart), (0, .noteOn 1 60 100), (0, .noteOff 1 60 0), (0, .midiStop)]
      ∧ ∃ f : ℕ → ℕ,
        (∀ i d ch k v, (enqueued (run (exThread [⟨1, .noteOn 1 60 100, 0⟩,
            ⟨5, .noteOff 1 60 0, 0⟩] true true 4 (fun k => decide (3 ≤ k))) 0 6).1)[i]?
              = some (d, .noteOn ch k v) →
          i < f i ∧ ∃ v2, (enqueued (run (exThread [⟨1, .noteOn 1 60 100, 0⟩,
            ⟨5, .noteOff 1 60 0, 0⟩] true true 4 (fun k => decide (3 ≤ k))) 0 6).1)[f i]?
              = some (d, .noteOff ch k v2)) :=
  ⟨by decide!, by decide!,
    (every_noteOn_gets_its_noteOff (exThread [⟨1, .noteOn 1 60 100, 0⟩,
      ⟨5, .noteOff 1 60 0, 0⟩] true true 4 (fun k => decide (3 ≤ k))) 0 6
        (by decide!)).1.imp (fun _ h => h.1)⟩

/-! ## C2 -/

theorem runLoop_interrupted (p : PlayerThread)
    (hcache : ∀ w ∈ p.transport.seekToTime p.startBeat, w.message ≠ .midiStop) (n : ℕ) :
    ∀ s, (∀ w ∈ s.cursor, w ∈ p.transport.seekToTime p.startBeat) → s.status = .running →
      (runLoop p n s).2.status = .interrupted →
      ∃ body, enqueued (runLoop p n s).1
          = body ++ (noteOffsFor (runLoop p n s).2.holdingNotes
            ++ p.transport.uniqueInstruments.map (fun i => (i, MidiMessage.midiStop)))
        ∧ ∀ x ∈ body, x.2 ≠ MidiMessage.midiStop := by
  induction n with
  | zero => intro s _ hrun hint; rw [show (runLoop p 0 s).2 = s from rfl, hrun] at hint; simp at hint
  | succ n ih =>
    intro s hcur hrun hint
    rw [runLoop_succ] at hint ⊢
    simp only at hint ⊢
    have h := step_result p s hrun
    generalize step p s = r at h hint ⊢
    cases h with
    | interrupted q s1 hq hh hk =>
      rw [runLoop_of_not_running p n _ (by simp)]
      refine ⟨[], ?_, by simp⟩
      simp only [List.append_nil, enqueued_append, enqueued_of_quiet q hq, List.nil_append,
        enqueued_flush]
      rfl
    | ended q s1 hq hh hc hl =>
      rw [runLoop_of_not_running p n _ (by simp)] at hint
      simp at hint
    | wrapped q s1 hq hh hm hs hl hcw =>
      simp only [enqueued_append, enqueued_of_quiet q hq, enqueued_rewind, List.nil_append]
      exact ih (rewind p s1).2 (fun w hw => hw) hs hint
    | dispatched q s1 w rest hq hh hm hs hc hcu hr hpt hct =>
      have hst : (dispatch p w s1).2.status = .running := by rw [dispatch_status, hs]
      have hcur' : ∀ w' ∈ (dispatch p w s1).2.cursor,
          w' ∈ p.transport.seekToTime p.startBeat := by
        intro w' hw'
        rw [dispatch_cursor, hcu] at hw'
        exact hcur w' (by rw [hc]; exact List.mem_cons_of_mem _ hw')
      obtain ⟨body, hb, hns⟩ := ih _ hcur' hst hint
      refine ⟨enqueued (dispatch p w s1).1 ++ body, ?_, ?_⟩
      · simp only [enqueued_append, enqueued_of_quiet q hq, List.nil_append, hb,
          List.append_assoc]
      · intro x hx
        rcases List.mem_append.1 hx with hx | hx
        · have hw : w.message ≠ .midiStop :=
            hcache w (hcur w (by rw [hc]; exact List.mem_cons_self _ _))
          rw [enqueued_dispatch] at hx
          split at hx
          · simp only [List.mem_map] at hx
            obtain ⟨i, _, rfl⟩ := hx
            exact hw
          · simp only [List.mem_singleton] at hx
            subst hx
            exact hw
        · exact hns x hx

theorem count_midiStop (l : List MidiMessageCollector) (d : MidiMessageCollector) :
    (l.map (fun i => (i, MidiMessage.midiStop))).count (d, MidiMessage.midiStop)
      = l.count d := by
  induction l with
  | nil => rfl
  | cons a l ih =>
    by_cases e : a = d
    · subst e; simp [ih]
    · have : ¬ (d, MidiMessage.midiStop) = (a, MidiMessage.midiStop) := by
        intro h; exact e (Prod.mk.inj h).1.symm
      simp only [List.map_cons]
      rw [List.count_cons_of_ne this, List.count_cons_of_ne (Ne.symm e), ih]

/-- C2: when `run` has returned after observing the exit request, the messages it
enqueued end with the note-offs for the notes held at that moment followed by one MIDI
stop for each unique instrument, and no MIDI stop was enqueued before; so every unique
destination received exactly one MIDI stop, after all the synthesized note-offs.  The
instruments are pairwise distinct and the cache holds no MIDI stop of its own. -/
theorem cancel_sends_one_midiStop (p : PlayerThread) (now n : ℕ)
    (hnodup : p.transport.uniqueInstruments.Nodup)
    (hcache : ∀ w ∈ p.transport.seekToTime p.startBeat, w.message ≠ .midiStop)
    (hint : (run p now n).2.status = .interrupted) :
    (∃ body, enqueued (run p now n).1
          = body ++ (noteOffsFor (run p now n).2.holdingNotes
            ++ p.transport.uniqueInstruments.map (fun i => (i, MidiMessage.midiStop)))
        ∧ ∀ x ∈ body, x.2 ≠ MidiMessage.midiStop)
      ∧ ∀ d ∈ p.transport.uniqueInstruments,
          (enqueued (run p now n).1).count (d, MidiMessage.midiStop) = 1 := by
  have hdec : ∃ body, enqueued (run p now n).1
        = body ++ (noteOffsFor (run p now n).2.holdingNotes
          ++ p.transport.uniqueInstruments.map (fun i => (i, MidiMessage.midiStop)))
      ∧ ∀ x ∈ body, x.2 ≠ MidiMessage.midiStop := by
    unfold run at hint ⊢
    simp only at hint ⊢
    obtain ⟨body, hb, hns⟩ :=
      runLoop_interrupted p hcache n (start p now).2 (fun w hw => hw) rfl hint
    refine ⟨enqueued (start p now).1 ++ body, ?_, ?_⟩
    · rw [enqueued_append, hb, List.append_assoc]
    · intro x hx
      rcases List.mem_append.1 hx with hx | hx
      · rw [enqueued_start] at hx
        simp only [List.mem_map] at hx
        obtain ⟨i, _, rfl⟩ := hx
        simp
      · exact hns x hx
  refine ⟨hdec, ?_⟩
  obtain ⟨body, hb, hns⟩ := hdec
  intro d hd
  rw [hb, List.count_append, List.count_append, count_midiStop,
    List.count_eq_one_of_mem hnodup hd]
  have h1 : body.count (d, MidiMessage.midiStop) = 0 :=
    List.count_eq_zero.2 (fun hm => hns _ hm rfl)
  have h2 : (noteOffsFor (run p now n).2.holdingNotes).count (d, MidiMessage.midiStop) = 0 := by
    apply List.count_eq_zero.2
    intro hm
    simp [noteOffsFor] at hm
  omega

/-- C2, witness: a run interrupted at the second exit check sends one MIDI stop to its only
instrument. -/
theorem cancel_sends_one_midiStop_witness :
    (exThread [⟨1, .noteOn 1 60 100, 0⟩, ⟨2, .other 7, 0⟩] false true 4
        (fun k => decide (1 ≤ k))).transport.uniqueInstruments.Nodup
      ∧ (run (exThread [⟨1, .noteOn 1 60 100, 0⟩, ⟨2, .other 7, 0⟩] false true 4
        (fun k => decide (1 ≤ k))) 0 2).2.status = .interrupted
      ∧ (enqueued (run (exThread [⟨1, .noteOn 1 60 100, 0⟩, ⟨2, .other 7, 0⟩] false true 4
        (fun k => decide (1 ≤ k))) 0 2).1).count (0, MidiMessage.midiStop) = 1 :=
  ⟨by decide, by decide!,
    (cancel_sends_one_midiStop (exThread [⟨1, .noteOn 1 60 100, 0⟩, ⟨2, .other 7, 0⟩]
      false true 4 (fun k => decide (1 ≤ k))) 0 2 (by decide) (by decide) (by decide!)).2 0
      (by decide)⟩

/-! ## C5: lemmas on the end of a non-loop run -/

theorem sleepSlices_no_exit (p : PlayerThread) (hnc : ∀ k, p.threadShouldExit k = false)
    (fuel : ℕ) (delta : ℚ) (s : State) : (sleepSlices p fuel delta s).2.2 = false := by
  cases h : (sleepSlices p fuel delta s).2.2 with
  | false => rfl
  | true =>
    obtain ⟨k, hk⟩ := sleepSlices_exit p fuel delta s h
    rw [hnc k] at hk
    exact absurd hk (by simp)

theorem not_closing_of_quiet (q : List Effect) (hq : ∀ e ∈ q, e.isQuiet = true) :
    ∀ e ∈ q, e.isClosing = false := by
  intro e he
  have := hq e he
  cases e <;> simp [Effect.isQuiet] at this <;> rfl

theorem not_closing_flush (p : PlayerThread) (s : State) :
    ∀ e ∈ (sendHoldingNotesOffAndMidiStop p s).1, e.isClosing = false := by
  intro e he
  simp only [sendHoldingNotesOffAndMidiStop, holdingNotesOffAndMidiStop, List.mem_append,
    List.mem_map, List.mem_singleton] at he
  rcases he with (⟨_, _, rfl⟩ | ⟨_, _, rfl⟩) | rfl <;> rfl

theorem not_closing_dispatch (p : PlayerThread) (w : CachedMidiMessage) (s : State) :
    ∀ e ∈ (dispatch p w s).1, e.isClosing = false := by
  intro e he
  unfold dispatch at he
  split at he
  · simp only [sendTempoChangeToEverybody, List.mem_cons, List.mem_append, List.mem_map] at he
    rcases he with (rfl | he) | ⟨_, _, rfl⟩
    · rfl
    · split at he
      · simp only [List.mem_singleton] at he; subst he; rfl
      · simp at he
    · rfl
  · simp only [List.mem_cons, List.mem_singleton, List.not_mem_nil, or_false] at he
    rcases he with rfl | rfl <;> rfl

theorem not_closing_start (p : PlayerThread) (now : ℕ) :
    ∀ e ∈ (start p now).1, e.isClosing = false := by
  intro e he
  simp only [start, sendMidiStart, List.mem_append, List.mem_map, List.mem_singleton] at he
  rcases he with ((he | rfl) | he) | ⟨_, _, rfl⟩
  · split at he
    · simp only [List.mem_singleton] at he; subst he; rfl
    · simp at he
  · rfl
  · split at he
    · simp only [List.mem_singleton] at he; subst he; rfl
    · simp at he
  · rfl

theorem count_eq_zero_of_not_closing (l : List Effect) (h : ∀ e ∈ l, e.isClosing = false)
    (e : Effect) (he : e.isClosing = true) : l.count e = 0 := by
  apply List.count_eq_zero.2
  intro hm
  rw [h e hm] at he
  exact absurd he (by simp)

/-- A non-loop run leaves its loop within one iteration per cached event, plus one. -/
theorem runLoop_terminates (p : PlayerThread) (hl : p.loopedMode = false)
    (c : List CachedMidiMessage) :
    ∀ s : State, s.cursor = c → (runLoop p (c.length + 1) s).2.status ≠ .running := by
  induction c with
  | nil =>
    intro s hc
    by_cases hrun : s.status = .running
    · rw [runLoop_succ]
      have h := step_result p s hrun
      generalize step p s = r at h ⊢
      cases h with
      | interrupted q s1 hq hh hk => simp [runLoop]
      | ended q s1 hq hh hc hl => simp [runLoop]
      | wrapped q s1 hq hh hm hs hl' hcw => rw [hl] at hl'; exact absurd hl' (by simp)
      | dispatched q s1 w rest hq hh hm hs hc' hcu hr hpt hct => rw [hc] at hc'; simp at hc'
    · rw [runLoop_of_not_running p _ s hrun]; exact hrun
  | cons w0 c ih =>
    intro s hc
    by_cases hrun : s.status = .running
    · rw [runLoop_succ]
      have h := step_result p s hrun
      generalize step p s = r at h ⊢
      cases h with
      | interrupted q s1 hq hh hk => rw [runLoop_of_not_running p _ _ (by simp)]; simp
      | ended q s1 hq hh hc hl => rw [runLoop_of_not_running p _ _ (by simp)]; simp
      | wrapped q s1 hq hh hm hs hl' hcw => rw [hl] at hl'; exact absurd hl' (by simp)
      | dispatched q s1 w rest hq hh hm hs hc' hcu hr hpt hct =>
        rw [hc] at hc'
        have : rest = c := by simp at hc'; exact hc'.2.symm
        exact ih (dispatch p w s1).2 (by rw [dispatch_cursor, hcu, this])
    · rw [runLoop_of_not_running p _ s hrun]; exact hrun

/-- Without an exit request no iteration ends in the interrupted state. -/
theorem runLoop_not_interrupted (p : PlayerThread) (hnc : ∀ k, p.threadShouldExit k = false)
    (n : ℕ) : ∀ s : State, s.status ≠ .interrupted → (runLoop p n s).2.status ≠ .interrupted := by
  induction n with
  | zero => intro s h; exact h
  | succ n ih =>
    intro s hs
    by_cases hrun : s.status = .running
    · rw [runLoop_succ]
      have h := step_result p s hrun
      generalize step p s = r at h ⊢
      cases h with
      | interrupted q s1 hq hh hk =>
        obtain ⟨k, hk⟩ := hk
        rw [hnc k] at hk
        exact absurd hk (by simp)
      | ended q s1 hq hh hc hl => exact ih _ (by simp)
      | wrapped q s1 hq hh hm hs hl' hcw => exact ih _ (by rw [show (rewind p s1).2.status = s1.status from rfl, hs]; simp)
      | dispatched q s1 w rest hq hh hm hs hc' hcu hr hpt hct =>
        exact ih _ (by rw [dispatch_status, hs]; simp)
    · rw [runLoop_of_not_running p _ s hrun]; exact hs

/-- The closing effects of a run that reached its natural end: each occurs once, the
notifications only when broadcasting. -/
theorem runLoop_finished_counts (p : PlayerThread) (n : ℕ) :
    ∀ s : State, s.status = .running → (runLoop p n s).2.status = .finished →
      (runLoop p n s).1.count Effect.allNotesControllersAndSoundOff = 1
        ∧ (runLoop p n s).1.count Effect.broadcastStop = (if p.broadcastMode then 1 else 0)
        ∧ (runLoop p n s).1.count (Effect.seekToBeat p.transport.seekBeat)
            = (if p.broadcastMode then 1 else 0) := by
  induction n with
  | zero => intro s hrun hf; rw [show (runLoop p 0 s).2 = s from rfl, hrun] at hf; simp at hf
  | succ n ih =>
    intro s hrun hf
    rw [runLoop_succ] at hf ⊢
    simp only at hf ⊢
    have h := step_result p s hrun
    generalize step p s = r at h hf ⊢
    cases h with
    | interrupted q s1 hq hh hk =>
      rw [runLoop_of_not_running p n _ (by simp)] at hf
      simp at hf
    | ended q s1 hq hh hc hl =>
      rw [runLoop_of_not_running p n _ (by simp)]
      simp only [List.append_nil, List.count_append]
      have c1 := fun e he => count_eq_zero_of_not_closing q (not_closing_of_quiet q hq) e he
      have c2 := fun e he => count_eq_zero_of_not_closing _ (not_closing_flush p s1) e he
      rw [c1 .allNotesControllersAndSoundOff rfl, c2 .allNotesControllersAndSoundOff rfl,
        c1 .broadcastStop rfl, c2 .broadcastStop rfl, c1 (.seekToBeat _) rfl,
        c2 (.seekToBeat _) rfl]
      cases p.broadcastMode <;> simp
    | wrapped q s1 hq hh hm hs hl hcw =>
      have c1 := fun e he => count_eq_zero_of_not_closing q (not_closing_of_quiet q hq) e he
      have c3 : ∀ e, e.isClosing = true → (rewind p s1).1.count e = 0 := by
        intro e he
        apply count_eq_zero_of_not_closing _ _ e he
        intro e' he'
        simp only [rewind, List.mem_cons] at he'
        rcases he' with rfl | he'
        · rfl
        · split at he'
          · simp only [List.mem_singleton] at he'; subst he'; rfl
          · simp at he'
      simp only [List.count_append]
      rw [c1 .allNotesControllersAndSoundOff rfl, c3 .allNotesControllersAndSoundOff rfl,
        c1 .broadcastStop rfl, c3 .broadcastStop rfl, c1 (.seekToBeat _) rfl,
        c3 (.seekToBeat _) rfl]
      simpa using ih (rewind p s1).2 hs hf
    | dispatched q s1 w rest hq hh hm hs hc hcu hr hpt hct =>
      have c1 := fun e he => count_eq_zero_of_not_closing q (not_closing_of_quiet q hq) e he
      have c3 := fun e he => count_eq_zero_of_not_closing _ (not_closing_dispatch p w s1) e he
      simp only [List.count_append]
      rw [c1 .allNotesControllersAndSoundOff rfl, c3 .allNotesControllersAndSoundOff rfl,
        c1 .broadcastStop rfl, c3 .broadcastStop rfl, c1 (.seekToBeat _) rfl,
        c3 (.seekToBeat _) rfl]
      simpa using ih (dispatch p w s1).2 (by rw [dispatch_status, hs]) hf

/-! ## C6 -/

theorem dispatched_append (a b : List Effect) :
    dispatched (a ++ b) = dispatched a ++ dispatched b := by
  induction a with
  | nil => rfl
  | cons e a ih => cases e <;> simp [dispatched, ih]

theorem dispatched_of_quiet (q : List Effect) (h : ∀ e ∈ q, e.isQuiet = true) :
    dispatched q = [] := by
  induction q with
  | nil => rfl
  | cons e q ih =>
    have h1 := h e (List.mem_cons_self _ _)
    have h2 := ih (fun e he => h e (List.mem_cons_of_mem _ he))
    cases e <;> simp [Effect.isQuiet] at h1 <;> simp [dispatched, h2]

theorem dispatched_rewind (p : PlayerThread) (s : State) : dispatched (rewind p s).1 = [] := by
  unfold rewind
  split <;> rfl

theorem dispatched_map (l : List MidiMessageCollector) (m : MidiMessage) (t : ℕ) :
    dispatched (l.map (fun i => Effect.addMessageToQueue i m t)) = [] := by
  induction l with
  | nil => rfl
  | cons x l ih => simp [dispatched, ih]

theorem dispatched_dispatch (p : PlayerThread) (w : CachedMidiMessage) (s : State) :
    dispatched (dispatch p w s).1 = [w] := by
  unfold dispatch
  split
  · have e : ∀ es, dispatched (Effect.setTimeStamp w s.now :: es) = w :: dispatched es :=
      fun es => rfl
    simp only [sendTempoChangeToEverybody, List.cons_append]
    rw [e, dispatched_append, dispatched_map]
    split <;> simp [dispatched]
  · simp [dispatched]

theorem count_seekToTime_rewind (p : PlayerThread) (s : State) :
    (rewind p s).1.count (Effect.seekToTime p.startBeat) = 1 := by
  unfold rewind
  split <;> simp

theorem runLoop_add (p : PlayerThread) (a b : ℕ) :
    ∀ s, runLoop p (a + b) s
      = ((runLoop p a s).1 ++ (runLoop p b (runLoop p a s).2).1,
        (runLoop p b (runLoop p a s).2).2) := by
  induction a with
  | zero => intro s; simp [runLoop]
  | succ a ih =>
    intro s
    rw [show a + 1 + b = (a + b) + 1 by omega, runLoop_succ, runLoop_succ, ih]
    simp

/-- An iteration of a looped run that observes no exit request: at the end of the cache
or on an event past the end beat it wraps, otherwise it sends the event. -/
theorem step_loop (p : PlayerThread) (hl : p.loopedMode = true)
    (hnc : ∀ k, p.threadShouldExit k = false) (s : State) (hrun : s.status = .running) :
    ((s.cursor = [] ∨ ∃ w rest, s.cursor = w :: rest ∧ shouldRewind p w = true)
        ∧ (step p s).2.status = .running
        ∧ (step p s).2.cursor = p.transport.seekToTime p.startBeat
        ∧ (step p s).2.prevTimeStamp = p.startBeat
        ∧ (step p s).2.msPerQuarter = s.msPerQuarter
        ∧ dispatched (step p s).1 = []
        ∧ (step p s).1.count (Effect.seekToTime p.startBeat) = 1)
      ∨ (∃ w rest, s.cursor = w :: rest ∧ shouldRewind p w = false
        ∧ (step p s).2.status = .running
        ∧ (step p s).2.cursor = rest
        ∧ (step p s).2.prevTimeStamp = w.timeStamp
        ∧ dispatched (step p s).1 = [w]
        ∧ (step p s).1.count (Effect.seekToTime p.startBeat) = 0) := by
  have h := step_result p s hrun
  generalize step p s = r at h ⊢
  cases h with
  | interrupted q s1 hq hh hk =>
    obtain ⟨k, hk⟩ := hk
    rw [hnc k] at hk
    exact absurd hk (by simp)
  | ended q s1 hq hh hc hl' => rw [hl] at hl'; exact absurd hl' (by simp)
  | wrapped q s1 hq hh hm hs hl' hcw =>
    left
    refine ⟨hcw, hs, rfl, rfl, hm, ?_, ?_⟩
    · rw [dispatched_append, dispatched_of_quiet q hq, dispatched_rewind]; rfl
    · rw [List.count_append, count_seekToTime_rewind,
        List.count_eq_zero.2 (seekToTime_not_mem_quiet q hq _)]
  | dispatched q s1 w rest hq hh hm hs hc hcu hr hpt hct =>
    right
    refine ⟨w, rest, hc, hr, ?_, ?_, ?_, ?_, ?_⟩
    · rw [dispatch_status, hs]
    · rw [dispatch_cursor, hcu]
    · rw [show (dispatch p w s1).2.prevTimeStamp = s1.prevTimeStamp by
        unfold dispatch; split <;> rfl, hpt]
    · rw [dispatched_append, dispatched_of_quiet q hq, dispatched_dispatch]; rfl
    · rw [List.count_append, List.count_eq_zero.2 (seekToTime_not_mem_quiet q hq _),
        List.count_eq_zero.2 (seekToTime_not_mem_dispatch p w s1 _)]

theorem beatsWaited_succ (p : PlayerThread) (n : ℕ) (s : State) :
    beatsWaited p (n + 1) s
      = (targetBeat p s - s.prevTimeStamp) + beatsWaited p n (step p s).2 := rfl

theorem runLoop_one (p : PlayerThread) (s : State) : runLoop p 1 s = step p s := by
  simp [runLoop]

/-- One pass of a looped run without exit requests, from any position `c` of the cursor: it
sends the events of `c` up to the first one past the end beat, then wraps. -/
theorem pass_from (p : PlayerThread) (hl : p.loopedMode = true)
    (hnc : ∀ k, p.threadShouldExit k = false) (c : List CachedMidiMessage) :
    ∀ s : State, s.status = .running → s.cursor = c →
      (runLoop p ((c.takeWhile (fun w => decide (w.timeStamp ≤ p.endBeat))).length + 1) s
          ).2.status = .running
        ∧ (runLoop p ((c.takeWhile (fun w => decide (w.timeStamp ≤ p.endBeat))).length + 1) s
          ).2.cursor = p.transport.seekToTime p.startBeat
        ∧ (runLoop p ((c.takeWhile (fun w => decide (w.timeStamp ≤ p.endBeat))).length + 1) s
          ).2.prevTimeStamp = p.startBeat
        ∧ dispatched (runLoop p
            ((c.takeWhile (fun w => decide (w.timeStamp ≤ p.endBeat))).length + 1) s).1
          = c.takeWhile (fun w => decide (w.timeStamp ≤ p.endBeat))
        ∧ beatsWaited p ((c.takeWhile (fun w => decide (w.timeStamp ≤ p.endBeat))).length + 1) s
          = p.endBeat - s.prevTimeStamp
        ∧ (runLoop p ((c.takeWhile (fun w => decide (w.timeStamp ≤ p.endBeat))).length + 1) s
          ).1.count (Effect.seekToTime p.startBeat) = 1 := by
  induction c with
  | nil =>
    intro s hrun hc
    simp only [List.takeWhile_nil, List.length_nil, zero_add, runLoop_one]
    rcases step_loop p hl hnc s hrun with ⟨_, h1, h2, h3, _, h5, h6⟩ | ⟨w, rest, hc', _⟩
    · refine ⟨h1, h2, h3, h5, ?_, h6⟩
      simp [beatsWaited, targetBeat, hc]
    · rw [hc] at hc'; simp at hc'
  | cons w rest ih =>
    intro s hrun hc
    by_cases hw : w.timeStamp ≤ p.endBeat
    · have hsr : shouldRewind p w = false := by simp [shouldRewind, hw]
      have htw : (w :: rest).takeWhile (fun w => decide (w.timeStamp ≤ p.endBeat))
          = w :: rest.takeWhile (fun w => decide (w.timeStamp ≤ p.endBeat)) := by
        simp [List.takeWhile_cons, hw]
      rw [htw]
      simp only [List.length_cons]
      rcases step_loop p hl hnc s hrun with ⟨hcw, _⟩ | ⟨w', rest', hc', _, h1, h2, h3, h5, h6⟩
      · rcases hcw with hcw | ⟨w', rest', hc', hr'⟩
        · rw [hc] at hcw; simp at hcw
        · rw [hc] at hc'
          simp only [List.cons.injEq] at hc'
          rw [← hc'.1, hsr] at hr'
          simp at hr'
      · rw [hc] at hc'
        simp only [List.cons.injEq] at hc'
        obtain ⟨rfl, rfl⟩ := hc'
        obtain ⟨i1, i2, i3, i4, i5, i6⟩ := ih (step p s).2 h1 h2
        rw [runLoop_succ]
        refine ⟨i1, i2, i3, ?_, ?_, ?_⟩
        · rw [dispatched_append, h5, i4]; rfl
        · rw [beatsWaited_succ, i5, h3]
          simp only [targetBeat, hc, nextEventTimeStamp_of_not_rewind p w hsr]
          ring
        · rw [List.count_append, h6, i6]
    · have hsr : shouldRewind p w = true := by
        simp only [shouldRewind, hl, Bool.true_and, decide_eq_true_eq]
        exact lt_of_not_ge hw
      have htw : (w :: rest).takeWhile (fun w => decide (w.timeStamp ≤ p.endBeat)) = [] := by
        simp [List.takeWhile_cons, hw]
      rw [htw]
      simp only [List.length_nil, zero_add, runLoop_one]
      rcases step_loop p hl hnc s hrun with ⟨_, h1, h2, h3, _, h5, h6⟩ | ⟨w', rest', hc', hr', _⟩
      · refine ⟨h1, h2, h3, h5, ?_, h6⟩
        simp [beatsWaited, targetBeat, hc, nextEventTimeStamp, hsr]
      · rw [hc] at hc'
        simp only [List.cons.injEq] at hc'
        rw [← hc'.1, hsr] at hr'
        simp at hr'

theorem takeWhile_eq_filter_of_sorted (b : ℚ) (c : List CachedMidiMessage)
    (hs : c.Pairwise (fun x y => x.timeStamp ≤ y.timeStamp)) :
    c.takeWhile (fun w => decide (w.timeStamp ≤ b)) = c.filter (fun w => decide (w.timeStamp ≤ b)) := by
  induction c with
  | nil => rfl
  | cons w rest ih =>
    rw [List.pairwise_cons] at hs
    by_cases hw : w.timeStamp ≤ b
    · simp [List.takeWhile_cons, hw, ih hs.2]
    · simp only [List.takeWhile_cons, hw, decide_False, Bool.false_eq_true, if_false]
      symm
      rw [List.filter_eq_nil_iff]
      intro x hx
      simp only [decide_eq_true_eq, not_le]
      rcases List.mem_cons.1 hx with rfl | hx
      · exact lt_of_not_ge hw
      · exact lt_of_lt_of_le (lt_of_not_ge hw) (hs.1 x hx)

theorem dispatched_start (p : PlayerThread) (now : ℕ) : dispatched (start p now).1 = [] := by
  unfold start sendMidiStart
  simp only [dispatched_append, dispatched_map]
  split <;> simp [dispatched]

/-- The state of a looped run without exit requests at the head of each pass, and what it
has sent so far: whole copies of the events of a pass. -/
theorem run_at_pass (p : PlayerThread) (now : ℕ) (hl : p.loopedMode = true)
    (hnc : ∀ k, p.threadShouldExit k = false)
    (hsorted : (p.transport.seekToTime p.startBeat).Pairwise
      (fun x y => x.timeStamp ≤ y.timeStamp)) (j : ℕ) :
    (run p now (j * ((passEvents p).length + 1))).2.status = .running
      ∧ (run p now (j * ((passEvents p).length + 1))).2.cursor
          = p.transport.seekToTime p.startBeat
      ∧ (run p now (j * ((passEvents p).length + 1))).2.prevTimeStamp = p.startBeat
      ∧ dispatched (run p now (j * ((passEvents p).length + 1))).1
          = (List.replicate j (passEvents p)).flatten := by
  have hT : (p.transport.seekToTime p.startBeat).takeWhile
      (fun w => decide (w.timeStamp ≤ p.endBeat)) = passEvents p :=
    takeWhile_eq_filter_of_sorted _ _ hsorted
  induction j with
  | zero =>
    simp only [zero_mul, run, runLoop, List.append_nil, dispatched_start]
    exact ⟨rfl, rfl, rfl, rfl⟩
  | succ j ih =>
    obtain ⟨i1, i2, i3, i4⟩ := ih
    unfold run at i1 i2 i3 i4 ⊢
    simp only at i1 i2 i3 i4 ⊢
    have hp := pass_from p hl hnc _ _ i1 i2
    rw [hT] at hp
    obtain ⟨h1, h2, h3, h4, _, _⟩ := hp
    rw [show (j + 1) * ((passEvents p).length + 1)
      = j * ((passEvents p).length + 1) + ((passEvents p).length + 1) by ring, runLoop_add]
    refine ⟨h1, h2, h3, ?_⟩
    rw [dispatched_append] at i4 ⊢
    rw [dispatched_append, ← List.append_assoc, i4, h4, List.replicate_succ',
      List.flatten_append]
    simp

/-- C6: in loop mode, with no exit request and a cache sorted by beat, every pass starts
at the head of the cache with `prevTimeStamp = startBeat`, dispatches exactly the cached
events whose time stamp does not exceed the end beat, waits for `endBeat - startBeat`
beats in total and ends with the one seek back to the start beat, so that after `j`
passes the dispatched events are `j` copies of the events of a pass; and an iteration
that pulls an event past the end beat does not dispatch it but rewinds. -/
theorem loop_passes_repeat (p : PlayerThread) (now : ℕ) (hl : p.loopedMode = true)
    (hnc : ∀ k, p.threadShouldExit k = false)
    (hsorted : (p.transport.seekToTime p.startBeat).Pairwise
      (fun x y => x.timeStamp ≤ y.timeStamp)) :
    (∀ j : ℕ,
        (run p now (j * ((passEvents p).length + 1))).2.status = .running
          ∧ (run p now (j * ((passEvents p).length + 1))).2.cursor
              = p.transport.seekToTime p.startBeat
          ∧ (run p now (j * ((passEvents p).length + 1))).2.prevTimeStamp = p.startBeat
          ∧ dispatched (run p now (j * ((passEvents p).length + 1))).1
              = (List.replicate j (passEvents p)).flatten
          ∧ dispatched (runLoop p ((passEvents p).length + 1)
              (run p now (j * ((passEvents p).length + 1))).2).1 = passEvents p
          ∧ beatsWaited p ((passEvents p).length + 1)
              (run p now (j * ((passEvents p).length + 1))).2 = p.endBeat - p.startBeat
          ∧ (runLoop p ((passEvents p).length + 1)
              (run p now (j * ((passEvents p).length + 1))).2).1.count
                (Effect.seekToTime p.startBeat) = 1)
      ∧ (∀ (s : State) (w : CachedMidiMessage) (rest : List CachedMidiMessage),
          s.status = .running → s.cursor = w :: rest → p.endBeat < w.timeStamp →
          (step p s).2.cursor = p.transport.seekToTime p.startBeat
            ∧ (step p s).2.prevTimeStamp = p.startBeat
            ∧ Effect.seekToTime p.startBeat ∈ (step p s).1
            ∧ dispatched (step p s).1 = []) := by
  have hT : (p.transport.seekToTime p.startBeat).takeWhile
      (fun w => decide (w.timeStamp ≤ p.endBeat)) = passEvents p :=
    takeWhile_eq_filter_of_sorted _ _ hsorted
  constructor
  · intro j
    obtain ⟨i1, i2, i3, i4⟩ := run_at_pass p now hl hnc hsorted j
    have hp := pass_from p hl hnc _ _ i1 i2
    rw [hT, i3] at hp
    exact ⟨i1, i2, i3, i4, hp.2.2.2.1, hp.2.2.2.2.1, hp.2.2.2.2.2⟩
  · intro s w rest hrun hc hw
    have hsr : shouldRewind p w = true := by
      simp only [shouldRewind, hl, Bool.true_and, decide_eq_true_eq]
      exact hw
    rcases step_loop p hl hnc s hrun with ⟨_, h1, h2, h3, _, h5, h6⟩ | ⟨w', rest', hc', hr', _⟩
    · refine ⟨h2, h3, ?_, h5⟩
      apply List.count_pos_iff.1
      rw [h6]; exact Nat.one_pos
    · rw [hc] at hc'
      simp only [List.cons.injEq] at hc'
      rw [← hc'.1, hsr] at hr'
      simp at hr'

/-- C6, witness: two passes of the looped run over events at beats 1, 2 and 5 with the end
beat 4. -/
theorem loop_passes_repeat_witness :
    exLoop.loopedMode = true
      ∧ (exLoop.transport.seekToTime exLoop.startBeat).Pairwise
          (fun x y => x.timeStamp ≤ y.timeStamp)
      ∧ dispatched (run exLoop 0 (2 * ((passEvents exLoop).length + 1))).1
          = (List.replicate 2 (passEvents exLoop)).flatten
      ∧ beatsWaited exLoop ((passEvents exLoop).length + 1)
          (run exLoop 0 (2 * ((passEvents exLoop).length + 1))).2
            = exLoop.endBeat - exLoop.startBeat := by
  have hl : exLoop.loopedMode = true := rfl
  have hnc : ∀ k, exLoop.threadShouldExit k = false := fun _ => rfl
  have hs : (exLoop.transport.seekToTime exLoop.startBeat).Pairwise
      (fun x y => x.timeStamp ≤ y.timeStamp) := by decide!
  have h := (loop_passes_repeat exLoop 0 hl hnc hs).1 2
  exact ⟨hl, hs, h.2.2.2.1, h.2.2.2.2.2.1⟩

/-! ## C7 -/

theorem dispatch_msPerQuarter (p : PlayerThread) (w : CachedMidiMessage) (s : State) :
    (dispatch p w s).2.msPerQuarter
      = if w.message.isTempoMetaEvent then w.message.getTempoSecondsPerQuarterNote * 1000
        else s.msPerQuarter := by
  unfold dispatch; split <;> rfl

theorem dispatch_currentTimeMs (p : PlayerThread) (w : CachedMidiMessage) (s : State) :
    (dispatch p w s).2.currentTimeMs = s.currentTimeMs := by
  unfold dispatch; split <;> rfl

/-- Between tempo events the tempo stays: iterations that send no tempo event and leave
the thread running do not change `msPerQuarter`. -/
theorem runLoop_msPerQuarter (p : PlayerThread) (n : ℕ) :
    ∀ s : State, (∀ w ∈ dispatched (runLoop p n s).1, w.message.isTempoMetaEvent = false) →
      (runLoop p n s).2.status = .running →
      (runLoop p n s).2.msPerQuarter = s.msPerQuarter := by
  induction n with
  | zero => intro s _ _; rfl
  | succ n ih =>
    intro s hnt hfin
    have hrun : s.status = .running := by
      by_contra hne
      rw [runLoop_of_not_running p _ s hne] at hfin
      exact hne hfin
    rw [runLoop_succ] at hnt hfin ⊢
    simp only at hnt hfin ⊢
    have h := step_result p s hrun
    generalize step p s = r at h hnt hfin ⊢
    cases h with
    | interrupted q s1 hq hh hk =>
      rw [runLoop_of_not_running p n _ (by simp)] at hfin
      simp at hfin
    | ended q s1 hq hh hc hl =>
      rw [runLoop_of_not_running p n _ (by simp)] at hfin
      simp at hfin
    | wrapped q s1 hq hh hm hs hl hcw =>
      rw [ih (rewind p s1).2 (fun w hw => hnt w (by
        rw [dispatched_append]; exact List.mem_append_right _ hw)) hfin]
      exact hm
    | dispatched q s1 w rest hq hh hm hs hc hcu hr hpt hct =>
      rw [ih (dispatch p w s1).2 (fun w' hw' => hnt w' (by
        rw [dispatched_append]; exact List.mem_append_right _ hw')) hfin]
      have hw : w.message.isTempoMetaEvent = false := by
        apply hnt
        rw [dispatched_append, dispatched_append, dispatched_dispatch]
        simp
      rw [dispatch_msPerQuarter, hw, ← hm]
      simp

/-- C7: when a tempo event at beat `b` is dispatched, the time accounting for reaching `b`
used the `msPerQuarter` in force before the event (and a wait, when one is made, is up
to the target computed from that delta), the accumulated `currentTimeMs` is otherwise
untouched, `msPerQuarter` becomes `getTempoSecondsPerQuarterNote * 1000` of the event
and stays so for every later iteration until another tempo event is dispatched, and
the event is enqueued to every unique instrument and to no other destination. -/
theorem tempo_event_updates_pacing (p : PlayerThread) (s : State) (w : CachedMidiMessage)
    (rest : List CachedMidiMessage) (spq : ℚ) (hrun : s.status = .running)
    (hc : s.cursor = w :: rest) (hm : w.message = .tempoMetaEvent spq)
    (hr : shouldRewind p w = false) (hdisp : (step p s).2.status = .running) :
    (step p s).2.currentTimeMs
        = s.currentTimeMs + s.msPerQuarter * (w.timeStamp - s.prevTimeStamp)
      ∧ (toUInt32 (s.msPerQuarter * (w.timeStamp - s.prevTimeStamp)) ≠ 0 →
          Effect.waitForMillisecondCounter
            (s.now + toUInt32 (s.msPerQuarter * (w.timeStamp - s.prevTimeStamp)))
              ∈ (step p s).1)
      ∧ (step p s).2.msPerQuarter = spq * 1000
      ∧ enqueued (step p s).1 = p.transport.uniqueInstruments.map (fun i => (i, w.message))
      ∧ (∀ n, (∀ w2 ∈ dispatched (runLoop p n (step p s).2).1,
            w2.message.isTempoMetaEvent = false) →
          (runLoop p n (step p s).2).2.status = .running →
          (runLoop p n (step p s).2).2.msPerQuarter = spq * 1000) := by
  have hwait : toUInt32 (s.msPerQuarter * (w.timeStamp - s.prevTimeStamp)) ≠ 0 →
      Effect.waitForMillisecondCounter
        (s.now + toUInt32 (s.msPerQuarter * (w.timeStamp - s.prevTimeStamp)))
          ∈ (step p s).1 := by
    intro hne
    unfold step at hdisp ⊢
    simp only [hrun, hc, eventTick, waitThenPlay, nextEventTimeStamp_of_not_rewind p w hr,
      hne, ne_eq, not_false_eq_true, if_true] at hdisp ⊢
    split
    · rename_i hx
      simp [hx, interrupt, sendHoldingNotesOffAndMidiStop] at hdisp
    · rename_i hx
      simp only [hx, Bool.false_eq_true, if_false] at hdisp
      split
      · rename_i hx2
        simp [hx2, interrupt, sendHoldingNotesOffAndMidiStop] at hdisp
      · simp
  have hms : (step p s).2.currentTimeMs
        = s.currentTimeMs + s.msPerQuarter * (w.timeStamp - s.prevTimeStamp)
      ∧ (step p s).2.msPerQuarter = spq * 1000
      ∧ enqueued (step p s).1
        = p.transport.uniqueInstruments.map (fun i => (i, w.message)) := by
    have h := step_result p s hrun
    generalize step p s = r at h hdisp
    cases h with
    | interrupted q s1 hq hh hk => simp at hdisp
    | ended q s1 hq hh hc' hl => rw [hc] at hc'; simp at hc'
    | wrapped q s1 hq hh hm' hs hl hcw =>
      exfalso
      rcases hcw with hcw | ⟨w', rest', hc', hr'⟩
      · rw [hc] at hcw; simp at hcw
      · rw [hc] at hc'
        simp only [List.cons.injEq] at hc'
        rw [← hc'.1, hr] at hr'
        simp at hr'
    | dispatched q s1 w' rest' hq hh hm' hs hc' hcu hr' hpt hct =>
      rw [hc] at hc'
      simp only [List.cons.injEq] at hc'
      obtain ⟨rfl, rfl⟩ := hc'
      refine ⟨?_, ?_, ?_⟩
      · rw [dispatch_currentTimeMs, hct]
      · rw [dispatch_msPerQuarter, hm]
        simp [MidiMessage.isTempoMetaEvent, MidiMessage.getTempoSecondsPerQuarterNote]
      · rw [enqueued_append, enqueued_of_quiet q hq, enqueued_dispatch, hm]
        simp [MidiMessage.isTempoMetaEvent]
  refine ⟨hms.1, hwait, hms.2.1, hms.2.2, ?_⟩
  intro n hnt hfin
  rw [runLoop_msPerQuarter p n _ hnt hfin, hms.2.1]

/-- C7, witness: the tempo event at beat 1 is reached at the old 500 ms per quarter note
and the note-on at beat 2 after a further 250 ms. -/
theorem tempo_event_updates_pacing_witness :
    (run exTempo 0 0).2.status = .running
      ∧ (step exTempo (run exTempo 0 0).2).2.status = .running
      ∧ (step exTempo (run exTempo 0 0).2).2.currentTimeMs = 500
      ∧ (step exTempo (run exTempo 0 0).2).2.msPerQuarter = 250
      ∧ enqueued (step exTempo (run exTempo 0 0).2).1 = [(0, .tempoMetaEvent (1 / 4))]
      ∧ (runLoop exTempo 1 (step exTempo (run exTempo 0 0).2).2).2.now = 750 := by
  have h := tempo_event_updates_pacing exTempo (run exTempo 0 0).2
    ⟨1, .tempoMetaEvent (1 / 4), 3⟩ [⟨2, .noteOn 1 60 100, 0⟩] (1 / 4) (by decide!) (by decide!)
    rfl (by decide!) (by decide!)
  refine ⟨by decide!, by decide!, h.1.trans (by decide!), h.2.2.1.trans (by decide!),
    h.2.2.2.1.trans (by decide!), by decide!⟩

/-! ## C8 -/

/-- Without exit requests the slicing loop has slept `1000 * k` milliseconds for some `k`
with `k = 0` or `1000 * k < delta`. -/
theorem sleepSlices_now (p : PlayerThread) (hnc : ∀ k, p.threadShouldExit k = false)
    (fuel : ℕ) : ∀ (delta : ℚ) (s : State),
      ∃ k : ℕ, (sleepSlices p fuel delta s).2.1.now = s.now + 1000 * k
        ∧ (k = 0 ∨ ((1000 * k : ℕ) : ℚ) < delta) := by
  induction fuel with
  | zero => intro delta s; exact ⟨0, rfl, Or.inl rfl⟩
  | succ n ih =>
    intro delta s
    unfold sleepSlices
    split
    · rename_i hd
      simp only [hnc, Bool.false_eq_true, if_false]
      obtain ⟨k, hk, hk2⟩ := ih (delta - (MINIMUM_STOP_CHECK_TIME_MS : ℕ))
        { s with now := s.now + MINIMUM_STOP_CHECK_TIME_MS, exitChecks := s.exitChecks + 1 }
      refine ⟨k + 1, ?_, Or.inr ?_⟩
      · rw [hk]; simp only [MINIMUM_STOP_CHECK_TIME_MS]; ring
      · simp only [MINIMUM_STOP_CHECK_TIME_MS] at hd hk2 ⊢
        rcases hk2 with rfl | hk2
        · simpa using hd
        · push_cast at hk2 ⊢
          linarith
    · exact ⟨0, rfl, Or.inl rfl⟩

theorem toUInt32_of_lt (x : ℚ) (h : x < 2 ^ 32) : toUInt32 x = ⌊x⌋.toNat := by
  unfold toUInt32
  rw [ratFloor_eq]
  apply Nat.mod_eq_of_lt
  have h1 : ⌊x⌋ < 2 ^ 32 := by
    rw [Int.floor_lt]
    exact_mod_cast h
  omega

theorem sleepSlices_now_le (p : PlayerThread) (hnc : ∀ k, p.threadShouldExit k = false)
    (fuel : ℕ) (delta : ℚ) (s : State) (h : delta < 2 ^ 32) :
    (sleepSlices p fuel delta s).2.1.now ≤ s.now + toUInt32 delta := by
  obtain ⟨k, hk, hk2⟩ := sleepSlices_now p hnc fuel delta s
  rw [hk, toUInt32_of_lt delta h]
  rcases hk2 with rfl | hk2
  · simp
  · have : ((1000 * k : ℕ) : ℤ) ≤ ⌊delta⌋ := by
      rw [Int.le_floor]
      exact_mod_cast le_of_lt hk2
    omega

theorem dispatch_now (p : PlayerThread) (w : CachedMidiMessage) (s : State) :
    (dispatch p w s).2.now = s.now := by
  unfold dispatch; split <;> rfl

theorem setTimeStamp_mem_dispatch (p : PlayerThread) (w : CachedMidiMessage) (s : State) :
    Effect.setTimeStamp w s.now ∈ (dispatch p w s).1 := by
  unfold dispatch; split <;> simp

theorem waitThenPlay_clock (p : PlayerThread) (hnc : ∀ k, p.threadShouldExit k = false)
    (w : CachedMidiMessage) (delta : ℚ) (s0 : State) (hr : shouldRewind p w = false)
    (hsmall : delta < 2 ^ 32) :
    (waitThenPlay p w delta s0).2.now = s0.now + toUInt32 delta
      ∧ Effect.setTimeStamp w (s0.now + toUInt32 delta) ∈ (waitThenPlay p w delta s0).1 := by
  unfold waitThenPlay
  simp only [sleepSlices_no_exit p hnc, hnc, rewindOrDispatch, hr, Bool.false_eq_true,
    if_false]
  split
  · have hle := sleepSlices_now_le p hnc (sliceFuel delta) delta s0 hsmall
    generalize sleepSlices p (sliceFuel delta) delta s0 = r at hle ⊢
    constructor
    · rw [dispatch_now]
      exact max_eq_right hle
    · apply List.mem_append_right
      have := setTimeStamp_mem_dispatch p w
        { r.2.1 with now := max r.2.1.now (s0.now + toUInt32 delta),
                     exitChecks := r.2.1.exitChecks + 1 }
      simp only [max_eq_right hle] at this ⊢
      exact this
  · rename_i h0
    simp only [ne_eq, Decidable.not_not] at h0
    rw [h0]
    exact ⟨by rw [dispatch_now]; rfl, List.mem_cons_of_mem _ (setTimeStamp_mem_dispatch p w _)⟩

/-- The clock of an iteration that sends the pulled event, without exit requests and with
a delta below `2 ^ 32` ms: the event is stamped and sent `uint32(delta)` milliseconds
after the iteration began. -/
theorem step_dispatch_clock (p : PlayerThread) (hnc : ∀ k, p.threadShouldExit k = false)
    (s : State) (w : CachedMidiMessage) (rest : List CachedMidiMessage)
    (hrun : s.status = .running) (hc : s.cursor = w :: rest)
    (hr : shouldRewind p w = false)
    (hsmall : s.msPerQuarter * (w.timeStamp - s.prevTimeStamp) < 2 ^ 32) :
    (step p s).2.now = s.now + toUInt32 (s.msPerQuarter * (w.timeStamp - s.prevTimeStamp))
      ∧ Effect.setTimeStamp w
          (s.now + toUInt32 (s.msPerQuarter * (w.timeStamp - s.prevTimeStamp)))
            ∈ (step p s).1 := by
  unfold step
  simp only [hrun, hc, eventTick, nextEventTimeStamp_of_not_rewind p w hr]
  exact waitThenPlay_clock p hnc w _ _ hr hsmall

/-- An iteration that pulls an event not past the end beat, without exit requests, sends
it and moves on to the next event. -/
theorem step_dispatch (p : PlayerThread) (hnc : ∀ k, p.threadShouldExit k = false)
    (s : State) (w : CachedMidiMessage) (rest : List CachedMidiMessage)
    (hrun : s.status = .running) (hc : s.cursor = w :: rest)
    (hr : shouldRewind p w = false) :
    (step p s).2.status = .running ∧ (step p s).2.cursor = rest
      ∧ (step p s).2.prevTimeStamp = w.timeStamp
      ∧ (step p s).2.msPerQuarter
          = (if w.message.isTempoMetaEvent then w.message.getTempoSecondsPerQuarterNote * 1000
              else s.msPerQuarter)
      ∧ dispatched (step p s).1 = [w] := by
  have h := step_result p s hrun
  generalize step p s = r at h ⊢
  cases h with
  | interrupted q s1 hq hh hk =>
    obtain ⟨k, hk⟩ := hk
    rw [hnc k] at hk
    exact absurd hk (by simp)
  | ended q s1 hq hh hc' hl => rw [hc] at hc'; simp at hc'
  | wrapped q s1 hq hh hm' hs hl hcw =>
    exfalso
    rcases hcw with hcw | ⟨w', rest', hc', hr'⟩
    · rw [hc] at hcw; simp at hcw
    · rw [hc] at hc'
      simp only [List.cons.injEq] at hc'
      rw [← hc'.1, hr] at hr'
      simp at hr'
  | dispatched q s1 w' rest' hq hh hm' hs hc' hcu hr' hpt hct =>
    rw [hc] at hc'
    simp only [List.cons.injEq] at hc'
    obtain ⟨rfl, rfl⟩ := hc'
    refine ⟨?_, ?_, ?_, ?_, ?_⟩
    · rw [dispatch_status, hs]
    · rw [dispatch_cursor, hcu]
    · rw [show (dispatch p w s1).2.prevTimeStamp = s1.prevTimeStamp by
        unfold dispatch; split <;> rfl, hpt]
    · rw [dispatch_msPerQuarter, hm']
    · rw [dispatched_append, dispatched_of_quiet q hq, dispatched_dispatch]; rfl

theorem toUInt32_natCast (k : ℕ) (h : (k : ℚ) < 2 ^ 32) : toUInt32 (k : ℚ) = k := by
  rw [toUInt32_of_lt _ h]
  simp

/-- Whole deltas are waited for in full: their truncated sum is the tempo times the beats
between the first and the last event. -/
theorem truncatedWaits_whole (m : ℚ) (w : CachedMidiMessage) (c : List CachedMidiMessage) :
    ∀ b : ℚ, deltasFit m b (c ++ [w]) → deltasWhole m b (c ++ [w]) →
      ((truncatedWaits m b (c ++ [w]) : ℕ) : ℚ) = m * (w.timeStamp - b) := by
  induction c with
  | nil =>
    intro b hf hw
    obtain ⟨⟨k, hk⟩, _⟩ := hw
    have hf1 := hf.1
    rw [hk] at hf1
    simp only [List.nil_append, truncatedWaits, hk, toUInt32_natCast k hf1, add_zero]
  | cons x c ih =>
    intro b hf hw
    obtain ⟨⟨k, hk⟩, hw2⟩ := hw
    have hf1 := hf.1
    rw [hk] at hf1
    have e := ih x.timeStamp hf.2 hw2
    show ((toUInt32 (m * (x.timeStamp - b)) + truncatedWaits m x.timeStamp (c ++ [w]) : ℕ) : ℚ)
      = _
    rw [Nat.cast_add, e, hk, toUInt32_natCast k hf1, ← hk]
    ring

/-- The clock on the way from one event to a later one of the same pass. -/
theorem walk_clock (p : PlayerThread) (hnc : ∀ k, p.threadShouldExit k = false)
    (w : CachedMidiMessage) (rest : List CachedMidiMessage) (hw : shouldRewind p w = false)
    (c : List CachedMidiMessage) :
    ∀ s : State, s.status = .running → s.cursor = c ++ w :: rest →
      (∀ x ∈ c, shouldRewind p x = false ∧ x.message.isTempoMetaEvent = false) →
      deltasFit s.msPerQuarter s.prevTimeStamp (c ++ [w]) →
      (runLoop p (c.length + 1) s).2.now
          = s.now + truncatedWaits s.msPerQuarter s.prevTimeStamp (c ++ [w])
        ∧ Effect.setTimeStamp w
            (s.now + truncatedWaits s.msPerQuarter s.prevTimeStamp (c ++ [w]))
              ∈ (runLoop p (c.length + 1) s).1
        ∧ dispatched (runLoop p (c.length + 1) s).1 = c ++ [w] := by
  induction c with
  | nil =>
    intro s hrun hc _ hf
    have h := step_dispatch_clock p hnc s w rest hrun hc hw hf.1
    have h2 := step_dispatch p hnc s w rest hrun hc hw
    simp only [List.length_nil, zero_add, runLoop_one, List.nil_append, truncatedWaits,
      add_zero]
    exact ⟨h.1, h.2, h2.2.2.2.2⟩
  | cons x c ih =>
    intro s hrun hc hx hf
    have hx0 := hx x (List.mem_cons_self _ _)
    have h := step_dispatch_clock p hnc s x (c ++ w :: rest) hrun hc hx0.1 hf.1
    obtain ⟨h1, h2, h3, h4, h5⟩ := step_dispatch p hnc s x (c ++ w :: rest) hrun hc hx0.1
    rw [hx0.2] at h4
    simp only [Bool.false_eq_true, if_false] at h4
    have hi := ih (step p s).2 h1 h2 (fun y hy => hx y (List.mem_cons_of_mem _ hy))
      (by rw [h4, h3]; exact hf.2)
    rw [h4, h3, h.1] at hi
    simp only [List.length_cons, List.cons_append, truncatedWaits]
    rw [runLoop_succ]
    refine ⟨?_, ?_, ?_⟩
    · rw [hi.1, add_assoc]
      rfl
    · apply List.mem_append_right
      rw [← add_assoc]
      exact hi.2.1
    · rw [dispatched_append, h5, hi.2.2]; rfl

/-- C8, counterexample: at the constant tempo of 500 ms per quarter note, with no exit
request, the note-on at beat 0 is sent at clock 0 and the note-off at beat 1 / 3 at clock
166: the thread waited `uint32(500 / 3) = 166` ms between them, not `500 * (1 / 3 - 0)`. -/
theorem dispatch_gap_truncated :
    (run exTrunc 0 2).1
        = [Effect.seekToTime 0,
            Effect.addMessageToQueue 0 .midiStart 0,
            Effect.getNextMessage (some ⟨0, .noteOn 1 60 100, 0⟩),
            Effect.setTimeStamp ⟨0, .noteOn 1 60 100, 0⟩ 0,
            Effect.addMessageToQueue 0 (.noteOn 1 60 100) 0,
            Effect.getNextMessage (some ⟨1 / 3, .noteOff 1 60 0, 0⟩),
            Effect.waitForMillisecondCounter 166,
            Effect.threadShouldExit false,
            Effect.setTimeStamp ⟨1 / 3, .noteOff 1 60 0, 0⟩ 166,
            Effect.addMessageToQueue 0 (.noteOff 1 60 0) 166]
      ∧ (run exTrunc 0 2).2.msPerQuarter = 500
      ∧ ((166 : ℚ) - 0 ≠ 500 * (1 / 3 - 0)) := by
  decide!

/-- C8, amended: with no exit request, for an event `w0` and a later event `w` of the same
pass, with no tempo event from `w0` up to `w` and every delta below `2 ^ 32` ms, the
clock advances between the dispatch of `w0` and the dispatch of `w` by the sum of the
truncated deltas `uint32(m * (timeStamp - previous))` of the iterations in between;
when each of these deltas is a whole number of milliseconds, that sum is
`m * (b2 - b1)`. -/
theorem dispatch_gap_is_sum_of_truncated_deltas (p : PlayerThread)
    (hnc : ∀ k, p.threadShouldExit k = false) (s : State) (w0 w : CachedMidiMessage)
    (c rest : List CachedMidiMessage) (hrun : s.status = .running)
    (hcur : s.cursor = w0 :: (c ++ w :: rest))
    (hpass : ∀ x ∈ w0 :: c, shouldRewind p x = false ∧ x.message.isTempoMetaEvent = false)
    (hw : shouldRewind p w = false)
    (hfit0 : s.msPerQuarter * (w0.timeStamp - s.prevTimeStamp) < 2 ^ 32)
    (hfit : deltasFit s.msPerQuarter w0.timeStamp (c ++ [w])) :
    Effect.setTimeStamp w0 (step p s).2.now ∈ (step p s).1
      ∧ Effect.setTimeStamp w
          ((step p s).2.now + truncatedWaits s.msPerQuarter w0.timeStamp (c ++ [w]))
            ∈ (runLoop p (c.length + 1) (step p s).2).1
      ∧ dispatched (runLoop p (c.length + 2) s).1 = w0 :: (c ++ [w])
      ∧ (deltasWhole s.msPerQuarter w0.timeStamp (c ++ [w]) →
          ((truncatedWaits s.msPerQuarter w0.timeStamp (c ++ [w]) : ℕ) : ℚ)
            = s.msPerQuarter * (w.timeStamp - w0.timeStamp)) := by
  have h0 := hpass w0 (List.mem_cons_self _ _)
  have hclk := step_dispatch_clock p hnc s w0 (c ++ w :: rest) hrun hcur h0.1 hfit0
  obtain ⟨h1, h2, h3, h4, h5⟩ := step_dispatch p hnc s w0 (c ++ w :: rest) hrun hcur h0.1
  rw [h0.2] at h4
  simp only [Bool.false_eq_true, if_false] at h4
  have hwalk := walk_clock p hnc w rest hw c (step p s).2 h1 h2
    (fun y hy => hpass y (List.mem_cons_of_mem _ hy)) (by rw [h4, h3]; exact hfit)
  rw [h4, h3] at hwalk
  refine ⟨?_, hwalk.2.1, ?_, truncatedWaits_whole _ w c _ hfit⟩
  · rw [hclk.1]; exact hclk.2
  · rw [runLoop_succ, dispatched_append, h5, hwalk.2.2]; rfl

/-- C8, witness: events at beats 1, 3 / 2 and 4 at 500 ms per quarter note; the first is
sent at clock 500, the last `250 + 1250` ms later. -/
theorem dispatch_gap_is_sum_of_truncated_deltas_witness :
    Effect.setTimeStamp ⟨1, .noteOn 1 60 100, 0⟩ 500 ∈ (step exWhole (run exWhole 0 0).2).1
      ∧ Effect.setTimeStamp ⟨4, .noteOff 1 60 0, 0⟩ (500 + 1500)
          ∈ (runLoop exWhole 2 (step exWhole (run exWhole 0 0).2).2).1
      ∧ ((1500 : ℕ) : ℚ) = 500 * (4 - 1) := by
  have h := dispatch_gap_is_sum_of_truncated_deltas exWhole (fun _ => rfl)
    (run exWhole 0 0).2 ⟨1, .noteOn 1 60 100, 0⟩ ⟨4, .noteOff 1 60 0, 0⟩
    [⟨3 / 2, .other 7, 0⟩] [] (by decide!) (by decide!) (by decide!) (by decide!)
    (by decide!) ⟨by decide!, by decide!, trivial⟩
  have e1 : (step exWhole (run exWhole 0 0).2).2.now = 500 := by decide!
  have e2 : truncatedWaits (run exWhole 0 0).2.msPerQuarter
      (⟨1, .noteOn 1 60 100, 0⟩ : CachedMidiMessage).timeStamp
      ([⟨3 / 2, .other 7, 0⟩] ++ [⟨4, .noteOff 1 60 0, 0⟩]) = 1500 := by decide!
  rw [e1, e2] at h
  exact ⟨h.1, h.2.1, by norm_num⟩

/-- A looped run over an empty cache whose loop lasts at most one slice never asks
`threadShouldExit()`: every iteration waits out the loop and seeks back. -/
theorem runLoop_empty_short_loop (p : PlayerThread) (hl : p.loopedMode = true)
    (hempty : p.transport.seekToTime p.startBeat = []) (m : ℚ)
    (hshort : m * (p.endBeat - p.startBeat) ≤ 1000) (n : ℕ) :
    ∀ s : State, s.status = .running → s.cursor = [] → s.prevTimeStamp = p.startBeat →
      s.msPerQuarter = m →
      (runLoop p n s).2.status = .running ∧ (runLoop p n s).2.exitChecks = s.exitChecks
        ∧ (runLoop p n s).2.now = s.now + n * toUInt32 (m * (p.endBeat - p.startBeat))
        ∧ (runLoop p n s).2.holdingNotes = s.holdingNotes
        ∧ enqueued (runLoop p n s).1 = [] := by
  induction n with
  | zero => intro s hrun _ _ _; exact ⟨hrun, rfl, by simp [runLoop], rfl, rfl⟩
  | succ n ih =>
    intro s hrun hc hp hm
    have hstep : step p s
        = (Effect.getNextMessage none
            :: [Effect.waitForMillisecondCounter
                (s.now + toUInt32 (m * (p.endBeat - p.startBeat)))]
            ++ (rewind p { s with now := s.now + toUInt32 (m * (p.endBeat - p.startBeat)) }).1,
          (rewind p { s with now := s.now + toUInt32 (m * (p.endBeat - p.startBeat)) }).2) := by
      unfold step
      simp only [hrun, hc, endOfCache, hp, hm, sleepSlices_of_le p _ _ s hshort, hl,
        Bool.false_eq_true, if_false, if_true, List.nil_append, List.singleton_append,
        List.cons_append]
      have : max s.now (s.now + toUInt32 (m * (p.endBeat - p.startBeat)))
          = s.now + toUInt32 (m * (p.endBeat - p.startBeat)) := max_eq_right (by omega)
      rw [this]
    rw [runLoop_succ, hstep]
    obtain ⟨i1, i2, i3, i4, i5⟩ := ih
      (rewind p { s with now := s.now + toUInt32 (m * (p.endBeat - p.startBeat)) }).2
      hrun hempty rfl hm
    refine ⟨i1, i2, ?_, i4, ?_⟩
    · rw [i3]
      show s.now + toUInt32 (m * (p.endBeat - p.startBeat))
        + n * toUInt32 (m * (p.endBeat - p.startBeat)) = _
      ring
    · rw [enqueued_append, i5, enqueued_append, enqueued_rewind]
      rfl

/-! ## C3 -/

/-- C3, the failing input: a looped run from beat 0 to beat 1 over an empty cache, at
500 ms per quarter note, with the exit requested from before the first iteration
(`threadShouldExit()` would answer `true` at once).  After any number `n` of iterations
the run is still in its loop, has never called `threadShouldExit()`, has waited `500 * n`
milliseconds, and has sent nothing but the MIDI start: no flush, no return. -/
theorem cancel_never_observed_in_empty_loop (n : ℕ) :
    exStuck.threadShouldExit 0 = true
      ∧ (run exStuck 0 n).2.status = .running
      ∧ (run exStuck 0 n).2.exitChecks = 0
      ∧ (run exStuck 0 n).2.now = 500 * n
      ∧ enqueued (run exStuck 0 n).1 = [(0, .midiStart)] := by
  have h := runLoop_empty_short_loop exStuck rfl rfl 500 (by decide!) n (start exStuck 0).2
    rfl rfl rfl rfl
  have e : toUInt32 (500 * (exStuck.endBeat - exStuck.startBeat)) = 500 := by decide!
  rw [e] at h
  refine ⟨rfl, h.1, h.2.1, ?_, ?_⟩
  · show (runLoop exStuck n (start exStuck 0).2).2.now = 500 * n
    rw [h.2.2.1]
    show 0 + n * 500 = 500 * n
    ring
  · show enqueued ((start exStuck 0).1 ++ (runLoop exStuck n (start exStuck 0).2).1) = _
    rw [enqueued_append, h.2.2.2.2]
    decide!

/-! ## C11 -/

/-- C11: sending a note-on appends exactly one entry, with the message's key and channel
and the wrapper's listener, at the end of `holdingNotes`; sending a note-off removes
exactly the first entry with the same key, channel and listener, keeping all other
entries in order, and removes nothing when there is none; any other message leaves the
list as it is.  In particular two note-ons and one note-off of one triple leave one more
entry of that triple than before. -/
theorem holdingNotes_bookkeeping (p : PlayerThread) (s : State) (w : CachedMidiMessage) :
    (w.message.isNoteOn = true →
        (dispatch p w s).2.holdingNotes
          = s.holdingNotes ++ [⟨w.message.getNoteNumber, w.message.getChannel, w.listener⟩])
      ∧ (w.message.isNoteOff = true → noteOf w ∈ s.holdingNotes →
          ∃ h1 h2, noteOf w ∉ h1 ∧ s.holdingNotes = h1 ++ noteOf w :: h2
            ∧ (dispatch p w s).2.holdingNotes = h1 ++ h2)
      ∧ (w.message.isNoteOff = true → noteOf w ∉ s.holdingNotes →
          (dispatch p w s).2.holdingNotes = s.holdingNotes)
      ∧ (w.message.isNoteOn = false → w.message.isNoteOff = false →
          (dispatch p w s).2.holdingNotes = s.holdingNotes)
      ∧ (∀ w2 w3 : CachedMidiMessage, w.message.isNoteOn = true →
          w2.message.isNoteOn = true → w3.message.isNoteOff = true →
          noteOf w2 = noteOf w → noteOf w3 = noteOf w →
          (dispatch p w3 (dispatch p w2 (dispatch p w s).2).2).2.holdingNotes.count (noteOf w)
            = s.holdingNotes.count (noteOf w) + 1) := by
  refine ⟨?_, ?_, ?_, ?_, ?_⟩
  · intro h
    rw [dispatch_holdingNotes, updateHoldingNotes_noteOn w _ h]
    rfl
  · intro h hmem
    rw [dispatch_holdingNotes, updateHoldingNotes_noteOff w _ h]
    exact List.exists_erase_eq hmem
  · intro h hmem
    rw [dispatch_holdingNotes, updateHoldingNotes_noteOff w _ h, List.erase_of_not_mem hmem]
  · intro h1 h2
    rw [dispatch_holdingNotes, updateHoldingNotes_other w _ h1 h2]
  · intro w2 w3 h1 h2 h3 e2 e3
    rw [dispatch_holdingNotes, dispatch_holdingNotes, dispatch_holdingNotes,
      updateHoldingNotes_noteOn w _ h1, updateHoldingNotes_noteOn w2 _ h2,
      updateHoldingNotes_noteOff w3 _ h3, e2, e3, List.count_erase_self]
    simp

/-- C11, witness: from an empty list, two note-ons and one note-off of key 60 on channel 1
and listener 0 leave one entry. -/
theorem holdingNotes_bookkeeping_witness :
    (dispatch exNonLoop ⟨3, .noteOff 1 60 0, 0⟩
        (dispatch exNonLoop ⟨2, .noteOn 1 60 90, 0⟩
          (dispatch exNonLoop ⟨1, .noteOn 1 60 100, 0⟩
            (start exNonLoop 0).2).2).2).2.holdingNotes.count ⟨60, 1, 0⟩ = 1 :=
  (holdingNotes_bookkeeping exNonLoop (start exNonLoop 0).2 ⟨1, .noteOn 1 60 100, 0⟩).2.2.2.2
    ⟨2, .noteOn 1 60 90, 0⟩ ⟨3, .noteOff 1 60 0, 0⟩ rfl rfl rfl rfl rfl

/-! ## C12 -/

/-- C12: `sendHoldingNotesOffAndMidiStop` enqueues, stamped with the current clock, first one
velocity-0 note-off per entry of `holdingNotes`, in list order, with the entry's channel
and key to the entry's listener, then one MIDI stop per unique instrument, then sleeps
50 ms; that makes `|holdingNotes| + |uniqueInstruments|` messages, and `holdingNotes` is
left as it was. -/
theorem flush_sends_noteOffs_then_stops (p : PlayerThread) (s : State) :
    (sendHoldingNotesOffAndMidiStop p s).1
        = s.holdingNotes.map
            (fun h => Effect.addMessageToQueue h.listener (.noteOff h.channel h.key 0) s.now)
          ++ p.transport.uniqueInstruments.map
            (fun i => Effect.addMessageToQueue i .midiStop s.now)
          ++ [Effect.sleep 50]
      ∧ enqueued (sendHoldingNotesOffAndMidiStop p s).1
        = s.holdingNotes.map (fun h => (h.listener, MidiMessage.noteOff h.channel h.key 0))
          ++ p.transport.uniqueInstruments.map (fun i => (i, MidiMessage.midiStop))
      ∧ (enqueued (sendHoldingNotesOffAndMidiStop p s).1).length
        = s.holdingNotes.length + p.transport.uniqueInstruments.length
      ∧ (sendHoldingNotesOffAndMidiStop p s).2.holdingNotes = s.holdingNotes := by
  refine ⟨rfl, enqueued_flush p s, ?_, rfl⟩
  rw [enqueued_flush]
  simp [noteOffsFor]

/-! ## C14 -/

theorem silent_append (a b : List Effect) : silent (a ++ b) = silent a ++ silent b := by
  simp [silent]

theorem silent_of_forall (a : List Effect) (h : ∀ e ∈ a, e.isNotification = false) :
    silent a = a := by
  unfold silent
  rw [List.filter_eq_self]
  intro e he
  simp [h e he]

theorem not_notification_of_mem_silent (a : List Effect) :
    ∀ e ∈ silent a, e.isNotification = false := by
  intro e he
  unfold silent at he
  simpa using (List.mem_filter.1 he).2

theorem sleepSlices_muted (p : PlayerThread) (fuel : ℕ) :
    ∀ (delta : ℚ) (s : State),
      sleepSlices (muted p) fuel delta s = sleepSlices p fuel delta s := by
  induction fuel with
  | zero => intro delta s; rfl
  | succ n ih =>
    intro delta s
    unfold sleepSlices
    simp only [ih]
    rfl

theorem silent_sleepSlices (p : PlayerThread) (fuel : ℕ) (delta : ℚ) (s : State) :
    silent (sleepSlices p fuel delta s).1 = (sleepSlices p fuel delta s).1 := by
  apply silent_of_forall
  intro e he
  rcases mem_sleepSlices p fuel delta s e he with h | ⟨b, h⟩ <;> subst h <;> rfl

theorem silent_flush (p : PlayerThread) (s : State) :
    silent (sendHoldingNotesOffAndMidiStop p s).1 = (sendHoldingNotesOffAndMidiStop p s).1 := by
  apply silent_of_forall
  intro e he
  simp only [sendHoldingNotesOffAndMidiStop, holdingNotesOffAndMidiStop, List.mem_append,
    List.mem_map, List.mem_singleton] at he
  rcases he with (⟨_, _, rfl⟩ | ⟨_, _, rfl⟩) | rfl <;> rfl

theorem rewind_muted (p : PlayerThread) (s : State) :
    rewind (muted p) s = (silent (rewind p s).1, (rewind p s).2) := by
  unfold rewind
  cases hb : p.broadcastMode <;> simp [muted, silent, Effect.isNotification]

theorem dispatch_muted (p : PlayerThread) (w : CachedMidiMessage) (s : State) :
    dispatch (muted p) w s = (silent (dispatch p w s).1, (dispatch p w s).2) := by
  have hmap : ∀ m : MidiMessage, silent (p.transport.uniqueInstruments.map
      (fun i => Effect.addMessageToQueue i m s.now))
      = p.transport.uniqueInstruments.map (fun i => Effect.addMessageToQueue i m s.now) := by
    intro m
    apply silent_of_forall
    intro e he
    simp only [List.mem_map] at he
    obtain ⟨_, _, rfl⟩ := he
    rfl
  unfold dispatch
  cases ht : w.message.isTempoMetaEvent
  · simp [muted, silent, Effect.isNotification]
  · cases hb : p.broadcastMode
    · simp only [muted, sendTempoChangeToEverybody, if_true, Bool.false_eq_true, if_false,
        List.nil_append]
      rw [silent_append, hmap]
      rfl
    · simp only [muted, sendTempoChangeToEverybody, if_true, Bool.false_eq_true, if_false,
        List.nil_append]
      rw [silent_append, hmap]
      rfl

theorem silent_cons (e : Effect) (l : List Effect) :
    silent (e :: l) = if e.isNotification then silent l else e :: silent l := by
  unfold silent
  cases h : e.isNotification <;> simp [List.filter_cons, h]

theorem silent_nil : silent [] = [] := rfl

theorem flush_muted (p : PlayerThread) (s : State) :
    sendHoldingNotesOffAndMidiStop (muted p) s = sendHoldingNotesOffAndMidiStop p s := rfl

theorem interrupt_muted (p : PlayerThread) (es : List Effect) (s : State) :
    interrupt (muted p) (silent es) s = (silent (interrupt p es s).1, (interrupt p es s).2) := by
  unfold interrupt
  simp only [silent_append, silent_flush, flush_muted]

theorem muted_endBeat (p : PlayerThread) : (muted p).endBeat = p.endBeat := rfl

theorem muted_loopedMode (p : PlayerThread) : (muted p).loopedMode = p.loopedMode := rfl

theorem muted_broadcastMode (p : PlayerThread) : (muted p).broadcastMode = false := rfl

theorem muted_threadShouldExit (p : PlayerThread) :
    (muted p).threadShouldExit = p.threadShouldExit := rfl

theorem endOfCache_muted (p : PlayerThread) (s : State) :
    endOfCache (muted p) s = (silent (endOfCache p s).1, (endOfCache p s).2) := by
  unfold endOfCache
  simp only [sleepSlices_muted, muted_endBeat, muted_loopedMode, muted_broadcastMode,
    flush_muted]
  have hr := silent_sleepSlices p (sliceFuel (s.msPerQuarter * (p.endBeat - s.prevTimeStamp)))
    (s.msPerQuarter * (p.endBeat - s.prevTimeStamp)) s
  generalize sleepSlices p (sliceFuel (s.msPerQuarter * (p.endBeat - s.prevTimeStamp)))
    (s.msPerQuarter * (p.endBeat - s.prevTimeStamp)) s = r at hr ⊢
  obtain ⟨es, s1, b⟩ := r
  simp only at hr ⊢
  cases b
  · simp only [Bool.false_eq_true, if_false]
    cases hl : p.loopedMode
    · simp only [Bool.false_eq_true, if_false]
      cases hb : p.broadcastMode <;>
        simp [silent_append, silent_cons, hr, silent_flush, silent_nil, Effect.isNotification]
    · simp [rewind_muted, silent_append, silent_cons, hr, silent_nil, Effect.isNotification]
  · simp only [if_true]
    have := interrupt_muted p (Effect.getNextMessage none :: es) s1
    simp only [silent_cons, hr, Effect.isNotification, Bool.false_eq_true, if_false] at this
    exact this

theorem rewindOrDispatch_muted (p : PlayerThread) (b : Bool) (w : CachedMidiMessage)
    (s : State) :
    rewindOrDispatch (muted p) b w s
      = (silent (rewindOrDispatch p b w s).1, (rewindOrDispatch p b w s).2) := by
  unfold rewindOrDispatch
  cases b
  · simp only [Bool.false_eq_true, if_false, dispatch_muted]
  · simp only [if_true, rewind_muted]

theorem muted_shouldRewind (p : PlayerThread) (w : CachedMidiMessage) :
    shouldRewind (muted p) w = shouldRewind p w := rfl

theorem muted_nextEventTimeStamp (p : PlayerThread) (w : CachedMidiMessage) :
    nextEventTimeStamp (muted p) w = nextEventTimeStamp p w := rfl

theorem waitThenPlay_muted (p : PlayerThread) (w : CachedMidiMessage) (delta : ℚ)
    (s : State) :
    waitThenPlay (muted p) w delta s
      = (silent (waitThenPlay p w delta s).1, (waitThenPlay p w delta s).2) := by
  unfold waitThenPlay
  simp only [sleepSlices_muted, muted_broadcastMode, muted_shouldRewind,
    muted_threadShouldExit, rewindOrDispatch_muted]
  split
  · have hr := silent_sleepSlices p (sliceFuel delta) delta s
    generalize sleepSlices p (sliceFuel delta) delta s = r at hr ⊢
    obtain ⟨es, s1, b⟩ := r
    simp only at hr ⊢
    cases b
    · simp only [Bool.false_eq_true, if_false]
      split
      · have := interrupt_muted p (Effect.getNextMessage (some w) :: es
          ++ [Effect.waitForMillisecondCounter (s.now + toUInt32 delta)]
          ++ [Effect.threadShouldExit true])
          { s1 with now := max s1.now (s.now + toUInt32 delta), exitChecks := s1.exitChecks + 1 }
        simp only [silent_append, silent_cons, hr, Effect.isNotification, Bool.false_eq_true,
          if_false, silent_nil] at this
        exact this
      · cases hb : p.broadcastMode <;>
          simp [silent_append, silent_cons, hr, silent_nil, Effect.isNotification]
    · simp only [if_true]
      have := interrupt_muted p (Effect.getNextMessage (some w) :: es) s1
      simp only [silent_cons, hr, Effect.isNotification, Bool.false_eq_true, if_false] at this
      exact this
  · simp [silent_cons, Effect.isNotification]

/-- An iteration with `broadcastMode` off does what the same iteration does with it on,
minus the notifications. -/
theorem step_muted (p : PlayerThread) (s : State) :
    step (muted p) s = (silent (step p s).1, (step p s).2) := by
  unfold step
  cases s.status
  · cases s.cursor with
    | nil => exact endOfCache_muted p s
    | cons w rest =>
      simp only [eventTick, muted_nextEventTimeStamp]
      exact waitThenPlay_muted p w _ _
  · rfl
  · rfl

theorem runLoop_muted (p : PlayerThread) (n : ℕ) :
    ∀ s, runLoop (muted p) n s = (silent (runLoop p n s).1, (runLoop p n s).2) := by
  induction n with
  | zero => intro s; rfl
  | succ n ih =>
    intro s
    rw [runLoop_succ, runLoop_succ, step_muted]
    simp only [ih, silent_append]

theorem start_muted (p : PlayerThread) (now : ℕ) :
    start (muted p) now = (silent (start p now).1, (start p now).2) := by
  have hmap : silent (p.transport.uniqueInstruments.map
      (fun i => Effect.addMessageToQueue i .midiStart now))
      = p.transport.uniqueInstruments.map (fun i => Effect.addMessageToQueue i .midiStart now) := by
    apply silent_of_forall
    intro e he
    simp only [List.mem_map] at he
    obtain ⟨_, _, rfl⟩ := he
    rfl
  have e1 : (muted p).transport = p.transport := rfl
  have e2 : (muted p).startBeat = p.startBeat := rfl
  have e3 : totalTimeMs (muted p) = totalTimeMs p := rfl
  unfold start sendMidiStart
  simp only [muted_broadcastMode, silent_append, hmap, e1, e2, e3]
  cases hb : p.broadcastMode <;> simp [silent_cons, silent_nil, Effect.isNotification]

theorem run_muted (p : PlayerThread) (now n : ℕ) :
    run (muted p) now n = (silent (run p now n).1, (run p now n).2) := by
  unfold run
  simp only [start_muted, runLoop_muted, silent_append]

theorem enqueued_silent (es : List Effect) : enqueued (silent es) = enqueued es := by
  induction es with
  | nil => rfl
  | cons e es ih =>
    rw [silent_cons]
    cases e <;> simp [Effect.isNotification, enqueued, ih]

theorem muted_of_broadcast_off (p : PlayerThread) (h : p.broadcastMode = false) :
    muted p = p := by
  cases p
  simp only at h
  subst h
  rfl

/-- C14: a run with `broadcastMode` off makes no call to `broadcastSeek`,
`broadcastTempoChanged`, `broadcastStop` or `seekToBeat`, whatever the cache, the loop
flag and the exit requests; its trace is the trace of the same run with any value of the
flag, minus these notifications, it ends in the same state, and it enqueues the same
messages to the same destinations with the same time stamps. -/
theorem muted_run_sends_no_notifications (p : PlayerThread) (now n : ℕ) :
    (∀ b c t, Effect.broadcastSeek b c t ∉ (run (muted p) now n).1)
      ∧ (∀ m, Effect.broadcastTempoChanged m ∉ (run (muted p) now n).1)
      ∧ Effect.broadcastStop ∉ (run (muted p) now n).1
      ∧ (∀ b, Effect.seekToBeat b ∉ (run (muted p) now n).1)
      ∧ (run (muted p) now n).1 = silent (run p now n).1
      ∧ (run (muted p) now n).2 = (run p now n).2
      ∧ enqueued (run (muted p) now n).1 = enqueued (run p now n).1
      ∧ (∀ l m t, Effect.addMessageToQueue l m t ∈ (run (muted p) now n).1
          ↔ Effect.addMessageToQueue l m t ∈ (run p now n).1)
      ∧ (p.broadcastMode = false → muted p = p) := by
  have h := run_muted p now n
  have hn := not_notification_of_mem_silent (run p now n).1
  rw [h]
  refine ⟨?_, ?_, ?_, ?_, rfl, rfl, enqueued_silent _, ?_, muted_of_broadcast_off p⟩
  · intro b c t hm
    exact absurd (hn _ hm) (by simp [Effect.isNotification])
  · intro m hm
    exact absurd (hn _ hm) (by simp [Effect.isNotification])
  · intro hm
    exact absurd (hn _ hm) (by simp [Effect.isNotification])
  · intro b hm
    exact absurd (hn _ hm) (by simp [Effect.isNotification])
  · intro l m t
    simp [silent, List.mem_filter, Effect.isNotification]

/-! ## C19 -/

theorem sleepSlices_observed (p : PlayerThread) (fuel : ℕ) :
    ∀ (delta : ℚ) (s : State),
      ((sleepSlices p fuel delta s).2.2 = true →
        ∃ q, (sleepSlices p fuel delta s).1 = q ++ [Effect.threadShouldExit true]
          ∧ Effect.threadShouldExit true ∉ q)
      ∧ ((sleepSlices p fuel delta s).2.2 = false →
        Effect.threadShouldExit true ∉ (sleepSlices p fuel delta s).1) := by
  induction fuel with
  | zero => intro delta s; simp [sleepSlices]
  | succ n ih =>
    intro delta s
    unfold sleepSlices
    split
    · split
      · refine ⟨fun _ => ⟨[Effect.sleep MINIMUM_STOP_CHECK_TIME_MS], rfl, by simp⟩, ?_⟩
        intro h; simp at h
      · simp only
        refine ⟨fun h => ?_, fun h => ?_⟩
        · obtain ⟨q, hq, hn⟩ := (ih _ _).1 h
          refine ⟨Effect.sleep MINIMUM_STOP_CHECK_TIME_MS :: Effect.threadShouldExit false :: q,
            ?_, ?_⟩
          · rw [hq]; rfl
          · simp [hn]
        · have := (ih _ _).2 h
          simp [this]
    · simp

theorem exit_not_mem_flush (p : PlayerThread) (s : State) :
    Effect.threadShouldExit true ∉ (sendHoldingNotesOffAndMidiStop p s).1 := by
  simp [sendHoldingNotesOffAndMidiStop, holdingNotesOffAndMidiStop]

theorem exit_not_mem_rewind (p : PlayerThread) (s : State) :
    Effect.threadShouldExit true ∉ (rewind p s).1 := by
  unfold rewind
  cases p.broadcastMode <;> simp

theorem exit_not_mem_dispatch (p : PlayerThread) (w : CachedMidiMessage) (s : State) :
    Effect.threadShouldExit true ∉ (dispatch p w s).1 := by
  unfold dispatch
  split
  · cases p.broadcastMode <;> simp [sendTempoChangeToEverybody]
  · simp

theorem exit_not_mem_rewindOrDispatch (p : PlayerThread) (b : Bool) (w : CachedMidiMessage)
    (s : State) : Effect.threadShouldExit true ∉ (rewindOrDispatch p b w s).1 := by
  unfold rewindOrDispatch
  split
  · exact exit_not_mem_rewind p s
  · exact exit_not_mem_dispatch p w s

theorem rewindOrDispatch_status (p : PlayerThread) (b : Bool) (w : CachedMidiMessage)
    (s : State) : (rewindOrDispatch p b w s).2.status = s.status := by
  unfold rewindOrDispatch
  split
  · rfl
  · exact dispatch_status p w s

theorem endOfCache_observed (p : PlayerThread) (s : State) (hrun : s.status = .running) :
    ObservedOrNot p s (endOfCache p s) := by
  unfold endOfCache
  simp only
  have hh := sleepSlices_holdingNotes p (sliceFuel (s.msPerQuarter * (p.endBeat - s.prevTimeStamp)))
    (s.msPerQuarter * (p.endBeat - s.prevTimeStamp)) s
  have hs := sleepSlices_status p (sliceFuel (s.msPerQuarter * (p.endBeat - s.prevTimeStamp)))
    (s.msPerQuarter * (p.endBeat - s.prevTimeStamp)) s
  have hx := sleepSlices_observed p (sliceFuel (s.msPerQuarter * (p.endBeat - s.prevTimeStamp)))
    (s.msPerQuarter * (p.endBeat - s.prevTimeStamp)) s
  generalize sleepSlices p (sliceFuel (s.msPerQuarter * (p.endBeat - s.prevTimeStamp)))
    (s.msPerQuarter * (p.endBeat - s.prevTimeStamp)) s = w at hh hs hx ⊢
  obtain ⟨es, s1, b⟩ := w
  simp only at hh hs hx ⊢
  cases b with
  | true =>
    obtain ⟨q, hq, hn⟩ := hx.1 rfl
    left
    refine ⟨rfl, Effect.getNextMessage none :: q, s1, by simp [hn], hh, ?_, rfl⟩
    simp [interrupt, hq]
  | false =>
    have hn := hx.2 rfl
    right
    simp only [Bool.false_eq_true, if_false]
    cases hl : p.loopedMode with
    | true =>
      simp only [if_true]
      refine ⟨?_, ?_⟩
      · rw [show ∀ x, (rewind p x).2.status = x.status from fun _ => rfl]
        simp only [hs, hrun]
        simp
      · have := exit_not_mem_rewind p { s1 with now := max s1.now (s.now + toUInt32 (s.msPerQuarter * (p.endBeat - s.prevTimeStamp))) }
        simp only [List.mem_append, List.mem_cons, not_or] at this ⊢
        simp [hn, this]
    | false =>
      simp only [Bool.false_eq_true, if_false]
      refine ⟨by simp, ?_⟩
      have := exit_not_mem_flush p { s1 with now := max s1.now (s.now + toUInt32 (s.msPerQuarter * (p.endBeat - s.prevTimeStamp))) }
      cases p.broadcastMode <;> simp [hn, this]

theorem waitThenPlay_observed (p : PlayerThread) (s s0 : State) (w : CachedMidiMessage)
    (delta : ℚ) (h0h : s0.holdingNotes = s.holdingNotes) (h0s : s0.status = .running) :
    ObservedOrNot p s (waitThenPlay p w delta s0) := by
  unfold waitThenPlay
  simp only
  split
  · have hh := sleepSlices_holdingNotes p (sliceFuel delta) delta s0
    have hs := sleepSlices_status p (sliceFuel delta) delta s0
    have hx := sleepSlices_observed p (sliceFuel delta) delta s0
    generalize sleepSlices p (sliceFuel delta) delta s0 = r at hh hs hx ⊢
    obtain ⟨es, s1, b⟩ := r
    simp only at hh hs hx ⊢
    rw [h0h] at hh
    rw [h0s] at hs
    cases b with
    | true =>
      obtain ⟨q, hq, hn⟩ := hx.1 rfl
      left
      refine ⟨rfl, Effect.getNextMessage (some w) :: q, s1, by simp [hn], hh, ?_, rfl⟩
      simp [interrupt, hq]
    | false =>
      have hn := hx.2 rfl
      simp only [Bool.false_eq_true, if_false]
      split
      · left
        refine ⟨rfl, Effect.getNextMessage (some w) :: es
          ++ [Effect.waitForMillisecondCounter (s0.now + toUInt32 delta)], _, ?_, ?_, ?_, rfl⟩
        · simp [hn]
        · exact hh
        · simp [interrupt]
      · right
        refine ⟨?_, ?_⟩
        · rw [rewindOrDispatch_status]
          simp [hs]
        · have := exit_not_mem_rewindOrDispatch p (shouldRewind p w) w
            { s1 with now := max s1.now (s0.now + toUInt32 delta),
                      exitChecks := s1.exitChecks + 1 }
          cases p.broadcastMode <;> simp [hn, this]
  · right
    refine ⟨?_, ?_⟩
    · rw [rewindOrDispatch_status, h0s]
      simp
    · have := exit_not_mem_rewindOrDispatch p (shouldRewind p w) w s0
      simp [this]

theorem step_observed (p : PlayerThread) (s : State) (hrun : s.status = .running) :
    ObservedOrNot p s (step p s) := by
  unfold step
  simp only [hrun]
  cases hc : s.cursor with
  | nil => exact endOfCache_observed p s hrun
  | cons w rest => exact waitThenPlay_observed p s _ w _ rfl rfl

theorem runLoop_observed (p : PlayerThread) (n : ℕ) :
    ∀ s : State, s.status = .running →
      ((runLoop p n s).2.status = .interrupted ∧ ∃ q s1, Effect.threadShouldExit true ∉ q
          ∧ (runLoop p n s).1
            = q ++ Effect.threadShouldExit true :: (sendHoldingNotesOffAndMidiStop p s1).1
          ∧ (runLoop p n s).2
            = { (sendHoldingNotesOffAndMidiStop p s1).2 with status := .interrupted })
        ∨ ((runLoop p n s).2.status ≠ .interrupted
          ∧ Effect.threadShouldExit true ∉ (runLoop p n s).1) := by
  induction n with
  | zero =>
    intro s hrun
    right
    simp [runLoop, hrun]
  | succ n ih =>
    intro s hrun
    rw [runLoop_succ]
    simp only
    rcases step_observed p s hrun with ⟨hi, q, s1, hn, _, he, hst⟩ | ⟨hi, hn⟩
    · left
      rw [runLoop_of_not_running p n _ (by rw [hi]; simp)]
      exact ⟨hi, q, s1, hn, by simp [he], hst⟩
    · by_cases hr : (step p s).2.status = .running
      · rcases ih _ hr with ⟨hi2, q, s1, hn2, he, hst⟩ | ⟨hi2, hn2⟩
        · left
          refine ⟨hi2, (step p s).1 ++ q, s1, ?_, ?_, hst⟩
          · simp [hn, hn2]
          · rw [he]; simp
        · right
          exact ⟨hi2, by simp [hn, hn2]⟩
      · right
        rw [runLoop_of_not_running p n _ hr]
        exact ⟨hi, by simp [hn]⟩

theorem not_closing_rewind (p : PlayerThread) (s : State) :
    ∀ e ∈ (rewind p s).1, e.isClosing = false := by
  intro e he
  simp only [rewind, List.mem_cons] at he
  rcases he with rfl | he
  · rfl
  · split at he
    · simp only [List.mem_singleton] at he; subst he; rfl
    · simp at he

theorem runLoop_closing (p : PlayerThread) (n : ℕ) :
    ∀ s : State, s.status = .running → ∀ e ∈ (runLoop p n s).1, e.isClosing = true →
      (runLoop p n s).2.status = .finished ∧ p.loopedMode = false := by
  induction n with
  | zero => intro s _ e he; simp [runLoop] at he
  | succ n ih =>
    intro s hrun e he hcl
    rw [runLoop_succ] at he ⊢
    simp only at he ⊢
    have h := step_result p s hrun
    generalize step p s = r at h he ⊢
    have hne : ∀ l : List Effect, (∀ x ∈ l, x.isClosing = false) → e ∉ l := by
      intro l hl hm
      rw [hl e hm] at hcl
      exact absurd hcl (by simp)
    cases h with
    | interrupted q s1 hq hh hk =>
      rw [runLoop_of_not_running p n _ (by simp)] at he
      simp only [List.append_nil, List.mem_append] at he
      rcases he with he | he
      · exact absurd he (hne _ (not_closing_of_quiet q hq))
      · exact absurd he (hne _ (not_closing_flush p s1))
    | ended q s1 hq hh hc hl =>
      rw [runLoop_of_not_running p n _ (by simp)]
      exact ⟨rfl, hl⟩
    | wrapped q s1 hq hh hm hs hl hcw =>
      simp only [List.mem_append] at he
      rcases he with (he | he) | he
      · exact absurd he (hne _ (not_closing_of_quiet q hq))
      · exact absurd he (hne _ (not_closing_rewind p s1))
      · exact ih _ hs e he hcl
    | dispatched q s1 w rest hq hh hm hs hc hcu hr hpt hct =>
      simp only [List.mem_append] at he
      rcases he with (he | he) | he
      · exact absurd he (hne _ (not_closing_of_quiet q hq))
      · exact absurd he (hne _ (not_closing_dispatch p w s1))
      · exact ih _ (by rw [dispatch_status, hs]) e he hcl

theorem exit_not_mem_start (p : PlayerThread) (now : ℕ) :
    Effect.threadShouldExit true ∉ (start p now).1 := by
  unfold start sendMidiStart
  cases p.broadcastMode <;> simp

/-- C19: a run has returned interrupted exactly when one of its exit checks answered
`true`.  The trace of such a run ends with that check followed by the flush alone
(one note-off per held note, then the MIDI stop to every unique instrument, then the
50 ms sleep) and contains no call of `allNotesControllersAndSoundOff`, `seekToBeat` or
`broadcastStop`, for either value of `broadcastMode`.  Whenever one of these three calls
is in the trace of a run, the run has reached its natural end and is not looped. -/
theorem cancel_exit_is_flush_only (p : PlayerThread) (now n : ℕ) :
    ((run p now n).2.status = .interrupted ↔ Effect.threadShouldExit true ∈ (run p now n).1)
      ∧ ((run p now n).2.status = .interrupted →
          (∃ (body : List Effect) (s1 : State), Effect.threadShouldExit true ∉ body
            ∧ s1.holdingNotes = (run p now n).2.holdingNotes
            ∧ (run p now n).1 = body ++ Effect.threadShouldExit true ::
                (s1.holdingNotes.map (fun h =>
                    Effect.addMessageToQueue h.listener (.noteOff h.channel h.key 0) s1.now)
                  ++ p.transport.uniqueInstruments.map (fun i =>
                    Effect.addMessageToQueue i .midiStop s1.now)
                  ++ [Effect.sleep 50]))
          ∧ Effect.allNotesControllersAndSoundOff ∉ (run p now n).1
          ∧ (∀ b, Effect.seekToBeat b ∉ (run p now n).1)
          ∧ Effect.broadcastStop ∉ (run p now n).1)
      ∧ (∀ e ∈ (run p now n).1, e.isClosing = true →
          (run p now n).2.status = .finished ∧ p.loopedMode = false) := by
  have hst : (start p now).2.status = .running := rfl
  have hobs := runLoop_observed p n (start p now).2 hst
  have hclose : ∀ e ∈ (run p now n).1, e.isClosing = true →
      (run p now n).2.status = .finished ∧ p.loopedMode = false := by
    intro e he hc
    simp only [run, List.mem_append] at he ⊢
    rcases he with he | he
    · rw [not_closing_start p now e he] at hc
      exact absurd hc (by simp)
    · exact runLoop_closing p n _ hst e he hc
  have hno : (run p now n).2.status = .interrupted →
      ∀ e, e.isClosing = true → e ∉ (run p now n).1 := by
    intro hi e hc he
    have := (hclose e he hc).1
    rw [hi] at this
    exact absurd this (by simp)
  have hs0 := exit_not_mem_start p now
  refine ⟨?_, ?_, hclose⟩
  · simp only [run, List.mem_append]
    rcases hobs with ⟨hi, q, s1, hn, he, _⟩ | ⟨hi, hn⟩
    · exact ⟨fun _ => Or.inr (by rw [he]; simp), fun _ => hi⟩
    · exact ⟨fun h => absurd h hi, fun h => h.elim (fun h => absurd h hs0) (fun h => absurd h hn)⟩
  · intro hi
    refine ⟨?_, hno hi _ rfl, fun b => hno hi _ rfl, hno hi _ rfl⟩
    simp only [run] at hi ⊢
    rcases hobs with ⟨_, q, s1, hn, he, hst2⟩ | ⟨hi2, _⟩
    · refine ⟨(start p now).1 ++ q, s1, by simp [hs0, hn], ?_, ?_⟩
      · rw [hst2]; rfl
      · rw [he]
        simp [sendHoldingNotesOffAndMidiStop, holdingNotesOffAndMidiStop]
    · exact absurd hi hi2

/-- C19, witness: a looped, broadcasting run over a note-on at beat 1 whose second exit
check answers `true` returns interrupted while the note is held; its trace has the
check, the note-off, the MIDI stop and the sleep at its end, and none of the three
closing calls. -/
theorem cancel_exit_is_flush_only_witness :
    (run (exThread [⟨1, .noteOn 1 60 100, 0⟩] true true 4 (fun k => decide (1 ≤ k))) 0 2).2.status
        = .interrupted
      ∧ Effect.allNotesControllersAndSoundOff
          ∉ (run (exThread [⟨1, .noteOn 1 60 100, 0⟩] true true 4 (fun k => decide (1 ≤ k))) 0 2).1
      ∧ Effect.broadcastStop
          ∉ (run (exThread [⟨1, .noteOn 1 60 100, 0⟩] true true 4 (fun k => decide (1 ≤ k))) 0 2).1 := by
  have hi : (run (exThread [⟨1, .noteOn 1 60 100, 0⟩] true true 4
      (fun k => decide (1 ≤ k))) 0 2).2.status = .interrupted := by decide!
  have h := (cancel_exit_is_flush_only (exThread [⟨1, .noteOn 1 60 100, 0⟩] true true 4
    (fun k => decide (1 ≤ k))) 0 2).2.1 hi
  exact ⟨hi, h.2.1, h.2.2.2⟩

/-! ## C18 -/

/-- An iteration whose trace holds the seek back to the start beat is a wrap. -/
theorem wrap_of_seekToTime_mem (p : PlayerThread) (s : State) (hrun : s.status = .running)
    (hwrap : Effect.seekToTime p.startBeat ∈ (step p s).1) :
    ∃ q s1, (∀ e ∈ q, e.isQuiet = true) ∧ s1.status = .running ∧ p.loopedMode = true
      ∧ (s.cursor = [] ∨ ∃ w rest, s.cursor = w :: rest ∧ shouldRewind p w = true)
      ∧ step p s = (q ++ (rewind p s1).1, (rewind p s1).2) := by
  have h := step_result p s hrun
  generalize step p s = r at h hwrap ⊢
  cases h with
  | interrupted q s1 hq hh hk =>
    exfalso
    rcases List.mem_append.1 hwrap with hm | hm
    · exact seekToTime_not_mem_quiet q hq _ hm
    · exact seekToTime_not_mem_flush p s1 _ hm
  | wrapped q s1 hq hh hm hs hl hcw => exact ⟨q, s1, hq, hs, hl, hcw, rfl⟩
  | ended q s1 hq hh hc hl =>
    exfalso
    simp only [List.mem_append] at hwrap
    rcases hwrap with ((hm | hm) | hm) | hm
    · exact seekToTime_not_mem_quiet q hq _ hm
    · exact seekToTime_not_mem_flush p s1 _ hm
    · simp at hm
    · split at hm <;> simp at hm
  | dispatched q s1 w rest hq hh hm hs hc hcu hr hpt hct =>
    exfalso
    rcases List.mem_append.1 hwrap with hm | hm
    · exact seekToTime_not_mem_quiet q hq _ hm
    · exact seekToTime_not_mem_dispatch p w s1 _ hm

/-- Every iteration of a running thread begins with the pull from the cache. -/
theorem step_begins_with_pull (p : PlayerThread) (s : State) (hrun : s.status = .running) :
    ∃ es, (step p s).1 = Effect.getNextMessage s.cursor.head? :: es := by
  unfold step
  simp only [hrun]
  cases hc : s.cursor with
  | nil =>
    simp only [List.head?_nil]
    unfold endOfCache interrupt
    simp only
    split
    · exact ⟨_, rfl⟩
    · split <;> exact ⟨_, rfl⟩
  | cons w rest =>
    simp only [List.head?_cons]
    unfold eventTick waitThenPlay interrupt
    simp only
    split
    · split
      · exact ⟨_, rfl⟩
      · split <;> exact ⟨_, rfl⟩
    · exact ⟨_, rfl⟩

theorem pulled_append (a b : List Effect) : pulled (a ++ b) = pulled a ++ pulled b := by
  induction a with
  | nil => rfl
  | cons e a ih =>
    cases e with
    | getNextMessage r => cases r <;> simp [pulled, ih]
    | _ => simp [pulled, ih]

theorem pulled_cons_pull (r : Option CachedMidiMessage) (es : List Effect) :
    pulled (Effect.getNextMessage r :: es) = r.toList ++ pulled es := by
  cases r <;> rfl

theorem pulled_eq_nil (l : List Effect) (h : ∀ r, Effect.getNextMessage r ∉ l) :
    pulled l = [] := by
  induction l with
  | nil => rfl
  | cons e l ih =>
    have h2 := ih (fun r hr => h r (List.mem_cons_of_mem _ hr))
    cases e with
    | getNextMessage r => exact absurd (List.mem_cons_self _ _) (h r)
    | _ => simp [pulled, h2]

theorem pulled_sleepSlices (p : PlayerThread) (fuel : ℕ) (delta : ℚ) (s : State) :
    pulled (sleepSlices p fuel delta s).1 = [] := by
  apply pulled_eq_nil
  intro r hr
  rcases mem_sleepSlices p fuel delta s _ hr with h | ⟨_, h⟩ <;> simp at h

theorem pulled_flush (p : PlayerThread) (s : State) :
    pulled (sendHoldingNotesOffAndMidiStop p s).1 = [] := by
  apply pulled_eq_nil
  simp [sendHoldingNotesOffAndMidiStop, holdingNotesOffAndMidiStop]

theorem pulled_rewind (p : PlayerThread) (s : State) : pulled (rewind p s).1 = [] := by
  unfold rewind
  split <;> rfl

theorem pulled_dispatch (p : PlayerThread) (w : CachedMidiMessage) (s : State) :
    pulled (dispatch p w s).1 = [] := by
  apply pulled_eq_nil
  unfold dispatch
  split
  · cases p.broadcastMode <;> simp [sendTempoChangeToEverybody]
  · simp

theorem pulled_rewindOrDispatch (p : PlayerThread) (b : Bool) (w : CachedMidiMessage)
    (s : State) : pulled (rewindOrDispatch p b w s).1 = [] := by
  unfold rewindOrDispatch
  split
  · exact pulled_rewind p s
  · exact pulled_dispatch p w s

theorem pulled_singleton (e : Effect) (h : ∀ r, e ≠ Effect.getNextMessage r) :
    pulled [e] = [] := by
  apply pulled_eq_nil
  intro r hr
  simp at hr
  exact h r hr.symm

/-- An iteration pulls once: the head of the cursor, if there is one. -/
theorem pulled_step (p : PlayerThread) (s : State) (hrun : s.status = .running) :
    pulled (step p s).1 = s.cursor.head?.toList := by
  unfold step
  simp only [hrun]
  cases hc : s.cursor with
  | nil =>
    unfold endOfCache interrupt
    simp only
    split
    · simp [pulled_append, pulled_cons_pull, pulled_sleepSlices, pulled_flush]
    · split
      · cases hb : p.broadcastMode <;>
          simp [pulled_append, pulled_cons_pull, pulled_sleepSlices, pulled, rewind, hb]
      · cases p.broadcastMode <;>
          simp [pulled_append, pulled_cons_pull, pulled_sleepSlices, pulled_flush, pulled]
  | cons w rest =>
    unfold eventTick waitThenPlay interrupt
    simp only
    split
    · split
      · simp [pulled_append, pulled_cons_pull, pulled_sleepSlices, pulled_flush]
      · split
        · simp [pulled_append, pulled_cons_pull, pulled_sleepSlices, pulled_flush, pulled]
        · cases p.broadcastMode <;>
            simp [pulled_append, pulled_cons_pull, pulled_sleepSlices, pulled_rewindOrDispatch,
              pulled]
    · simp [pulled_cons_pull, pulled_rewindOrDispatch]

theorem dispatched_flush (p : PlayerThread) (s : State) :
    dispatched (sendHoldingNotesOffAndMidiStop p s).1 = [] := by
  have : ∀ l : List Effect, (∀ w t, Effect.setTimeStamp w t ∉ l) → dispatched l = [] := by
    intro l
    induction l with
    | nil => intro _; rfl
    | cons e l ih =>
      intro h
      have h2 := ih (fun w t hr => h w t (List.mem_cons_of_mem _ hr))
      cases e with
      | setTimeStamp w t => exact absurd (List.mem_cons_self _ _) (h w t)
      | _ => simp [dispatched, h2]
  apply this
  simp [sendHoldingNotesOffAndMidiStop, holdingNotesOffAndMidiStop]

/-- Within a pass the pulled events are an initial part of the cursor, and the events sent
are the pulled events, less the last one when the exit request cut its iteration
short. -/
theorem runLoop_pass_order (p : PlayerThread) (n : ℕ) :
    ∀ s : State, Effect.seekToTime p.startBeat ∉ (runLoop p n s).1 →
      (∃ k, pulled (runLoop p n s).1 = s.cursor.take k)
        ∧ (dispatched (runLoop p n s).1 = pulled (runLoop p n s).1
          ∨ ((runLoop p n s).2.status = .interrupted
            ∧ ∃ w, pulled (runLoop p n s).1 = dispatched (runLoop p n s).1 ++ [w])) := by
  induction n with
  | zero =>
    intro s _
    exact ⟨⟨0, rfl⟩, Or.inl rfl⟩
  | succ n ih =>
    intro s hpass
    by_cases hrun : s.status = .running
    · rw [runLoop_succ] at hpass ⊢
      simp only at hpass ⊢
      have hp := pulled_step p s hrun
      have h := step_result p s hrun
      generalize step p s = r at h hp hpass ⊢
      cases h with
      | interrupted q s1 hq hh hk =>
        rw [runLoop_of_not_running p n _ (by simp)]
        simp only [List.append_nil] at hp ⊢
        rw [dispatched_append, dispatched_of_quiet q hq, dispatched_flush, hp]
        refine ⟨⟨1, ?_⟩, ?_⟩
        · cases s.cursor <;> rfl
        · cases s.cursor with
          | nil => exact Or.inl rfl
          | cons w rest => exact Or.inr ⟨trivial, w, rfl⟩
      | ended q s1 hq hh hc hl =>
        rw [runLoop_of_not_running p n _ (by simp)]
        simp only [List.append_nil] at hp ⊢
        rw [hp, hc]
        refine ⟨⟨0, rfl⟩, Or.inl ?_⟩
        simp only [dispatched_append, dispatched_of_quiet q hq, dispatched_flush]
        cases p.broadcastMode <;> rfl
      | wrapped q s1 hq hh hm hs hl hcw =>
        exfalso
        apply hpass
        simp only [List.mem_append]
        exact Or.inl (Or.inr (seekToTime_mem_rewind p s1))
      | dispatched q s1 w rest hq hh hm hs hc hcu hr hpt hct =>
        simp only at hp hpass ⊢
        have hpass2 : Effect.seekToTime p.startBeat ∉ (runLoop p n (dispatch p w s1).2).1 :=
          fun hm => hpass (List.mem_append_right _ hm)
        obtain ⟨⟨k, hk⟩, h2⟩ := ih _ hpass2
        rw [dispatch_cursor, hcu] at hk
        rw [hc] at hp ⊢
        simp only [List.head?_cons, Option.toList] at hp
        rw [pulled_append, hp, dispatched_append, dispatched_append, dispatched_of_quiet q hq,
          dispatched_dispatch, hk]
        refine ⟨⟨k + 1, rfl⟩, ?_⟩
        rcases h2 with h2 | ⟨hi, w2, h2⟩
        · left
          rw [h2, hk]
          rfl
        · right
          refine ⟨hi, w2, ?_⟩
          rw [← hk, h2]
          rfl
    · rw [runLoop_of_not_running p _ s hrun]
      exact ⟨⟨0, rfl⟩, Or.inl rfl⟩

/-- C13: over any stretch of iterations without a seek of the cache (one pass, or the part
of it played so far) the events pulled with `getNextMessage` are an initial part of the
cursor, in its order; the events sent are an initial part of the pulled ones, all of them
unless the exit request cut the last iteration short, in which case only the last pulled
event is not sent.  Nothing is reordered, skipped or sent twice, so when the cursor is in
non-decreasing beat order the events are sent in non-decreasing beat order. -/
theorem pass_dispatches_in_cache_order (p : PlayerThread) (n : ℕ) (s : State)
    (hpass : Effect.seekToTime p.startBeat ∉ (runLoop p n s).1) :
    pulled (runLoop p n s).1 <+: s.cursor
      ∧ dispatched (runLoop p n s).1 <+: pulled (runLoop p n s).1
      ∧ dispatched (runLoop p n s).1 <+: s.cursor
      ∧ (pulled (runLoop p n s).1).length ≤ (dispatched (runLoop p n s).1).length + 1
      ∧ ((runLoop p n s).2.status ≠ .interrupted →
          dispatched (runLoop p n s).1 = pulled (runLoop p n s).1)
      ∧ (s.cursor.Pairwise (fun a b => a.timeStamp ≤ b.timeStamp) →
          (dispatched (runLoop p n s).1).Pairwise (fun a b => a.timeStamp ≤ b.timeStamp)) := by
  obtain ⟨⟨k, hk⟩, h2⟩ := runLoop_pass_order p n s hpass
  have h1 : pulled (runLoop p n s).1 <+: s.cursor := by
    rw [hk]; exact List.take_prefix _ _
  have h3 : dispatched (runLoop p n s).1 <+: pulled (runLoop p n s).1 := by
    rcases h2 with h2 | ⟨_, w, h2⟩
    · rw [h2]
    · rw [h2]; exact List.prefix_append _ _
  refine ⟨h1, h3, h3.trans h1, ?_, ?_, ?_⟩
  · rcases h2 with h2 | ⟨_, w, h2⟩
    · rw [h2]; exact Nat.le_succ _
    · rw [h2]; simp
  · intro hi
    rcases h2 with h2 | ⟨hi2, _⟩
    · exact h2
    · exact absurd hi2 hi
  · intro hsorted
    exact hsorted.sublist (h3.trans h1).sublist

/-- C13, witness: the first two iterations of the looped run over events at beats 1, 2 and
5 make no seek; they pull and send the events at beats 1 and 2, in that order. -/
theorem pass_dispatches_in_cache_order_witness :
    Effect.seekToTime exLoop.startBeat ∉ (runLoop exLoop 2 (start exLoop 0).2).1
      ∧ dispatched (runLoop exLoop 2 (start exLoop 0).2).1
          <+: exLoop.transport.seekToTime exLoop.startBeat
      ∧ dispatched (runLoop exLoop 2 (start exLoop 0).2).1
          = [⟨1, .noteOn 1 60 100, 0⟩, ⟨2, .noteOff 1 60 0, 0⟩] :=
  ⟨by decide!,
    (pass_dispatches_in_cache_order exLoop 2 (start exLoop 0).2 (by decide!)).2.2.1,
    by decide!⟩

/-! ## C16 -/

theorem sliceFuel_zero : sliceFuel 0 = 0 := by decide!

theorem toUInt32_zero : toUInt32 0 = 0 := by decide!

/-- C16: a non-loop run over an empty cache whose end beat is its start beat (beat 0 in
particular) leaves its loop in the first iteration, whatever the answers to the exit checks
would have been: after the pull it makes the final wait with a delay of zero (the target is
the current clock), with no sliced sleep and no exit check; it sends no note-off, one MIDI
stop to each unique instrument, sleeps 50 ms, calls `allNotesControllersAndSoundOff` once
and, only when broadcasting, `seekToBeat` and `broadcastStop` once; further iterations add
nothing. -/
theorem empty_nonloop_run_ends_at_once (p : PlayerThread) (now n : ℕ)
    (hl : p.loopedMode = false) (hc : p.transport.seekToTime p.startBeat = [])
    (he : p.endBeat = p.startBeat) :
    runLoop p (n + 1) (start p now).2
        = ([Effect.getNextMessage none, Effect.waitForMillisecondCounter now]
            ++ p.transport.uniqueInstruments.map
                (fun i => Effect.addMessageToQueue i .midiStop now)
            ++ [Effect.sleep 50, Effect.allNotesControllersAndSoundOff]
            ++ (if p.broadcastMode then
                  [Effect.seekToBeat p.transport.seekBeat, Effect.broadcastStop] else []),
          { (start p now).2 with now := now + 50, status := .finished })
      ∧ (run p now (n + 1)).2.status = .finished
      ∧ (run p now (n + 1)).2.exitChecks = 0
      ∧ (run p now (n + 1)).2.holdingNotes = []
      ∧ run p now (n + 1) = run p now 1
      ∧ enqueued (runLoop p (n + 1) (start p now).2).1
          = p.transport.uniqueInstruments.map (fun i => (i, MidiMessage.midiStop)) := by
  have hstep : step p (start p now).2
      = ([Effect.getNextMessage none, Effect.waitForMillisecondCounter now]
            ++ p.transport.uniqueInstruments.map
                (fun i => Effect.addMessageToQueue i .midiStop now)
            ++ [Effect.sleep 50, Effect.allNotesControllersAndSoundOff]
            ++ (if p.broadcastMode then
                  [Effect.seekToBeat p.transport.seekBeat, Effect.broadcastStop] else []),
          { (start p now).2 with now := now + 50, status := .finished }) := by
    simp [step, start, hc, endOfCache, he, sliceFuel_zero, sleepSlices, toUInt32_zero, hl,
      sendHoldingNotesOffAndMidiStop, holdingNotesOffAndMidiStop]
  have hloop : ∀ k, runLoop p (k + 1) (start p now).2 = step p (start p now).2 := by
    intro k
    rw [runLoop_succ, runLoop_of_not_running p k _ (by rw [hstep]; simp)]
    simp
  have hrun : ∀ k, run p now (k + 1) = ((start p now).1 ++ (step p (start p now).2).1,
      (step p (start p now).2).2) := by
    intro k
    simp only [run, hloop]
  refine ⟨by rw [hloop, hstep], ?_, ?_, ?_, by rw [hrun, hrun], ?_⟩
  · rw [hrun, hstep]
  · rw [hrun, hstep]; rfl
  · rw [hrun, hstep]; rfl
  · rw [hloop, hstep]
    simp only [enqueued_append, enqueued_map]
    cases p.broadcastMode <;> simp [enqueued]

/-- C16, witness: the scenario itself, a non-loop broadcasting run from beat 0 to beat 0
over an empty cache, with one instrument and every exit check answering `true`. -/
theorem empty_nonloop_run_ends_at_once_witness :
    (run (exThread [] false true 0 (fun _ => true)) 0 1).2.status = .finished
      ∧ (run (exThread [] false true 0 (fun _ => true)) 0 1).1
        = [Effect.broadcastTempoChanged 500, Effect.seekToTime 0, Effect.broadcastSeek 0 0 0,
            Effect.addMessageToQueue 0 .midiStart 0, Effect.getNextMessage none,
            Effect.waitForMillisecondCounter 0, Effect.addMessageToQueue 0 .midiStop 0,
            Effect.sleep 50, Effect.allNotesControllersAndSoundOff, Effect.seekToBeat 0,
            Effect.broadcastStop] :=
  ⟨(empty_nonloop_run_ends_at_once (exThread [] false true 0 (fun _ => true)) 0 0 rfl rfl
      rfl).2.1, by decide!⟩

/-! ## C17 -/

theorem shouldRewind_iff (p : PlayerThread) (w : CachedMidiMessage) :
    shouldRewind p w = true ↔ p.loopedMode = true ∧ w.timeStamp > p.endBeat := by
  simp [shouldRewind]

theorem mem_updateHoldingNotes (w : CachedMidiMessage) (l : List HoldingNote) (h : HoldingNote)
    (hm : h ∈ updateHoldingNotes w l) :
    h ∈ l ∨ (w.message.isNoteOn = true ∧ noteOf w = h) := by
  unfold updateHoldingNotes at hm
  simp only at hm
  have key : ∀ l2 : List HoldingNote, h ∈ (if w.message.isNoteOn = true then
      l ++ [{ key := w.message.getNoteNumber, channel := w.message.getChannel,
              listener := w.listener }] else l) →
      h ∈ l ∨ (w.message.isNoteOn = true ∧ noteOf w = h) := by
    intro _ hm2
    split at hm2
    · rename_i hon
      rcases List.mem_append.1 hm2 with hm2 | hm2
      · exact Or.inl hm2
      · simp only [List.mem_singleton] at hm2
        exact Or.inr ⟨hon, hm2.symm⟩
    · exact Or.inl hm2
  split at hm
  · exact key [] (List.mem_of_mem_eraseP hm)
  · exact key [] hm

theorem flush_holdingNotes (p : PlayerThread) (s : State) :
    (sendHoldingNotesOffAndMidiStop p s).2.holdingNotes = s.holdingNotes := rfl

/-- What an iteration that pulled the event `w` does with it. -/
theorem step_event (p : PlayerThread) (s : State) (w : CachedMidiMessage)
    (rest : List CachedMidiMessage) (hrun : s.status = .running) (hc : s.cursor = w :: rest) :
    ((step p s).2.status = .interrupted ∧ dispatched (step p s).1 = []
        ∧ (step p s).2.holdingNotes = s.holdingNotes)
      ∨ (shouldRewind p w = true ∧ (step p s).2.status = .running
        ∧ dispatched (step p s).1 = [] ∧ enqueued (step p s).1 = []
        ∧ (step p s).2.holdingNotes = s.holdingNotes
        ∧ Effect.seekToTime p.startBeat ∈ (step p s).1
        ∧ (step p s).2.cursor = p.transport.seekToTime p.startBeat
        ∧ (step p s).2.prevTimeStamp = p.startBeat)
      ∨ (shouldRewind p w = false ∧ (step p s).2.status = .running
        ∧ dispatched (step p s).1 = [w]
        ∧ enqueued (step p s).1 = enqueued (dispatch p w s).1
        ∧ (step p s).2.holdingNotes = updateHoldingNotes w s.holdingNotes
        ∧ Effect.seekToTime p.startBeat ∉ (step p s).1
        ∧ (step p s).2.cursor = rest
        ∧ (step p s).2.prevTimeStamp = w.timeStamp
        ∧ (step p s).2.currentTimeMs
            = s.currentTimeMs + s.msPerQuarter * (w.timeStamp - s.prevTimeStamp)) := by
  have h := step_result p s hrun
  generalize step p s = r at h ⊢
  cases h with
  | interrupted q s1 hq hh hk =>
    left
    refine ⟨rfl, ?_, hh⟩
    rw [dispatched_append, dispatched_of_quiet q hq, dispatched_flush]
    rfl
  | ended q s1 hq hh hc' hl => rw [hc] at hc'; simp at hc'
  | wrapped q s1 hq hh hm hs hl hcw =>
    right; left
    rcases hcw with hc' | ⟨w', rest', hc', hr⟩
    · rw [hc] at hc'; simp at hc'
    · rw [hc] at hc'
      obtain ⟨rfl, rfl⟩ := List.cons.inj hc'
      refine ⟨hr, hs, ?_, ?_, hh, ?_, rfl, rfl⟩
      · rw [dispatched_append, dispatched_of_quiet q hq, dispatched_rewind]; rfl
      · rw [enqueued_append, enqueued_of_quiet q hq, enqueued_rewind]; rfl
      · exact List.mem_append_right _ (seekToTime_mem_rewind p s1)
  | dispatched q s1 w' rest' hq hh hm hs hc' hcu hr hpt hct =>
    right; right
    rw [hc] at hc'
    obtain ⟨rfl, rfl⟩ := List.cons.inj hc'
    refine ⟨hr, ?_, ?_, ?_, ?_, ?_, ?_, ?_, ?_⟩
    · rw [dispatch_status, hs]
    · rw [dispatched_append, dispatched_of_quiet q hq, dispatched_dispatch]; rfl
    · rw [enqueued_append, enqueued_of_quiet q hq, enqueued_dispatch, enqueued_dispatch]; rfl
    · rw [dispatch_holdingNotes, hh]
    · intro hmem
      rcases List.mem_append.1 hmem with hmem | hmem
      · exact seekToTime_not_mem_quiet q hq _ hmem
      · exact seekToTime_not_mem_dispatch p w s1 _ hmem
    · rw [dispatch_cursor, hcu]
    · rw [show (dispatch p w s1).2.prevTimeStamp = s1.prevTimeStamp by
        unfold dispatch; split <;> rfl, hpt]
    · rw [dispatch_currentTimeMs, hct]

/-- The events a looped run sends are at or before the end beat, and every held note was
held before or comes from a note-on that was sent. -/
theorem runLoop_dispatched_le (p : PlayerThread) (n : ℕ) :
    ∀ s : State,
      (p.loopedMode = true → ∀ w ∈ dispatched (runLoop p n s).1, w.timeStamp ≤ p.endBeat)
      ∧ (∀ h ∈ (runLoop p n s).2.holdingNotes, h ∈ s.holdingNotes
          ∨ ∃ w ∈ dispatched (runLoop p n s).1, w.message.isNoteOn = true ∧ noteOf w = h) := by
  induction n with
  | zero =>
    intro s
    exact ⟨fun _ w hw => by simp [runLoop, dispatched] at hw, fun h hh => Or.inl hh⟩
  | succ n ih =>
    intro s
    by_cases hrun : s.status = .running
    · rw [runLoop_succ]
      simp only [dispatched_append]
      obtain ⟨ih1, ih2⟩ := ih (step p s).2
      cases hcur : s.cursor with
      | nil =>
        have h := step_result p s hrun
        have hd : dispatched (step p s).1 = [] ∧ (step p s).2.holdingNotes = s.holdingNotes := by
          generalize step p s = r at h ⊢
          cases h with
          | interrupted q s1 hq hh hk =>
            refine ⟨?_, hh⟩
            rw [dispatched_append, dispatched_of_quiet q hq, dispatched_flush]; rfl
          | ended q s1 hq hh hc' hl =>
            refine ⟨?_, hh⟩
            simp only [dispatched_append, dispatched_of_quiet q hq, dispatched_flush]
            cases p.broadcastMode <;> rfl
          | wrapped q s1 hq hh hm hs hl hcw =>
            refine ⟨?_, hh⟩
            rw [dispatched_append, dispatched_of_quiet q hq, dispatched_rewind]; rfl
          | dispatched q s1 w' rest' hq hh hm hs hc' hcu hr hpt hct =>
            rw [hcur] at hc'; simp at hc'
        rw [hd.1]
        refine ⟨fun hl w hw => ih1 hl w (by simpa using hw), fun h hh => ?_⟩
        rcases ih2 h hh with h1 | ⟨w, hw, hon, hn⟩
        · exact Or.inl (hd.2 ▸ h1)
        · exact Or.inr ⟨w, by simpa using hw, hon, hn⟩
      | cons w rest =>
        rcases step_event p s w rest hrun hcur with ⟨_, hd, hh⟩ | ⟨_, _, hd, _, hh, _⟩
          | ⟨hr, _, hd, _, hh, _⟩
        · rw [hd]
          refine ⟨fun hl w hw => ih1 hl w (by simpa using hw), fun h hm => ?_⟩
          rcases ih2 h hm with h1 | ⟨w, hw, hon, hn⟩
          · exact Or.inl (hh ▸ h1)
          · exact Or.inr ⟨w, by simpa using hw, hon, hn⟩
        · rw [hd]
          refine ⟨fun hl w hw => ih1 hl w (by simpa using hw), fun h hm => ?_⟩
          rcases ih2 h hm with h1 | ⟨w, hw, hon, hn⟩
          · exact Or.inl (hh ▸ h1)
          · exact Or.inr ⟨w, by simpa using hw, hon, hn⟩
        · rw [hd]
          refine ⟨fun hl w' hw => ?_, fun h hm => ?_⟩
          · rcases List.mem_append.1 hw with hw | hw
            · simp only [List.mem_singleton] at hw
              subst hw
              have : ¬ (p.loopedMode = true ∧ w'.timeStamp > p.endBeat) := by
                rw [← shouldRewind_iff, hr]; simp
              exact not_lt.1 (fun hgt => this ⟨hl, hgt⟩)
            · exact ih1 hl w' hw
          · rcases ih2 h hm with h1 | ⟨w', hw, hon, hn⟩
            · rw [hh] at h1
              rcases mem_updateHoldingNotes w _ h h1 with h0 | ⟨hon, hn⟩
              · exact Or.inl h0
              · exact Or.inr ⟨w, by simp, hon, hn⟩
            · exact Or.inr ⟨w', List.mem_append_right _ hw, hon, hn⟩
    · rw [runLoop_of_not_running p _ s hrun]
      exact ⟨fun _ w hw => by simp [dispatched] at hw, fun h hh => Or.inl hh⟩

/-- C17: an iteration that pulled the event `w` waits for `targetBeat`, with the delta
`msPerQuarter * (targetBeat - prevTimeStamp)`.  In loop mode, when `w` is beyond `endBeat`,
the target is `endBeat`; the event is not sent and `holdingNotes` is left as it was, and
unless the exit request was observed during the wait the iteration ends in the rewind and
enqueues nothing.  In every other case (non-loop mode, or `w` at or before `endBeat`) the
target is the time stamp of `w` and, unless the exit request was observed during the wait,
`w` is sent and recorded.  So in a looped run every event sent is at or before `endBeat`,
and every held note comes from a note-on that was sent, at or before `endBeat`. -/
theorem event_beyond_endBeat_is_never_sent (p : PlayerThread) :
    (∀ (s : State) (w : CachedMidiMessage) (rest : List CachedMidiMessage),
      s.status = .running → s.cursor = w :: rest →
        step p s = waitThenPlay p w (s.msPerQuarter * (targetBeat p s - s.prevTimeStamp))
            { s with cursor := rest
                     currentTimeMs := s.currentTimeMs
                        + s.msPerQuarter * (targetBeat p s - s.prevTimeStamp)
                     prevTimeStamp := targetBeat p s }
        ∧ (p.loopedMode = true ∧ w.timeStamp > p.endBeat →
            targetBeat p s = p.endBeat
            ∧ dispatched (step p s).1 = []
            ∧ (step p s).2.holdingNotes = s.holdingNotes
            ∧ ((step p s).2.status = .interrupted
              ∨ ((step p s).2.status = .running
                ∧ Effect.seekToTime p.startBeat ∈ (step p s).1
                ∧ enqueued (step p s).1 = []
                ∧ (step p s).2.cursor = p.transport.seekToTime p.startBeat
                ∧ (step p s).2.prevTimeStamp = p.startBeat)))
        ∧ (p.loopedMode = false ∨ w.timeStamp ≤ p.endBeat →
            targetBeat p s = w.timeStamp
            ∧ (((step p s).2.status = .interrupted ∧ dispatched (step p s).1 = [])
              ∨ ((step p s).2.status = .running
                ∧ dispatched (step p s).1 = [w]
                ∧ enqueued (step p s).1
                  = (if w.message.isTempoMetaEvent then
                      p.transport.uniqueInstruments.map (fun i => (i, w.message))
                    else [(w.listener, w.message)])
                ∧ (step p s).2.holdingNotes = updateHoldingNotes w s.holdingNotes
                ∧ Effect.seekToTime p.startBeat ∉ (step p s).1
                ∧ (step p s).2.cursor = rest
                ∧ (step p s).2.prevTimeStamp = w.timeStamp))))
      ∧ (∀ now n : ℕ, p.loopedMode = true →
          (∀ w ∈ dispatched (run p now n).1, w.timeStamp ≤ p.endBeat)
          ∧ ∀ h ∈ (run p now n).2.holdingNotes, ∃ w ∈ dispatched (run p now n).1,
              w.timeStamp ≤ p.endBeat ∧ w.message.isNoteOn = true ∧ noteOf w = h) := by
  constructor
  · intro s w rest hrun hc
    have htb : targetBeat p s = nextEventTimeStamp p w := by
      unfold targetBeat; rw [hc]
    refine ⟨?_, ?_, ?_⟩
    · rw [htb]
      unfold step eventTick
      simp only [hrun, hc]
    · rintro ⟨hl, hgt⟩
      have hr : shouldRewind p w = true := (shouldRewind_iff p w).2 ⟨hl, hgt⟩
      rw [htb]
      refine ⟨by simp [nextEventTimeStamp, hr], ?_⟩
      rcases step_event p s w rest hrun hc with ⟨hi, hd, hh⟩ | ⟨_, hs, hd, he, hh, hm, hcu, hp⟩
        | ⟨hr2, _⟩
      · exact ⟨hd, hh, Or.inl hi⟩
      · exact ⟨hd, hh, Or.inr ⟨hs, hm, he, hcu, hp⟩⟩
      · rw [hr] at hr2; exact absurd hr2 (by simp)
    · intro hcase
      have hr : shouldRewind p w = false := by
        cases h : shouldRewind p w with
        | false => rfl
        | true =>
          obtain ⟨hl, hgt⟩ := (shouldRewind_iff p w).1 h
          rcases hcase with h1 | h1
          · rw [hl] at h1; exact absurd h1 (by simp)
          · exact absurd hgt (not_lt.2 h1)
      rw [htb]
      refine ⟨nextEventTimeStamp_of_not_rewind p w hr, ?_⟩
      rcases step_event p s w rest hrun hc with ⟨hi, hd, hh⟩ | ⟨hr2, _⟩
        | ⟨_, hs, hd, he, hh, hm, hcu, hp, _⟩
      · exact Or.inl ⟨hi, hd⟩
      · rw [hr] at hr2; exact absurd hr2 (by simp)
      · rw [enqueued_dispatch] at he
        exact Or.inr ⟨hs, hd, he, hh, hm, hcu, hp⟩
  · intro now n hl
    obtain ⟨h1, h2⟩ := runLoop_dispatched_le p n (start p now).2
    have hd : dispatched (run p now n).1 = dispatched (runLoop p n (start p now).2).1 := by
      simp only [run, dispatched_append, dispatched_start, List.nil_append]
    rw [hd]
    refine ⟨h1 hl, fun h hh => ?_⟩
    rcases h2 h hh with h0 | ⟨w, hw, hon, hn⟩
    · simp [start] at h0
    · exact ⟨w, hw, h1 hl w hw, hon, hn⟩

/-- C17, witness: in the looped run over events at beats 1, 2 and 5 with the end beat 4, the
third iteration pulls the event at beat 5, waits for beat 4, sends nothing and rewinds;
after seven iterations only events at or before beat 4 have been sent. -/
theorem event_beyond_endBeat_is_never_sent_witness :
    (run exLoop 0 2).2.cursor = [⟨5, .other 7, 0⟩]
      ∧ targetBeat exLoop (run exLoop 0 2).2 = 4
      ∧ dispatched (step exLoop (run exLoop 0 2).2).1 = []
      ∧ (step exLoop (run exLoop 0 2).2).2.status = .running
      ∧ ∀ w ∈ dispatched (run exLoop 0 7).1, w.timeStamp ≤ 4 := by
  have h := (event_beyond_endBeat_is_never_sent exLoop).1 (run exLoop 0 2).2 ⟨5, .other 7, 0⟩ []
    (by decide!) (by decide!)
  have h1 := h.2.1 ⟨rfl, by decide!⟩
  exact ⟨by decide!, h1.1, h1.2.1, by decide!,
    ((event_beyond_endBeat_is_never_sent exLoop).2 0 7 rfl).1⟩

/-! ## C20 -/

/-- A slicing loop that did not observe the exit request made `k` rounds of a 1000 ms
sleep and a check, with `1000 * k` below the delta and, given enough fuel, at most
1000 ms of the delta left. -/
theorem sleepSlices_unobserved (p : PlayerThread) (fuel : ℕ) :
    ∀ (delta : ℚ) (s : State), (sleepSlices p fuel delta s).2.2 = false →
      ∃ k : ℕ, (sleepSlices p fuel delta s).1
          = List.flatten (List.replicate k [Effect.sleep 1000, Effect.threadShouldExit false])
        ∧ (sleepSlices p fuel delta s).2.1
          = { s with now := s.now + 1000 * k, exitChecks := s.exitChecks + k }
        ∧ (k = 0 ∨ ((1000 * k : ℕ) : ℚ) < delta)
        ∧ (sliceFuel delta ≤ fuel → delta ≤ ((1000 * (k + 1) : ℕ) : ℚ)) := by
  induction fuel with
  | zero =>
    intro delta s _
    refine ⟨0, rfl, rfl, Or.inl rfl, ?_⟩
    intro hf
    by_contra hgt
    have := sliceFuel_sub delta (by push_cast at hgt; linarith)
    omega
  | succ n ih =>
    intro delta s hflag
    unfold sleepSlices at hflag ⊢
    split
    · rename_i hd
      rw [if_pos hd] at hflag
      split
      · rename_i hx
        rw [if_pos hx] at hflag
        simp at hflag
      · rename_i hx
        rw [if_neg hx] at hflag
        simp only at hflag ⊢
        obtain ⟨k, h1, h2, h3, h4⟩ := ih _ _ hflag
        simp only [MINIMUM_STOP_CHECK_TIME_MS] at hd h1 h2 h3 h4 ⊢
        refine ⟨k + 1, ?_, ?_, Or.inr ?_, ?_⟩
        · rw [h1, List.replicate_succ]
          rfl
        · rw [h2]
          simp only [State.mk.injEq, true_and, and_true]
          constructor <;> ring
        · rcases h3 with rfl | h3
          · simpa using hd
          · push_cast at h3 ⊢
            linarith
        · intro hf
          have hd2 : delta > 1000 := by simpa using hd
          have := sliceFuel_sub delta hd2
          have h5 := h4 (by push_cast; omega)
          push_cast at h5 ⊢
          linarith
    · rename_i hd
      refine ⟨0, rfl, rfl, Or.inl rfl, ?_⟩
      intro _
      simp only [MINIMUM_STOP_CHECK_TIME_MS] at hd
      push_cast at hd ⊢
      linarith

/-- The trace of `k` rounds of the slicing loop in which the exit was not requested,
followed by the final wait and the check after it. -/
theorem waitThenPlay_unobserved (p : PlayerThread) (w : CachedMidiMessage) (delta : ℚ)
    (s0 : State) (h0 : toUInt32 delta ≠ 0)
    (hni : (waitThenPlay p w delta s0).2.status ≠ .interrupted) :
    ∃ k : ℕ, (k = 0 ∨ ((1000 * k : ℕ) : ℚ) < delta) ∧ delta ≤ ((1000 * (k + 1) : ℕ) : ℚ)
      ∧ waitThenPlay p w delta s0
        = (Effect.getNextMessage (some w)
            :: List.flatten (List.replicate k [Effect.sleep 1000, Effect.threadShouldExit false])
            ++ [Effect.waitForMillisecondCounter (s0.now + toUInt32 delta),
                Effect.threadShouldExit false]
            ++ (if p.broadcastMode then
                  [Effect.broadcastSeek s0.prevTimeStamp s0.currentTimeMs (totalTimeMs p)]
                else [])
            ++ (rewindOrDispatch p (shouldRewind p w) w
                { s0 with now := max (s0.now + 1000 * k) (s0.now + toUInt32 delta),
                          exitChecks := s0.exitChecks + k + 1 }).1,
          (rewindOrDispatch p (shouldRewind p w) w
                { s0 with now := max (s0.now + 1000 * k) (s0.now + toUInt32 delta),
                          exitChecks := s0.exitChecks + k + 1 }).2) := by
  unfold waitThenPlay at hni ⊢
  simp only [h0, ne_eq, not_false_eq_true, if_true] at hni ⊢
  have hx := sleepSlices_unobserved p (sliceFuel delta) delta s0
  generalize sleepSlices p (sliceFuel delta) delta s0 = r at hx hni ⊢
  obtain ⟨es, s1, b⟩ := r
  simp only at hx hni ⊢
  cases b with
  | true => simp [interrupt] at hni
  | false =>
    obtain ⟨k, h1, h2, h3, h4⟩ := hx rfl
    subst h1 h2
    simp only [Bool.false_eq_true, if_false] at hni ⊢
    refine ⟨k, h3, h4 (le_refl _), ?_⟩
    split
    · rename_i hk
      rw [if_pos hk] at hni
      simp [interrupt] at hni
    · simp [List.append_assoc]

theorem seek_not_mem_dispatch (p : PlayerThread) (w : CachedMidiMessage) (s : State) :
    ∀ b c t, Effect.broadcastSeek b c t ∉ (dispatch p w s).1 := by
  intro b c t
  unfold dispatch
  split
  · cases p.broadcastMode <;> simp [sendTempoChangeToEverybody]
  · simp

theorem slices_le_truncated (delta : ℚ) (k : ℕ) (hk : k = 0 ∨ ((1000 * k : ℕ) : ℚ) < delta)
    (hsmall : delta < 2 ^ 32) : 1000 * k ≤ toUInt32 delta := by
  rw [toUInt32_of_lt delta hsmall]
  rcases hk with rfl | hk
  · simp
  · have : ((1000 * k : ℕ) : ℤ) ≤ ⌊delta⌋ := by
      rw [Int.le_floor]
      exact_mod_cast le_of_lt hk
    omega

/-- An iteration that pulled the event `w` is `waitThenPlay` with the delta towards the
target beat, after `currentTimeMs` and `prevTimeStamp` were advanced. -/
theorem step_eq_waitThenPlay (p : PlayerThread) (s : State) (w : CachedMidiMessage)
    (rest : List CachedMidiMessage) (delta : ℚ) (hrun : s.status = .running)
    (hc : s.cursor = w :: rest)
    (hd : delta = s.msPerQuarter * (targetBeat p s - s.prevTimeStamp)) :
    step p s = waitThenPlay p w delta
      { s with cursor := rest, currentTimeMs := s.currentTimeMs + delta,
               prevTimeStamp := targetBeat p s } := by
  have htb : targetBeat p s = nextEventTimeStamp p w := by
    unfold targetBeat; rw [hc]
  rw [hd, htb]
  unfold step eventTick
  simp only [hrun, hc]

theorem unsliced_append (a b : List Effect) : unsliced (a ++ b) = unsliced a ++ unsliced b := by
  simp [unsliced]

theorem unsliced_slices (k : ℕ) :
    unsliced (List.flatten
      (List.replicate k [Effect.sleep 1000, Effect.threadShouldExit false])) = [] := by
  induction k with
  | zero => rfl
  | succ k ih =>
    rw [List.replicate_succ, List.flatten_cons, unsliced_append, ih]
    rfl

theorem step_not_interrupted (p : PlayerThread) (hnc : ∀ k, p.threadShouldExit k = false)
    (s : State) (hrun : s.status = .running) : (step p s).2.status ≠ .interrupted := by
  have := runLoop_not_interrupted p hnc 1 s (by rw [hrun]; simp)
  rw [runLoop_one] at this
  exact this

/-- An iteration that sends an event other than a tempo event after a wait, without exit
requests: its trace, less the sleeps and exit checks, and the state it yields. -/
theorem step_event_unsliced (p : PlayerThread) (hnc : ∀ k, p.threadShouldExit k = false)
    (s : State) (w : CachedMidiMessage) (rest : List CachedMidiMessage) (delta : ℚ)
    (hrun : s.status = .running) (hc : s.cursor = w :: rest)
    (hr : shouldRewind p w = false) (hnt : w.message.isTempoMetaEvent = false)
    (hd : delta = s.msPerQuarter * (w.timeStamp - s.prevTimeStamp))
    (h0 : toUInt32 delta ≠ 0) (hsmall : delta < 2 ^ 32) :
    unsliced (step p s).1
        = [Effect.getNextMessage (some w),
            Effect.waitForMillisecondCounter (s.now + toUInt32 delta)]
          ++ (if p.broadcastMode then
                [Effect.broadcastSeek w.timeStamp (s.currentTimeMs + delta) (totalTimeMs p)]
              else [])
          ++ [Effect.setTimeStamp w (s.now + toUInt32 delta),
              Effect.addMessageToQueue w.listener w.message (s.now + toUInt32 delta)]
      ∧ (step p s).2.status = .running
      ∧ (step p s).2.cursor = rest
      ∧ (step p s).2.prevTimeStamp = w.timeStamp
      ∧ (step p s).2.currentTimeMs = s.currentTimeMs + delta
      ∧ (step p s).2.msPerQuarter = s.msPerQuarter
      ∧ (step p s).2.holdingNotes = updateHoldingNotes w s.holdingNotes
      ∧ (step p s).2.now = s.now + toUInt32 delta := by
  have htb : targetBeat p s = w.timeStamp := by
    unfold targetBeat; rw [hc]; exact nextEventTimeStamp_of_not_rewind p w hr
  have hstep := step_eq_waitThenPlay p s w rest delta hrun hc (by rw [htb]; exact hd)
  have hni := step_not_interrupted p hnc s hrun
  rw [hstep] at hni ⊢
  obtain ⟨k, h1, _, h3⟩ := waitThenPlay_unobserved p w delta _ h0 hni
  have hle := slices_le_truncated delta k h1 hsmall
  rw [h3]
  have hmax : max (s.now + 1000 * k) (s.now + toUInt32 delta) = s.now + toUInt32 delta :=
    max_eq_right (by omega)
  simp only [hmax, rewindOrDispatch, hr, Bool.false_eq_true, if_false, dispatch, hnt, htb]
  refine ⟨?_, by simp [hrun]⟩
  simp only [List.cons_append, List.append_assoc]
  rw [show ∀ es, unsliced (Effect.getNextMessage (some w) :: es)
      = Effect.getNextMessage (some w) :: unsliced es from fun _ => rfl]
  rw [unsliced_append, unsliced_slices]
  cases p.broadcastMode <;> rfl

/-- An iteration of a looped run at the end of the cache, without exit requests: its
trace, less the sleeps and exit checks, and the state it yields. -/
theorem step_end_unsliced (p : PlayerThread) (hnc : ∀ k, p.threadShouldExit k = false)
    (s : State) (delta : ℚ) (hrun : s.status = .running) (hc : s.cursor = [])
    (hl : p.loopedMode = true) (hd : delta = s.msPerQuarter * (p.endBeat - s.prevTimeStamp))
    (hsmall : delta < 2 ^ 32) :
    unsliced (step p s).1
        = [Effect.getNextMessage none,
            Effect.waitForMillisecondCounter (s.now + toUInt32 delta),
            Effect.seekToTime p.startBeat]
          ++ (if p.broadcastMode then
                [Effect.broadcastSeek p.startBeat s.currentTimeMs (totalTimeMs p)] else [])
      ∧ (step p s).2.status = .running
      ∧ (step p s).2.cursor = p.transport.seekToTime p.startBeat
      ∧ (step p s).2.prevTimeStamp = p.startBeat
      ∧ (step p s).2.currentTimeMs = s.currentTimeMs
      ∧ (step p s).2.msPerQuarter = s.msPerQuarter
      ∧ (step p s).2.holdingNotes = s.holdingNotes
      ∧ (step p s).2.now = s.now + toUInt32 delta := by
  unfold step endOfCache
  simp only [hrun, hc, ← hd]
  have hflag := sleepSlices_no_exit p hnc (sliceFuel delta) delta s
  have hx := sleepSlices_unobserved p (sliceFuel delta) delta s hflag
  generalize sleepSlices p (sliceFuel delta) delta s = r at hx hflag ⊢
  obtain ⟨es, s1, b⟩ := r
  simp only at hx hflag ⊢
  subst hflag
  obtain ⟨k, h1, h2, h3, _⟩ := hx
  subst h1 h2
  have hle := slices_le_truncated delta k h3 hsmall
  have hmax : max (s.now + 1000 * k) (s.now + toUInt32 delta) = s.now + toUInt32 delta :=
    max_eq_right (by omega)
  simp only [Bool.false_eq_true, if_false, hl, if_true, hmax, rewind]
  refine ⟨?_, by simp [hrun]⟩
  simp only [List.cons_append, List.append_assoc]
  rw [show ∀ es, unsliced (Effect.getNextMessage none :: es)
      = Effect.getNextMessage none :: unsliced es from fun _ => rfl]
  rw [unsliced_append, unsliced_slices]
  cases p.broadcastMode <;> rfl

theorem toUInt32_ne_zero (m : ℚ) (h1 : 1 ≤ m) (h2 : m < 2 ^ 32) : toUInt32 m ≠ 0 := by
  rw [toUInt32_of_lt m h2]
  have : (1 : ℤ) ≤ ⌊m⌋ := Int.le_floor.2 (by exact_mod_cast h1)
  omega

/-- A looped run without exit requests keeps running. -/
theorem runLoop_loop_running (p : PlayerThread) (hl : p.loopedMode = true)
    (hnc : ∀ k, p.threadShouldExit k = false) (n : ℕ) :
    ∀ s : State, s.status = .running → (runLoop p n s).2.status = .running := by
  induction n with
  | zero => intro s h; exact h
  | succ n ih =>
    intro s hrun
    rw [runLoop_succ]
    apply ih
    rcases step_loop p hl hnc s hrun with ⟨_, h, _⟩ | ⟨_, _, _, _, h, _⟩ <;> exact h

theorem runLoop_three (p : PlayerThread) (s : State) :
    runLoop p 3 s
      = ((step p s).1 ++ ((step p (step p s).2).1 ++ (step p (step p (step p s).2).2).1),
        (step p (step p (step p s).2).2).2) := by
  simp [runLoop]

/-- One pass of the scenario from the head of a pass. -/
theorem scenario_pass (p : PlayerThread) (ch k : ℤ) (v v2 : ℕ) (l : MidiMessageCollector)
    (m : ℚ) (hs : p.startBeat = 0) (he : p.endBeat = 4) (hl : p.loopedMode = true)
    (hb : p.broadcastMode = true)
    (hcache : p.transport.seekToTime 0
      = [⟨1, .noteOn ch k v, l⟩, ⟨2, .noteOff ch k v2, l⟩])
    (hm1 : 1 ≤ m) (hm2 : m < 2 ^ 31) (hnc : ∀ i, p.threadShouldExit i = false)
    (s : State) (T : ℕ) (c : ℚ) (hrun : s.status = .running)
    (hcur : s.cursor = [⟨1, .noteOn ch k v, l⟩, ⟨2, .noteOff ch k v2, l⟩])
    (hp : s.prevTimeStamp = 0) (hm : s.msPerQuarter = m) (hh : s.holdingNotes = [])
    (hT : s.now = T) (hc : s.currentTimeMs = c) :
    unsliced (runLoop p 3 s).1
        = [Effect.getNextMessage (some ⟨1, .noteOn ch k v, l⟩),
            Effect.waitForMillisecondCounter (T + toUInt32 m),
            Effect.broadcastSeek 1 (c + m) (totalTimeMs p),
            Effect.setTimeStamp ⟨1, .noteOn ch k v, l⟩ (T + toUInt32 m),
            Effect.addMessageToQueue l (.noteOn ch k v) (T + toUInt32 m),
            Effect.getNextMessage (some ⟨2, .noteOff ch k v2, l⟩),
            Effect.waitForMillisecondCounter (T + toUInt32 m + toUInt32 m),
            Effect.broadcastSeek 2 (c + m + m) (totalTimeMs p),
            Effect.setTimeStamp ⟨2, .noteOff ch k v2, l⟩ (T + toUInt32 m + toUInt32 m),
            Effect.addMessageToQueue l (.noteOff ch k v2) (T + toUInt32 m + toUInt32 m),
            Effect.getNextMessage none,
            Effect.waitForMillisecondCounter (T + toUInt32 m + toUInt32 m + toUInt32 (2 * m)),
            Effect.seekToTime 0,
            Effect.broadcastSeek 0 (c + m + m) (totalTimeMs p)]
      ∧ (step p s).2.holdingNotes = [⟨k, ch, l⟩]
      ∧ (runLoop p 3 s).2.status = .running
      ∧ (runLoop p 3 s).2.cursor = [⟨1, .noteOn ch k v, l⟩, ⟨2, .noteOff ch k v2, l⟩]
      ∧ (runLoop p 3 s).2.prevTimeStamp = 0
      ∧ (runLoop p 3 s).2.msPerQuarter = m
      ∧ (runLoop p 3 s).2.holdingNotes = []
      ∧ (runLoop p 3 s).2.now = T + toUInt32 m + toUInt32 m + toUInt32 (2 * m)
      ∧ (runLoop p 3 s).2.currentTimeMs = c + m + m := by
  have hsm : m < 2 ^ 32 := by linarith
  have hsm2 : 2 * m < 2 ^ 32 := by linarith
  have h0 : toUInt32 m ≠ 0 := toUInt32_ne_zero m hm1 hsm
  have hr1 : shouldRewind p ⟨1, .noteOn ch k v, l⟩ = false := by
    simp [shouldRewind, he]
  have hr2 : shouldRewind p ⟨2, .noteOff ch k v2, l⟩ = false := by
    simp [shouldRewind, he]
    norm_num
  obtain ⟨t1, r1, c1, p1, ct1, m1, hn1, n1⟩ := step_event_unsliced p hnc s
    ⟨1, .noteOn ch k v, l⟩ [⟨2, .noteOff ch k v2, l⟩] m hrun hcur hr1 rfl
    (by rw [hm, hp]; simp) h0 hsm
  obtain ⟨t2, r2, c2, p2, ct2, m2, hn2, n2⟩ := step_event_unsliced p hnc (step p s).2
    ⟨2, .noteOff ch k v2, l⟩ [] m r1 c1 hr2 rfl
    (by rw [m1, hm, p1]; norm_num) h0 hsm
  obtain ⟨t3, r3, c3, p3, ct3, m3, hn3, n3⟩ := step_end_unsliced p hnc
    (step p (step p s).2).2 (2 * m) r2 c2 hl
    (by rw [m2, m1, hm, p2, he]; norm_num; ring) hsm2
  have hh1 : (step p s).2.holdingNotes = [⟨k, ch, l⟩] := by
    rw [hn1, hh, updateHoldingNotes_noteOn ⟨1, .noteOn ch k v, l⟩ [] rfl]
    rfl
  have hh2 : (step p (step p s).2).2.holdingNotes = [] := by
    rw [hn2, hh1, updateHoldingNotes_noteOff ⟨2, .noteOff ch k v2, l⟩ _ rfl]
    simp [noteOf, MidiMessage.getNoteNumber, MidiMessage.getChannel]
  rw [runLoop_three]
  simp only [unsliced_append, t1, t2, t3, hb, if_true, hs, hT, hc, n1, n2, ct1, ct2]
  refine ⟨?_, hh1, r3, ?_, ?_, ?_, ?_, ?_, ?_⟩
  · simp
  · rw [c3, hs, hcache]
  · rw [p3, hs]
  · rw [m3, m2, m1, hm]
  · rw [hn3, hh2]
  · rw [n3, n2, n1, hT]
  · rw [ct3, ct2, ct1, hc]

/-- The state at the head of every pass of the scenario. -/
theorem scenario_pass_head (p : PlayerThread) (now : ℕ) (ch k : ℤ) (v v2 : ℕ)
    (l : MidiMessageCollector) (t m : ℚ) (hs : p.startBeat = 0) (he : p.endBeat = 4)
    (hl : p.loopedMode = true) (hb : p.broadcastMode = true)
    (hcache : p.transport.seekToTime 0
      = [⟨1, .noteOn ch k v, l⟩, ⟨2, .noteOff ch k v2, l⟩])
    (htempo : p.transport.findTimeAndTempoAt 0 = (t, m))
    (hm1 : 1 ≤ m) (hm2 : m < 2 ^ 31) (hnc : ∀ i, p.threadShouldExit i = false) (j : ℕ) :
    (runLoop p (3 * j) (start p now).2).2.status = .running
      ∧ (runLoop p (3 * j) (start p now).2).2.cursor
          = [⟨1, .noteOn ch k v, l⟩, ⟨2, .noteOff ch k v2, l⟩]
      ∧ (runLoop p (3 * j) (start p now).2).2.prevTimeStamp = 0
      ∧ (runLoop p (3 * j) (start p now).2).2.msPerQuarter = m
      ∧ (runLoop p (3 * j) (start p now).2).2.holdingNotes = []
      ∧ (runLoop p (3 * j) (start p now).2).2.now
          = now + j * (2 * toUInt32 m + toUInt32 (2 * m))
      ∧ (runLoop p (3 * j) (start p now).2).2.currentTimeMs = t + j * (2 * m) := by
  induction j with
  | zero =>
    simp only [Nat.mul_zero, runLoop, start, hs, hcache, htempo]
    simp
  | succ j ih =>
    obtain ⟨i1, i2, i3, i4, i5, i6, i7⟩ := ih
    rw [show 3 * (j + 1) = 3 * j + 3 by ring, runLoop_add]
    simp only
    obtain ⟨_, _, r, c, q, mm, h, n, ct⟩ := scenario_pass p ch k v v2 l m hs he hl hb hcache
      hm1 hm2 hnc _ _ _ i1 i2 i3 i4 i5 i6 i7
    refine ⟨r, c, q, mm, h, ?_, ?_⟩
    · rw [n]; ring
    · rw [ct]; push_cast; ring

/-- C15, counterexample: at the tempo of 3 / 2 ms per quarter note the scenario run waits
until 1 ms for the note-on, until 2 ms for the note-off and until 5 ms for the end of
the track: waits of 1, 1 and 3 ms where `m`, `m` and `2 m` are 3 / 2, 3 / 2 and 3, and
a pass of 5 ms where `4 m` is 6. -/
theorem scenario_waits_are_truncated :
    unsliced (runLoop (exScenario (3 / 2)) 3 (start (exScenario (3 / 2)) 0).2).1
        = [Effect.getNextMessage (some ⟨1, .noteOn 1 60 100, 0⟩),
            Effect.waitForMillisecondCounter 1,
            Effect.broadcastSeek 1 (3 / 2) 0,
            Effect.setTimeStamp ⟨1, .noteOn 1 60 100, 0⟩ 1,
            Effect.addMessageToQueue 0 (.noteOn 1 60 100) 1,
            Effect.getNextMessage (some ⟨2, .noteOff 1 60 0, 0⟩),
            Effect.waitForMillisecondCounter 2,
            Effect.broadcastSeek 2 3 0,
            Effect.setTimeStamp ⟨2, .noteOff 1 60 0, 0⟩ 2,
            Effect.addMessageToQueue 0 (.noteOff 1 60 0) 2,
            Effect.getNextMessage none,
            Effect.waitForMillisecondCounter 5,
            Effect.seekToTime 0,
            Effect.broadcastSeek 0 3 0]
      ∧ (run (exScenario (3 / 2)) 0 3).2.now = 5
      ∧ (4 * (3 / 2) : ℚ) = 6 := by
  decide!

/-- C15, amended: in the scenario (start beat 0, end beat 4, loop and broadcast on, a cache
holding a note-on at beat 1 and its note-off at beat 2, the constant tempo `m` with
`1 ≤ m < 2 ^ 31` ms per quarter note, no exit request) the waits are the deltas
truncated to whole milliseconds.  The run notifies the seek at beat 0 before its first
pass.  Every pass takes three iterations; it begins with an empty `holdingNotes`,
`uint32(m)` ms after its beginning it notifies the seek at beat 1 and sends the note-on,
which is then held, a further `uint32(m)` ms later it notifies the seek at beat 2 and
sends the note-off, a further `uint32(2 m)` ms later it seeks the cache back to beat 0
and notifies the seek at beat 0, with `holdingNotes` empty again; apart from sleeps and
exit checks it does nothing else.  The thread keeps running, pass after pass.  When `m`
is a whole number of milliseconds the three waits are `m`, `m` and `2 m`. -/
theorem scenario_pass_pattern (p : PlayerThread) (now : ℕ) (ch k : ℤ) (v v2 : ℕ)
    (l : MidiMessageCollector) (t m : ℚ) (hs : p.startBeat = 0) (he : p.endBeat = 4)
    (hl : p.loopedMode = true) (hb : p.broadcastMode = true)
    (hcache : p.transport.seekToTime 0
      = [⟨1, .noteOn ch k v, l⟩, ⟨2, .noteOff ch k v2, l⟩])
    (htempo : p.transport.findTimeAndTempoAt 0 = (t, m))
    (hm1 : 1 ≤ m) (hm2 : m < 2 ^ 31) (hnc : ∀ i, p.threadShouldExit i = false)
    (j T : ℕ) (c : ℚ) (hT : T = now + j * (2 * toUInt32 m + toUInt32 (2 * m)))
    (hc : c = t + j * (2 * m)) :
    Effect.broadcastSeek 0 t (totalTimeMs p) ∈ (start p now).1
      ∧ (run p now (3 * j)).2.status = .running
      ∧ (run p now (3 * j)).2.cursor = [⟨1, .noteOn ch k v, l⟩, ⟨2, .noteOff ch k v2, l⟩]
      ∧ (run p now (3 * j)).2.holdingNotes = []
      ∧ (run p now (3 * j)).2.now = T
      ∧ unsliced (runLoop p 3 (run p now (3 * j)).2).1
        = [Effect.getNextMessage (some ⟨1, .noteOn ch k v, l⟩),
            Effect.waitForMillisecondCounter (T + toUInt32 m),
            Effect.broadcastSeek 1 (c + m) (totalTimeMs p),
            Effect.setTimeStamp ⟨1, .noteOn ch k v, l⟩ (T + toUInt32 m),
            Effect.addMessageToQueue l (.noteOn ch k v) (T + toUInt32 m),
            Effect.getNextMessage (some ⟨2, .noteOff ch k v2, l⟩),
            Effect.waitForMillisecondCounter (T + toUInt32 m + toUInt32 m),
            Effect.broadcastSeek 2 (c + m + m) (totalTimeMs p),
            Effect.setTimeStamp ⟨2, .noteOff ch k v2, l⟩ (T + toUInt32 m + toUInt32 m),
            Effect.addMessageToQueue l (.noteOff ch k v2) (T + toUInt32 m + toUInt32 m),
            Effect.getNextMessage none,
            Effect.waitForMillisecondCounter (T + toUInt32 m + toUInt32 m + toUInt32 (2 * m)),
            Effect.seekToTime 0,
            Effect.broadcastSeek 0 (c + m + m) (totalTimeMs p)]
      ∧ (run p now (3 * j + 1)).2.holdingNotes = [⟨k, ch, l⟩]
      ∧ (run p now (3 * j + 3)).2.holdingNotes = []
      ∧ (∀ n, (run p now n).2.status = .running)
      ∧ (∀ i : ℕ, m = i → toUInt32 m = i ∧ toUInt32 (2 * m) = 2 * i) := by
  obtain ⟨i1, i2, i3, i4, i5, i6, i7⟩ := scenario_pass_head p now ch k v v2 l t m hs he hl hb
    hcache htempo hm1 hm2 hnc j
  rw [← hT] at i6
  rw [← hc] at i7
  obtain ⟨tr, h1, _, _, _, _, h3, _, _⟩ := scenario_pass p ch k v v2 l m hs he hl hb hcache
    hm1 hm2 hnc _ T c i1 i2 i3 i4 i5 i6 i7
  have hrun2 : ∀ n, (run p now n).2 = (runLoop p n (start p now).2).2 := fun _ => rfl
  refine ⟨?_, ?_, ?_, ?_, ?_, ?_, ?_, ?_, ?_, ?_⟩
  · simp [start, hb, hs, htempo]
  · rw [hrun2]; exact i1
  · rw [hrun2]; exact i2
  · rw [hrun2]; exact i5
  · rw [hrun2]; exact i6
  · rw [hrun2]; exact tr
  · rw [hrun2, runLoop_add, runLoop_one]; exact h1
  · rw [hrun2, runLoop_add]; exact h3
  · intro n
    rw [hrun2]
    exact runLoop_loop_running p hl hnc n _ rfl
  · intro i hi
    have hlt : ((i : ℕ) : ℚ) < 2 ^ 31 := by rw [← hi]; exact hm2
    constructor
    · rw [hi]; exact toUInt32_natCast i (by linarith)
    · rw [hi, show (2 * (i : ℚ)) = ((2 * i : ℕ) : ℚ) by push_cast; ring]
      exact toUInt32_natCast (2 * i) (by push_cast; linarith)

/-- C15, witness: the second pass of the scenario run at 3 / 2 ms per quarter note begins
at 5 ms with nothing held; its note-on is held after the first of its iterations. -/
theorem scenario_pass_pattern_witness :
    (run (exScenario (3 / 2)) 0 3).2.now = 5
      ∧ (run (exScenario (3 / 2)) 0 3).2.holdingNotes = []
      ∧ (run (exScenario (3 / 2)) 0 4).2.holdingNotes = [⟨60, 1, 0⟩]
      ∧ toUInt32 (3 / 2) = 1 ∧ toUInt32 (2 * (3 / 2)) = 3 := by
  have h := scenario_pass_pattern (exScenario (3 / 2)) 0 1 60 100 0 0 0 (3 / 2) rfl rfl rfl rfl
    rfl rfl (by norm_num) (by norm_num) (fun _ => rfl) 1 5 3 (by decide!) (by norm_num)
  exact ⟨h.2.2.2.2.1, h.2.2.2.1, h.2.2.2.2.2.2.1, by decide!, by decide!⟩

/-! ## C23 -/

/-- C23, counterexample: a broadcasting run with one instrument begins with the tempo
notification, the seek of the cache and the seek notification; the MIDI start is the last
thing sent before the loop, not the first. -/
theorem midiStart_is_sent_last :
    (start (exThread [] false true 4 (fun _ => false)) 0).1
        = [Effect.broadcastTempoChanged 500, Effect.seekToTime 0, Effect.broadcastSeek 0 0 0,
            Effect.addMessageToQueue 0 .midiStart 0]
      ∧ (start (exThread [] false true 4 (fun _ => false)) 0).1.head?
        ≠ some (Effect.addMessageToQueue 0 .midiStart 0) := by
  decide!

/-- C23, amended: before its loop a run takes `(currentTimeMs, msPerQuarter)` from
`findTimeAndTempoAt(startBeat)` and, only when broadcasting, notifies that tempo; then it
seeks the cache to `startBeat`, sets `prevTimeStamp` to `startBeat` and, only when
broadcasting, notifies the seek `(startBeat, currentTimeMs, totalTimeMs)`; then, last, it
sends one MIDI start to each unique instrument.  The trace of every run begins with
exactly these effects, in this order, followed by the effects of the loop, whose first
is the first pull; nothing is held and no exit check was made when the loop begins. -/
theorem start_order (p : PlayerThread) (now n : ℕ) :
    (start p now).1
        = (if p.broadcastMode then
            [Effect.broadcastTempoChanged (p.transport.findTimeAndTempoAt p.startBeat).2]
          else [])
          ++ [Effect.seekToTime p.startBeat]
          ++ (if p.broadcastMode then
                [Effect.broadcastSeek p.startBeat (p.transport.findTimeAndTempoAt p.startBeat).1
                  (p.transport.findTimeAndTempoAt p.transport.projectLastBeat).1]
              else [])
          ++ p.transport.uniqueInstruments.map
              (fun i => Effect.addMessageToQueue i .midiStart now)
      ∧ (start p now).2
        = { cursor := p.transport.seekToTime p.startBeat
            prevTimeStamp := p.startBeat
            currentTimeMs := (p.transport.findTimeAndTempoAt p.startBeat).1
            msPerQuarter := (p.transport.findTimeAndTempoAt p.startBeat).2
            holdingNotes := []
            now := now
            exitChecks := 0
            status := .running }
      ∧ (run p now n).1 = (start p now).1 ++ (runLoop p n (start p now).2).1
      ∧ (∀ r, Effect.getNextMessage r ∉ (start p now).1)
      ∧ enqueued (start p now).1
        = p.transport.uniqueInstruments.map (fun i => (i, MidiMessage.midiStart))
      ∧ (∃ es, (runLoop p (n + 1) (start p now).2).1
          = Effect.getNextMessage (p.transport.seekToTime p.startBeat).head? :: es) := by
  refine ⟨rfl, rfl, rfl, ?_, enqueued_start p now, ?_⟩
  · intro r
    unfold start sendMidiStart
    cases p.broadcastMode <;> simp
  · rw [runLoop_succ]
    obtain ⟨es, he⟩ := step_begins_with_pull p (start p now).2 rfl
    exact ⟨es ++ (runLoop p n (step p (start p now).2).2).1, by rw [he]; rfl⟩

/-! ## C24 -/

theorem count_map_pair (l : List MidiMessageCollector) (m : MidiMessage)
    (d : MidiMessageCollector) (m2 : MidiMessage) :
    (l.map (fun i => (i, m))).count (d, m2) = if m2 = m then l.count d else 0 := by
  induction l with
  | nil => simp
  | cons a l ih =>
    simp only [List.map_cons, List.count_cons, ih]
    by_cases hm : m2 = m
    · subst hm
      by_cases ha : a = d
      · subst ha; simp
      · have : ¬ d = a := fun h => ha h.symm
        simp [ha, this]
    · have : ¬ ((a, m) == (d, m2)) = true := by
        simp only [beq_iff_eq, Prod.mk.injEq, not_and]
        intro _ h
        exact hm h.symm
      simp [hm, this]

/-- C24: when a tempo meta event is sent, the messages enqueued are exactly the event, once
per entry of the unique instruments, in their order, and nothing else: with pairwise
distinct instruments every unique instrument receives it once, the event's own listener
included when it is one of them and not served otherwise.  Any other event is enqueued
once, to its own listener, and nothing else is enqueued.  An iteration that sends the
event enqueues exactly these messages. -/
theorem tempo_event_goes_to_every_instrument (p : PlayerThread) (s : State)
    (w : CachedMidiMessage) :
    (w.message.isTempoMetaEvent = true →
        enqueued (dispatch p w s).1
          = p.transport.uniqueInstruments.map (fun i => (i, w.message))
        ∧ (p.transport.uniqueInstruments.Nodup → ∀ d m,
            (enqueued (dispatch p w s).1).count (d, m)
              = if m = w.message ∧ d ∈ p.transport.uniqueInstruments then 1 else 0))
      ∧ (w.message.isTempoMetaEvent = false →
          enqueued (dispatch p w s).1 = [(w.listener, w.message)]
          ∧ ∀ d m, (enqueued (dispatch p w s).1).count (d, m)
              = if m = w.message ∧ d = w.listener then 1 else 0)
      ∧ (∀ rest, s.status = .running → s.cursor = w :: rest →
          dispatched (step p s).1 = [w] →
          enqueued (step p s).1
            = if w.message.isTempoMetaEvent then
                p.transport.uniqueInstruments.map (fun i => (i, w.message))
              else [(w.listener, w.message)]) := by
  refine ⟨?_, ?_, ?_⟩
  · intro ht
    rw [enqueued_dispatch, if_pos ht]
    refine ⟨rfl, ?_⟩
    intro hnd d m
    rw [count_map_pair]
    by_cases hm : m = w.message
    · by_cases hd : d ∈ p.transport.uniqueInstruments
      · simp [hm, hd, List.count_eq_one_of_mem hnd hd]
      · simp [hm, hd, List.count_eq_zero_of_not_mem hd]
    · simp [hm]
  · intro ht
    rw [enqueued_dispatch]
    simp only [ht, Bool.false_eq_true, if_false, true_and]
    intro d m
    by_cases h : m = w.message ∧ d = w.listener
    · obtain ⟨rfl, rfl⟩ := h
      simp
    · rw [if_neg h]
      apply List.count_eq_zero_of_not_mem
      simp only [List.mem_singleton, Prod.mk.injEq, not_and]
      intro hd hm
      exact h ⟨hm, hd⟩
  · intro rest hrun hc hd
    rcases step_event p s w rest hrun hc with ⟨_, hd2, _⟩ | ⟨_, _, hd2, _⟩
      | ⟨_, _, _, he, _⟩
    · rw [hd] at hd2; simp at hd2
    · rw [hd] at hd2; simp at hd2
    · rw [he, enqueued_dispatch]

/-- C24, witness: the tempo event of listener 3 goes to the only unique instrument 0, once,
and not to listener 3; the note-on of listener 0 goes to listener 0 only. -/
theorem tempo_event_goes_to_every_instrument_witness :
    enqueued (dispatch exTempo ⟨1, .tempoMetaEvent (1 / 4), 3⟩ (start exTempo 0).2).1
        = [(0, .tempoMetaEvent (1 / 4))]
      ∧ (enqueued (dispatch exTempo ⟨1, .tempoMetaEvent (1 / 4), 3⟩ (start exTempo 0).2).1).count
          (3, .tempoMetaEvent (1 / 4)) = 0
      ∧ enqueued (dispatch exTempo ⟨2, .noteOn 1 60 100, 0⟩ (start exTempo 0).2).1
        = [(0, .noteOn 1 60 100)] := by
  have h := tempo_event_goes_to_every_instrument exTempo (start exTempo 0).2
    ⟨1, .tempoMetaEvent (1 / 4), 3⟩
  have h2 := tempo_event_goes_to_every_instrument exTempo (start exTempo 0).2
    ⟨2, .noteOn 1 60 100, 0⟩
  refine ⟨(h.1 rfl).1, ?_, (h2.2.1 rfl).1⟩
  rw [(h.1 rfl).2 (by decide) 3 (.tempoMetaEvent (1 / 4))]
  decide!

/-! ## C26 -/

/-- The trace of a looped run over an empty cache whose loop lasts at most one slice:
pulls, waits for the counter and seeks only. -/
theorem runLoop_empty_short_loop_trace (p : PlayerThread) (hl : p.loopedMode = true)
    (hempty : p.transport.seekToTime p.startBeat = []) (m : ℚ)
    (hshort : m * (p.endBeat - p.startBeat) ≤ 1000) (n : ℕ) :
    ∀ s : State, s.status = .running → s.cursor = [] → s.prevTimeStamp = p.startBeat →
      s.msPerQuarter = m →
      ∀ e ∈ (runLoop p n s).1, e = Effect.getNextMessage none
        ∨ (∃ t, e = Effect.waitForMillisecondCounter t)
        ∨ e = Effect.seekToTime p.startBeat
        ∨ ∃ c, e = Effect.broadcastSeek p.startBeat c (totalTimeMs p) := by
  induction n with
  | zero => intro s _ _ _ _ e he; simp [runLoop] at he
  | succ n ih =>
    intro s hrun hc hp hm e he
    have hstep : step p s
        = (Effect.getNextMessage none
            :: [Effect.waitForMillisecondCounter
                (s.now + toUInt32 (m * (p.endBeat - p.startBeat)))]
            ++ (rewind p { s with now := s.now + toUInt32 (m * (p.endBeat - p.startBeat)) }).1,
          (rewind p { s with now := s.now + toUInt32 (m * (p.endBeat - p.startBeat)) }).2) := by
      unfold step
      simp only [hrun, hc, endOfCache, hp, hm, sleepSlices_of_le p _ _ s hshort, hl,
        Bool.false_eq_true, if_false, if_true, List.nil_append, List.singleton_append,
        List.cons_append]
      have : max s.now (s.now + toUInt32 (m * (p.endBeat - p.startBeat)))
          = s.now + toUInt32 (m * (p.endBeat - p.startBeat)) := max_eq_right (by omega)
      rw [this]
    rw [runLoop_succ, hstep] at he
    simp only [List.mem_append, List.mem_cons, List.mem_singleton, List.not_mem_nil,
      or_false] at he
    rcases he with ((he | he) | he) | he
    · exact Or.inl he
    · exact Or.inr (Or.inl ⟨_, he⟩)
    · simp only [rewind, List.mem_cons] at he
      rcases he with he | he
      · exact Or.inr (Or.inr (Or.inl he))
      · split at he
        · simp only [List.mem_singleton] at he
          exact Or.inr (Or.inr (Or.inr ⟨_, he⟩))
        · simp at he
    · exact ih (rewind p { s with now := s.now + toUInt32 (m * (p.endBeat - p.startBeat)) }).2
        hrun hempty rfl hm e he

/-- C26: in loop mode, over a cache that returns no event after `seekToTime(startBeat)`
and with `msPerQuarter * (endBeat - startBeat)` at most 1000 ms (so also when the end
beat is the start beat), whatever `threadShouldExit()` would answer, even `true` from the
beginning: after any number `n` of iterations the run is still in its loop, has made no
exit check and no sleep, and has enqueued nothing but the MIDI starts; its loop only
pulled, waited for the counter and sought back, so no flush was made. -/
theorem short_empty_loop_never_checks_exit (p : PlayerThread) (now n : ℕ)
    (hl : p.loopedMode = true) (hempty : p.transport.seekToTime p.startBeat = [])
    (hshort : (p.transport.findTimeAndTempoAt p.startBeat).2 * (p.endBeat - p.startBeat)
      ≤ 1000) :
    (run p now n).2.status = .running
      ∧ (run p now n).2.exitChecks = 0
      ∧ (∀ b, Effect.threadShouldExit b ∉ (run p now n).1)
      ∧ (∀ ms, Effect.sleep ms ∉ (run p now n).1)
      ∧ (∀ d t, Effect.addMessageToQueue d .midiStop t ∉ (run p now n).1)
      ∧ enqueued (run p now n).1
        = p.transport.uniqueInstruments.map (fun i => (i, MidiMessage.midiStart))
      ∧ (run p now n).2.now = now + n * toUInt32
          ((p.transport.findTimeAndTempoAt p.startBeat).2 * (p.endBeat - p.startBeat)) := by
  have hs : (start p now).2.cursor = [] := hempty
  obtain ⟨h1, h2, h3, _, h5⟩ := runLoop_empty_short_loop p hl hempty _ hshort n
    (start p now).2 rfl hs rfl rfl
  have ht := runLoop_empty_short_loop_trace p hl hempty _ hshort n (start p now).2 rfl hs
    rfl rfl
  have hstart : ∀ e ∈ (start p now).1, (∀ b, e ≠ Effect.threadShouldExit b)
      ∧ (∀ ms, e ≠ Effect.sleep ms) ∧ ∀ d t, e ≠ Effect.addMessageToQueue d .midiStop t := by
    intro e he
    simp only [start, sendMidiStart, List.mem_append, List.mem_map, List.mem_singleton] at he
    rcases he with ((he | rfl) | he) | ⟨_, _, rfl⟩
    · split at he
      · simp only [List.mem_singleton] at he; subst he; simp
      · simp at he
    · simp
    · split at he
      · simp only [List.mem_singleton] at he; subst he; simp
      · simp at he
    · simp
  have hloop : ∀ e ∈ (runLoop p n (start p now).2).1, (∀ b, e ≠ Effect.threadShouldExit b)
      ∧ (∀ ms, e ≠ Effect.sleep ms) ∧ ∀ d t, e ≠ Effect.addMessageToQueue d .midiStop t := by
    intro e he
    rcases ht e he with rfl | ⟨_, rfl⟩ | rfl | ⟨_, rfl⟩ <;> simp
  have hall : ∀ e ∈ (run p now n).1, (∀ b, e ≠ Effect.threadShouldExit b)
      ∧ (∀ ms, e ≠ Effect.sleep ms) ∧ ∀ d t, e ≠ Effect.addMessageToQueue d .midiStop t := by
    intro e he
    simp only [run, List.mem_append] at he
    rcases he with he | he
    · exact hstart e he
    · exact hloop e he
  refine ⟨h1, h2, fun b hm => (hall _ hm).1 b rfl, fun ms hm => (hall _ hm).2.1 ms rfl,
    fun d t hm => (hall _ hm).2.2 d t rfl, ?_, h3⟩
  simp only [run, enqueued_append, h5, List.append_nil, enqueued_start]

/-- C26, witness: the looped run from beat 0 to beat 1 over an empty cache at 500 ms per
quarter note, with the exit requested from the beginning, is still running after 1000
iterations and has made no exit check. -/
theorem short_empty_loop_never_checks_exit_witness :
    exStuck.threadShouldExit 0 = true
      ∧ (run exStuck 0 1000).2.status = .running
      ∧ (run exStuck 0 1000).2.exitChecks = 0
      ∧ ∀ b, Effect.threadShouldExit b ∉ (run exStuck 0 1000).1 := by
  have h := short_empty_loop_never_checks_exit exStuck 0 1000 rfl rfl (by decide!)
  exact ⟨rfl, h.1, h.2.1, h.2.2.1⟩

/-! ## C21 -/

/-- A slicing loop that observed the exit request made `k` rounds whose check answered
`false` and one more whose check answered `true`, all of them while more than 1000 ms of
the delta were left. -/
theorem sleepSlices_cut (p : PlayerThread) (fuel : ℕ) :
    ∀ (delta : ℚ) (s : State), (sleepSlices p fuel delta s).2.2 = true →
      ∃ k : ℕ, (sleepSlices p fuel delta s).1
          = List.flatten (List.replicate k [Effect.sleep 1000, Effect.threadShouldExit false])
            ++ [Effect.sleep 1000, Effect.threadShouldExit true]
        ∧ (sleepSlices p fuel delta s).2.1
          = { s with now := s.now + 1000 * (k + 1), exitChecks := s.exitChecks + (k + 1) }
        ∧ ((1000 * (k + 1) : ℕ) : ℚ) < delta := by
  induction fuel with
  | zero => intro delta s h; simp [sleepSlices] at h
  | succ n ih =>
    intro delta s hflag
    unfold sleepSlices at hflag ⊢
    split
    · rename_i hd
      rw [if_pos hd] at hflag
      split
      · refine ⟨0, rfl, rfl, ?_⟩
        simpa [MINIMUM_STOP_CHECK_TIME_MS] using hd
      · rename_i hx
        rw [if_neg hx] at hflag
        simp only at hflag ⊢
        obtain ⟨k, h1, h2, h3⟩ := ih _ _ hflag
        simp only [MINIMUM_STOP_CHECK_TIME_MS] at hd h1 h2 h3 ⊢
        refine ⟨k + 1, ?_, ?_, ?_⟩
        · rw [h1, List.replicate_succ]
          rfl
        · rw [h2]
          simp only [State.mk.injEq, true_and, and_true]
          constructor <;> ring
        · push_cast at h3 ⊢
          linarith
    · rename_i hd
      rw [if_neg hd] at hflag
      simp at hflag

theorem rounds_le_ceil (d : ℚ) (j : ℕ) (h : ((1000 * j : ℕ) : ℚ) < d) :
    (j : ℤ) ≤ ⌈d / 1000⌉ - 1 := by
  have h1 : ((j : ℤ) : ℚ) < d / 1000 := by
    rw [lt_div_iff₀ (by norm_num)]
    push_cast at h ⊢
    linarith
  have h2 : (j : ℤ) < ⌈d / 1000⌉ := Int.lt_ceil.2 h1
  omega

theorem rounds_eq_ceil (d : ℚ) (k : ℕ) (h1 : k = 0 ∨ ((1000 * k : ℕ) : ℚ) < d)
    (h2 : d ≤ ((1000 * (k + 1) : ℕ) : ℚ)) : k = (⌈d / 1000⌉ - 1).toNat := by
  have hle : ⌈d / 1000⌉ ≤ (k : ℤ) + 1 := by
    apply Int.ceil_le.2
    rw [div_le_iff₀ (by norm_num)]
    push_cast at h2 ⊢
    linarith
  rcases h1 with rfl | h1
  · simp only [Nat.cast_zero, zero_add] at hle
    omega
  · have := rounds_le_ceil d k h1
    omega

theorem toUInt32_le (d : ℚ) (n : ℕ) (h : d ≤ (n : ℚ)) : toUInt32 d ≤ n := by
  unfold toUInt32
  rw [ratFloor_eq]
  have h1 : ⌊d⌋ ≤ (n : ℤ) := by
    have : (⌊d⌋ : ℚ) ≤ d := Int.floor_le d
    exact_mod_cast this.trans h
  have h2 : ⌊d⌋.toNat ≤ n := by omega
  exact (Nat.mod_le _ _).trans h2

/-- C21: the slicing loop of a wait of `d` ms, in either branch (both call it with the
fuel `sliceFuel d`, and more fuel changes nothing).  It only sleeps 1000 ms at a time and
asks `threadShouldExit()` after each sleep.  When no check answers `true` it makes exactly
`⌈d / 1000⌉ - 1` such rounds if `d > 1000` and none otherwise, leaves at most 1000 ms of
the delta, and at most 1000 ms remain on the clock up to the target
`now + uint32(d)`.  When a check answers `true` the loop stops there, after at most
`⌈d / 1000⌉ - 1` rounds. -/
theorem slicing_loop_rounds (p : PlayerThread) (s : State) (d : ℚ) :
    (∀ fuel, sliceFuel d ≤ fuel → sleepSlices p fuel d s = sleepSlices p (sliceFuel d) d s)
      ∧ (∀ e ∈ (sleepSlices p (sliceFuel d) d s).1,
          e = Effect.sleep MINIMUM_STOP_CHECK_TIME_MS ∨ ∃ b, e = Effect.threadShouldExit b)
      ∧ ((∀ i, p.threadShouldExit i = false) → (sleepSlices p (sliceFuel d) d s).2.2 = false)
      ∧ ((sleepSlices p (sliceFuel d) d s).2.2 = false →
          (sleepSlices p (sliceFuel d) d s).1
            = List.flatten (List.replicate (⌈d / 1000⌉ - 1).toNat
                [Effect.sleep 1000, Effect.threadShouldExit false])
          ∧ (sleepSlices p (sliceFuel d) d s).2.1
            = { s with now := s.now + 1000 * (⌈d / 1000⌉ - 1).toNat
                       exitChecks := s.exitChecks + (⌈d / 1000⌉ - 1).toNat }
          ∧ (d ≤ 1000 → (⌈d / 1000⌉ - 1).toNat = 0)
          ∧ (1000 < d → ((⌈d / 1000⌉ - 1).toNat : ℤ) = ⌈d / 1000⌉ - 1)
          ∧ d - ((1000 * (⌈d / 1000⌉ - 1).toNat : ℕ) : ℚ) ≤ 1000
          ∧ (s.now + toUInt32 d) - (sleepSlices p (sliceFuel d) d s).2.1.now ≤ 1000)
      ∧ ((sleepSlices p (sliceFuel d) d s).2.2 = true →
          ∃ k : ℕ, (sleepSlices p (sliceFuel d) d s).1
              = List.flatten
                  (List.replicate k [Effect.sleep 1000, Effect.threadShouldExit false])
                ++ [Effect.sleep 1000, Effect.threadShouldExit true]
            ∧ ((k + 1 : ℕ) : ℤ) ≤ ⌈d / 1000⌉ - 1) := by
  refine ⟨fun fuel h => sleepSlices_fuel p fuel d s h, mem_sleepSlices p _ d s,
    fun hnc => sleepSlices_no_exit p hnc _ d s, ?_, ?_⟩
  · intro hflag
    obtain ⟨k, h1, h2, h3, h4⟩ := sleepSlices_unobserved p (sliceFuel d) d s hflag
    have h5 := h4 (le_refl _)
    have hk := rounds_eq_ceil d k h3 h5
    rw [← hk]
    refine ⟨h1, h2, ?_, ?_, ?_, ?_⟩
    · intro hd
      rcases h3 with rfl | h3
      · rfl
      · by_contra hne
        have : (1000 : ℚ) * 1 ≤ 1000 * k := by
          have : (1 : ℚ) ≤ k := by exact_mod_cast Nat.one_le_iff_ne_zero.2 hne
          linarith
        push_cast at h3
        linarith
    · intro hd
      have : (1 : ℤ) < ⌈d / 1000⌉ := by
        apply Int.lt_ceil.2
        rw [lt_div_iff₀ (by norm_num)]
        push_cast
        linarith
      omega
    · push_cast at h5 ⊢
      linarith
    · rw [h2]
      have := toUInt32_le d (1000 * (k + 1)) h5
      simp only
      omega
  · intro hflag
    obtain ⟨k, h1, _, h3⟩ := sleepSlices_cut p (sliceFuel d) d s hflag
    exact ⟨k, h1, rounds_le_ceil d (k + 1) h3⟩

/-- C21, witness: a wait of 2500 ms without exit request makes two rounds and leaves 500 ms
for the final wait. -/
theorem slicing_loop_rounds_witness :
    (sleepSlices exNonLoop (sliceFuel 2500) 2500 (start exNonLoop 0).2).1
        = [Effect.sleep 1000, Effect.threadShouldExit false,
            Effect.sleep 1000, Effect.threadShouldExit false]
      ∧ (⌈(2500 : ℚ) / 1000⌉ - 1).toNat = 2
      ∧ ((start exNonLoop 0).2.now + toUInt32 2500)
          - (sleepSlices exNonLoop (sliceFuel 2500) 2500 (start exNonLoop 0).2).2.1.now
        ≤ 1000 := by
  have h := (slicing_loop_rounds exNonLoop (start exNonLoop 0).2 2500).2.2.2.1 (by decide!)
  have hc : (⌈(2500 : ℚ) / 1000⌉ - 1).toNat = 2 := by
    have : ⌈(2500 : ℚ) / 1000⌉ = 3 := by
      rw [Int.ceil_eq_iff]
      norm_num
    rw [this]
    rfl
  exact ⟨by decide!, hc, h.2.2.2.2.2⟩

/-! ## Time accounting of an iteration -/

theorem interrupt_currentTimeMs (p : PlayerThread) (es : List Effect) (s : State) :
    (interrupt p es s).2.currentTimeMs = s.currentTimeMs := rfl

theorem interrupt_msPerQuarter (p : PlayerThread) (es : List Effect) (s : State) :
    (interrupt p es s).2.msPerQuarter = s.msPerQuarter := rfl

theorem interrupt_prevTimeStamp (p : PlayerThread) (es : List Effect) (s : State) :
    (interrupt p es s).2.prevTimeStamp = s.prevTimeStamp := rfl

theorem rewindOrDispatch_currentTimeMs (p : PlayerThread) (b : Bool) (w : CachedMidiMessage)
    (s : State) : (rewindOrDispatch p b w s).2.currentTimeMs = s.currentTimeMs := by
  unfold rewindOrDispatch
  split
  · rfl
  · exact dispatch_currentTimeMs p w s

theorem dispatch_prevTimeStamp (p : PlayerThread) (w : CachedMidiMessage) (s : State) :
    (dispatch p w s).2.prevTimeStamp = s.prevTimeStamp := by
  unfold dispatch; split <;> rfl

/-- The end-of-cache branch leaves `currentTimeMs` and `msPerQuarter` as they were. -/
theorem endOfCache_frame (p : PlayerThread) (s : State) :
    (endOfCache p s).2.currentTimeMs = s.currentTimeMs
      ∧ (endOfCache p s).2.msPerQuarter = s.msPerQuarter := by
  unfold endOfCache
  simp only
  have hc := sleepSlices_currentTimeMs p
    (sliceFuel (s.msPerQuarter * (p.endBeat - s.prevTimeStamp)))
    (s.msPerQuarter * (p.endBeat - s.prevTimeStamp)) s
  have hm := sleepSlices_msPerQuarter p
    (sliceFuel (s.msPerQuarter * (p.endBeat - s.prevTimeStamp)))
    (s.msPerQuarter * (p.endBeat - s.prevTimeStamp)) s
  generalize sleepSlices p (sliceFuel (s.msPerQuarter * (p.endBeat - s.prevTimeStamp)))
    (s.msPerQuarter * (p.endBeat - s.prevTimeStamp)) s = r at hc hm ⊢
  split
  · exact ⟨hc, hm⟩
  · split
    · exact ⟨hc, hm⟩
    · exact ⟨hc, hm⟩

/-- The end-of-cache branch leaves `prevTimeStamp` as it was unless it seeks back. -/
theorem endOfCache_prevTimeStamp (p : PlayerThread) (s : State)
    (h : Effect.seekToTime p.startBeat ∉ (endOfCache p s).1) :
    (endOfCache p s).2.prevTimeStamp = s.prevTimeStamp := by
  unfold endOfCache at h ⊢
  simp only at h ⊢
  have hp := sleepSlices_prevTimeStamp p
    (sliceFuel (s.msPerQuarter * (p.endBeat - s.prevTimeStamp)))
    (s.msPerQuarter * (p.endBeat - s.prevTimeStamp)) s
  generalize sleepSlices p (sliceFuel (s.msPerQuarter * (p.endBeat - s.prevTimeStamp)))
    (s.msPerQuarter * (p.endBeat - s.prevTimeStamp)) s = r at hp h ⊢
  split
  · exact hp
  · rename_i hb
    rw [if_neg hb] at h
    split
    · rename_i hl
      rw [if_pos hl] at h
      exfalso
      apply h
      simp [rewind]
    · exact hp

/-- The event branch leaves `currentTimeMs` as `eventTick` set it. -/
theorem waitThenPlay_currentTimeMs (p : PlayerThread) (w : CachedMidiMessage) (delta : ℚ)
    (s0 : State) : (waitThenPlay p w delta s0).2.currentTimeMs = s0.currentTimeMs := by
  unfold waitThenPlay
  simp only
  have hc := sleepSlices_currentTimeMs p (sliceFuel delta) delta s0
  generalize sleepSlices p (sliceFuel delta) delta s0 = r at hc ⊢
  split
  · split
    · exact hc
    · split
      · exact hc
      · rw [rewindOrDispatch_currentTimeMs]
        exact hc
  · exact rewindOrDispatch_currentTimeMs p _ w s0

/-- The event branch leaves `prevTimeStamp` as `eventTick` set it unless it seeks back. -/
theorem waitThenPlay_prevTimeStamp (p : PlayerThread) (w : CachedMidiMessage) (delta : ℚ)
    (s0 : State) (h : Effect.seekToTime p.startBeat ∉ (waitThenPlay p w delta s0).1) :
    (waitThenPlay p w delta s0).2.prevTimeStamp = s0.prevTimeStamp := by
  have key : ∀ s1 : State, s1.prevTimeStamp = s0.prevTimeStamp →
      Effect.seekToTime p.startBeat ∉ (rewindOrDispatch p (shouldRewind p w) w s1).1 →
      (rewindOrDispatch p (shouldRewind p w) w s1).2.prevTimeStamp = s0.prevTimeStamp := by
    intro s1 h1 h2
    unfold rewindOrDispatch at h2 ⊢
    split
    · rename_i hr
      rw [if_pos hr] at h2
      exact absurd (seekToTime_mem_rewind p s1) h2
    · rw [dispatch_prevTimeStamp]
      exact h1
  unfold waitThenPlay at h ⊢
  simp only at h ⊢
  have hp := sleepSlices_prevTimeStamp p (sliceFuel delta) delta s0
  generalize sleepSlices p (sliceFuel delta) delta s0 = r at hp h ⊢
  split
  · rename_i h0
    rw [if_pos h0] at h
    split
    · exact hp
    · rename_i hb
      rw [if_neg hb] at h
      split
      · exact hp
      · rename_i hx
        rw [if_neg hx] at h
        exact key _ hp (fun hm => h (List.mem_append_right _ hm))
  · rename_i h0
    rw [if_neg h0] at h
    exact key _ rfl (fun hm => h (List.mem_cons_of_mem _ hm))

/-- The elapsed time after an iteration: the end-of-cache branch adds nothing, the event
branch adds the delta towards the target beat. -/
theorem step_currentTimeMs (p : PlayerThread) (s : State) (hrun : s.status = .running) :
    (step p s).2.currentTimeMs
      = s.currentTimeMs
        + (if s.cursor = [] then 0 else s.msPerQuarter * (targetBeat p s - s.prevTimeStamp)) := by
  unfold step
  simp only [hrun]
  cases hc : s.cursor with
  | nil => simp [(endOfCache_frame p s).1]
  | cons w rest =>
    unfold eventTick
    rw [waitThenPlay_currentTimeMs]
    simp [targetBeat, hc]

/-- The beat after an iteration that does not seek back: the target beat in the event
branch, unchanged at the end of the cache. -/
theorem step_prevTimeStamp (p : PlayerThread) (s : State) (hrun : s.status = .running)
    (h : Effect.seekToTime p.startBeat ∉ (step p s).1) :
    (step p s).2.prevTimeStamp = if s.cursor = [] then s.prevTimeStamp else targetBeat p s := by
  unfold step at h ⊢
  simp only [hrun] at h ⊢
  cases hc : s.cursor with
  | nil =>
    rw [hc] at h
    simp [endOfCache_prevTimeStamp p s h]
  | cons w rest =>
    rw [hc] at h
    unfold eventTick at h ⊢
    rw [waitThenPlay_prevTimeStamp p w _ _ h]
    simp [targetBeat, hc]

theorem waitThenPlay_interrupted_msPerQuarter (p : PlayerThread) (w : CachedMidiMessage)
    (delta : ℚ) (s0 : State) (hs0 : s0.status = .running)
    (hi : (waitThenPlay p w delta s0).2.status = .interrupted) :
    (waitThenPlay p w delta s0).2.msPerQuarter = s0.msPerQuarter := by
  unfold waitThenPlay at hi ⊢
  simp only at hi ⊢
  have hm := sleepSlices_msPerQuarter p (sliceFuel delta) delta s0
  have hs := sleepSlices_status p (sliceFuel delta) delta s0
  generalize sleepSlices p (sliceFuel delta) delta s0 = r at hm hs hi ⊢
  split
  · rename_i h0
    rw [if_pos h0] at hi
    split
    · exact hm
    · rename_i hb
      rw [if_neg hb] at hi
      split
      · exact hm
      · rename_i hx
        rw [if_neg hx, rewindOrDispatch_status] at hi
        simp only [hs, hs0] at hi
        simp at hi
  · rename_i h0
    rw [if_neg h0, rewindOrDispatch_status, hs0] at hi
    simp at hi

/-- What an iteration does to the tempo: nothing, unless it sends a tempo event. -/
theorem step_tempo (p : PlayerThread) (s : State) :
    (dispatched (step p s).1 = [] ∧ (step p s).2.msPerQuarter = s.msPerQuarter)
      ∨ ∃ w, dispatched (step p s).1 = [w]
        ∧ (step p s).2.msPerQuarter
          = if w.message.isTempoMetaEvent then w.message.getTempoSecondsPerQuarterNote * 1000
            else s.msPerQuarter := by
  by_cases hrun : s.status = .running
  · cases hcur : s.cursor with
    | nil =>
      left
      constructor
      · have hres := step_result p s hrun
        generalize step p s = r at hres ⊢
        cases hres with
        | interrupted q s1 hq hh hk =>
          rw [dispatched_append, dispatched_of_quiet q hq, dispatched_flush]; rfl
        | ended q s1 hq hh hc' hl =>
          simp only [dispatched_append, dispatched_of_quiet q hq, dispatched_flush]
          cases p.broadcastMode <;> rfl
        | wrapped q s1 hq hh hm hs hl hcw =>
          rw [dispatched_append, dispatched_of_quiet q hq, dispatched_rewind]; rfl
        | dispatched q s1 w' rest' hq hh hm hs hc' hcu hr hpt hct =>
          rw [hcur] at hc'; simp at hc'
      · unfold step
        simp only [hrun, hcur]
        exact (endOfCache_frame p s).2
    | cons w rest =>
      have hi : (step p s).2.status = .interrupted →
          (step p s).2.msPerQuarter = s.msPerQuarter := by
        intro h
        unfold step eventTick at h ⊢
        simp only [hrun, hcur] at h ⊢
        exact waitThenPlay_interrupted_msPerQuarter p w _ _ rfl h
      have hres := step_result p s hrun
      rcases step_event p s w rest hrun hcur with ⟨h1, hd, _⟩ | ⟨_, _, hd, _⟩ | ⟨hr, _, hd, _⟩
      · exact Or.inl ⟨hd, hi h1⟩
      · left
        refine ⟨hd, ?_⟩
        generalize step p s = r at hres hd hi ⊢
        cases hres with
        | interrupted q s1 hq hh hk => exact hi rfl
        | ended q s1 hq hh hc' hl => rw [hcur] at hc'; simp at hc'
        | wrapped q s1 hq hh hm hs hl hcw => exact hm
        | dispatched q s1 w' rest' hq hh hm hs hc' hcu hr hpt hct =>
          rw [dispatched_append, dispatched_of_quiet q hq, dispatched_dispatch] at hd
          simp at hd
      · right
        refine ⟨w, hd, ?_⟩
        generalize step p s = r at hres hd hi ⊢
        cases hres with
        | interrupted q s1 hq hh hk =>
          rw [dispatched_append, dispatched_of_quiet q hq, dispatched_flush] at hd
          simp at hd
        | ended q s1 hq hh hc' hl => rw [hcur] at hc'; simp at hc'
        | wrapped q s1 hq hh hm hs hl hcw =>
          rw [dispatched_append, dispatched_of_quiet q hq, dispatched_rewind] at hd
          simp at hd
        | dispatched q s1 w' rest' hq hh hm hs hc' hcu hr hpt hct =>
          rw [hcur] at hc'
          obtain ⟨rfl, rfl⟩ := List.cons.inj hc'
          rw [dispatch_msPerQuarter, hm]
  · rw [step_of_not_running p s hrun]
    exact Or.inl ⟨rfl, rfl⟩

theorem runLoop_snoc (p : PlayerThread) (n : ℕ) (s : State) :
    runLoop p (n + 1) s
      = ((runLoop p n s).1 ++ (step p (runLoop p n s).2).1, (step p (runLoop p n s).2).2) := by
  rw [runLoop_add, runLoop_one]

/-! ## C28 -/

theorem tempoChanged_not_mem_quiet (q : List Effect) (h : ∀ e ∈ q, e.isQuiet = true) (m : ℚ) :
    Effect.broadcastTempoChanged m ∉ q := by
  intro hm
  have := h _ hm
  simp [Effect.isQuiet] at this

theorem tempoChanged_not_mem_rewind (p : PlayerThread) (s : State) (m : ℚ) :
    Effect.broadcastTempoChanged m ∉ (rewind p s).1 := by
  unfold rewind
  cases p.broadcastMode <;> simp

theorem tempoEvents_append (a b : List Effect) :
    tempoEvents (a ++ b) = tempoEvents a ++ tempoEvents b := by
  simp [tempoEvents, dispatched_append]

/-- The tempo in force is the one of the last tempo event sent, or the tempo the run began
with when none was sent. -/
theorem runLoop_tempo (p : PlayerThread) (s : State) (n : ℕ) :
    (runLoop p n s).2.msPerQuarter
      = match (tempoEvents (runLoop p n s).1).getLast? with
        | none => s.msPerQuarter
        | some w => w.message.getTempoSecondsPerQuarterNote * 1000 := by
  induction n with
  | zero => rfl
  | succ n ih =>
    rw [runLoop_snoc]
    simp only [tempoEvents_append]
    rcases step_tempo p (runLoop p n s).2 with ⟨hd, hm⟩ | ⟨w, hd, hm⟩
    · rw [hm, ih]
      simp [tempoEvents, hd]
    · rw [hm]
      by_cases ht : w.message.isTempoMetaEvent = true
      · simp [tempoEvents, hd, ht]
      · simp only [ht, if_false]
        rw [ih]
        simp [tempoEvents, hd, ht]

/-- C28: `msPerQuarter` is taken from `findTimeAndTempoAt(startBeat)` before the loop; at
every point of the run it is the value of the last tempo event sent so far, or that
initial value when none was sent.  An iteration changes it only by sending a tempo
event.  An iteration that seeks back to `startBeat` leaves it as it was and makes no
`broadcastTempoChanged`, so the delta of the next iteration is computed with the tempo in
force before the wrap, whatever `findTimeAndTempoAt` gives for `startBeat`. -/
theorem tempo_changes_only_by_tempo_events (p : PlayerThread) (now n : ℕ) :
    (start p now).2.msPerQuarter = (p.transport.findTimeAndTempoAt p.startBeat).2
      ∧ (run p now n).2.msPerQuarter
        = (match (tempoEvents (run p now n).1).getLast? with
          | none => (p.transport.findTimeAndTempoAt p.startBeat).2
          | some w => w.message.getTempoSecondsPerQuarterNote * 1000)
      ∧ (∀ s : State, (step p s).2.msPerQuarter ≠ s.msPerQuarter →
          ∃ w, dispatched (step p s).1 = [w] ∧ w.message.isTempoMetaEvent = true
            ∧ (step p s).2.msPerQuarter = w.message.getTempoSecondsPerQuarterNote * 1000)
      ∧ (∀ s : State, s.status = .running → Effect.seekToTime p.startBeat ∈ (step p s).1 →
          (step p s).2.msPerQuarter = s.msPerQuarter
          ∧ (∀ m, Effect.broadcastTempoChanged m ∉ (step p s).1)
          ∧ (step p s).2.prevTimeStamp = p.startBeat
          ∧ (step p s).2.msPerQuarter
              * (targetBeat p (step p s).2 - (step p s).2.prevTimeStamp)
            = s.msPerQuarter * (targetBeat p (step p s).2 - p.startBeat)) := by
  refine ⟨rfl, ?_, ?_, ?_⟩
  · have h := runLoop_tempo p (start p now).2 n
    have ht : tempoEvents (run p now n).1 = tempoEvents (runLoop p n (start p now).2).1 := by
      simp only [run, tempoEvents, dispatched_append, dispatched_start, List.nil_append]
    rw [ht]
    exact h
  · intro s hne
    rcases step_tempo p s with ⟨_, hm⟩ | ⟨w, hd, hm⟩
    · exact absurd hm hne
    · by_cases ht : w.message.isTempoMetaEvent = true
      · exact ⟨w, hd, ht, by rw [hm, if_pos ht]⟩
      · rw [if_neg ht] at hm
        exact absurd hm hne
  · intro s hrun hwrap
    obtain ⟨q, s1, hq, hs, hl, hcw, he⟩ := wrap_of_seekToTime_mem p s hrun hwrap
    have hm : (step p s).2.msPerQuarter = s.msPerQuarter := by
      rcases step_tempo p s with ⟨_, hm⟩ | ⟨w, hd, _⟩
      · exact hm
      · rw [he, dispatched_append, dispatched_of_quiet q hq, dispatched_rewind] at hd
        simp at hd
    have hp : (step p s).2.prevTimeStamp = p.startBeat := by rw [he]; rfl
    refine ⟨hm, ?_, hp, by rw [hm, hp]⟩
    intro m hmem
    rw [he] at hmem
    rcases List.mem_append.1 hmem with hmem | hmem
    · exact tempoChanged_not_mem_quiet q hq m hmem
    · exact tempoChanged_not_mem_rewind p s1 m hmem

/-- C28, witness: the looped run over a tempo event at beat 1 starts at 500 ms per quarter
note; its second iteration wraps, and afterwards the tempo is still the 250 ms of the
event, not the 500 ms that `findTimeAndTempoAt` gives for the start beat; the delta of
the next iteration is 250 ms. -/
theorem tempo_changes_only_by_tempo_events_witness :
    (exTempoLoop.transport.findTimeAndTempoAt exTempoLoop.startBeat).2 = 500
      ∧ Effect.seekToTime exTempoLoop.startBeat ∈ (step exTempoLoop (run exTempoLoop 0 1).2).1
      ∧ (run exTempoLoop 0 1).2.msPerQuarter = 250
      ∧ (step exTempoLoop (run exTempoLoop 0 1).2).2.msPerQuarter = 250
      ∧ (step exTempoLoop (run exTempoLoop 0 1).2).2.msPerQuarter
          * (targetBeat exTempoLoop (step exTempoLoop (run exTempoLoop 0 1).2).2
            - (step exTempoLoop (run exTempoLoop 0 1).2).2.prevTimeStamp) = 250 := by
  have h := (tempo_changes_only_by_tempo_events exTempoLoop 0 1).2.2.2
    (run exTempoLoop 0 1).2 (by decide!) (by decide!)
  refine ⟨rfl, by decide!, by decide!, h.1.trans (by decide!), by decide!⟩

/-! ## C22 -/

theorem run_snoc (p : PlayerThread) (now n : ℕ) :
    (run p now (n + 1)).2 = (step p (run p now n).2).2
      ∧ (runLoop p (n + 1) (start p now).2).1
        = (runLoop p n (start p now).2).1 ++ (step p (run p now n).2).1 := by
  simp only [run, runLoop_snoc, and_self]

/-- An iteration at the end of the cache sends no cached event. -/
theorem dispatched_step_of_nil (p : PlayerThread) (s : State) (hrun : s.status = .running)
    (hcur : s.cursor = []) : dispatched (step p s).1 = [] := by
  have hres := step_result p s hrun
  generalize step p s = r at hres ⊢
  cases hres with
  | interrupted q s1 hq hh hk =>
    rw [dispatched_append, dispatched_of_quiet q hq, dispatched_flush]; rfl
  | ended q s1 hq hh hc hl =>
    simp only [dispatched_append, dispatched_of_quiet q hq, dispatched_flush]
    cases p.broadcastMode <;> rfl
  | wrapped q s1 hq hh hm hs hl hcw =>
    rw [dispatched_append, dispatched_of_quiet q hq, dispatched_rewind]; rfl
  | dispatched q s1 w rest hq hh hm hs hc hcu hr hpt hct =>
    rw [hcur] at hc; simp at hc

/-- The elapsed time of the first pass at a constant tempo. -/
theorem first_pass_currentTimeMs (p : PlayerThread) (now : ℕ) (m : ℚ) (n : ℕ) :
    (∀ i, i < n → (run p now i).2.msPerQuarter = m) →
      Effect.seekToTime p.startBeat ∉ (runLoop p n (start p now).2).1 →
      (run p now n).2.currentTimeMs
        = (p.transport.findTimeAndTempoAt p.startBeat).1
          + m * ((run p now n).2.prevTimeStamp - p.startBeat) := by
  induction n with
  | zero =>
    intro _ _
    simp [run, runLoop, start]
  | succ n ih =>
    intro hm hpass
    obtain ⟨h1, h2⟩ := run_snoc p now n
    rw [h2] at hpass
    have hpass1 : Effect.seekToTime p.startBeat ∉ (runLoop p n (start p now).2).1 :=
      fun h => hpass (List.mem_append_left _ h)
    have hpass2 : Effect.seekToTime p.startBeat ∉ (step p (run p now n).2).1 :=
      fun h => hpass (List.mem_append_right _ h)
    have ih2 := ih (fun i hi => hm i (by omega)) hpass1
    rw [h1]
    by_cases hrun : (run p now n).2.status = .running
    · rw [step_currentTimeMs p _ hrun, step_prevTimeStamp p _ hrun hpass2, ih2,
        hm n (by omega)]
      split
      · ring
      · ring
    · rw [step_of_not_running p _ hrun]
      exact ih2

/-- C22: an iteration that pulled an event computes
`delta = msPerQuarter * (targetBeat - prevTimeStamp)`, adds it to `currentTimeMs` and
sets `prevTimeStamp` to the target beat before it waits; however the iteration ends,
`currentTimeMs` is then the old value plus `delta`, and `prevTimeStamp` is the target
beat unless the iteration seeks back to `startBeat`.  So in the first pass (no seek back
yet) at a constant tempo `m`, `currentTimeMs = t0 + m * (prevTimeStamp - startBeat)` with
`t0` the time `findTimeAndTempoAt` gave for `startBeat`; right after an iteration of the
first pass that pulled an event this is `t0 + m * (targetBeat - startBeat)`, which for an
event at beat `b` that is sent is `t0 + m * (b - startBeat)` (for an event beyond `endBeat`
in loop mode the target beat is `endBeat`). -/
theorem currentTimeMs_accumulates_deltas (p : PlayerThread) :
    (∀ (s : State) (w : CachedMidiMessage) (rest : List CachedMidiMessage),
        s.status = .running → s.cursor = w :: rest →
        step p s = waitThenPlay p w (s.msPerQuarter * (targetBeat p s - s.prevTimeStamp))
            { s with cursor := rest
                     currentTimeMs := s.currentTimeMs
                        + s.msPerQuarter * (targetBeat p s - s.prevTimeStamp)
                     prevTimeStamp := targetBeat p s }
          ∧ (step p s).2.currentTimeMs
            = s.currentTimeMs + s.msPerQuarter * (targetBeat p s - s.prevTimeStamp)
          ∧ (Effect.seekToTime p.startBeat ∉ (step p s).1 →
              (step p s).2.prevTimeStamp = targetBeat p s)
          ∧ (Effect.seekToTime p.startBeat ∈ (step p s).1 →
              (step p s).2.prevTimeStamp = p.startBeat))
      ∧ (∀ (now n : ℕ) (m : ℚ), (∀ i, i < n → (run p now i).2.msPerQuarter = m) →
          Effect.seekToTime p.startBeat ∉ (runLoop p n (start p now).2).1 →
          (run p now n).2.currentTimeMs
              = (p.transport.findTimeAndTempoAt p.startBeat).1
                + m * ((run p now n).2.prevTimeStamp - p.startBeat)
            ∧ ((run p now n).2.status = .running → (run p now n).2.cursor ≠ [] →
                (run p now n).2.msPerQuarter = m →
                (run p now (n + 1)).2.currentTimeMs
                  = (p.transport.findTimeAndTempoAt p.startBeat).1
                    + m * (targetBeat p (run p now n).2 - p.startBeat))
            ∧ ∀ w, dispatched (step p (run p now n).2).1 = [w] →
                (run p now n).2.msPerQuarter = m →
                (run p now (n + 1)).2.currentTimeMs
                  = (p.transport.findTimeAndTempoAt p.startBeat).1
                    + m * (w.timeStamp - p.startBeat)) := by
  constructor
  · intro s w rest hrun hc
    have hne : ¬ s.cursor = [] := by rw [hc]; simp
    refine ⟨step_eq_waitThenPlay p s w rest _ hrun hc rfl, ?_, ?_, ?_⟩
    · rw [step_currentTimeMs p s hrun, if_neg hne]
    · intro h
      rw [step_prevTimeStamp p s hrun h, if_neg hne]
    · intro h
      obtain ⟨q, s1, _, _, _, _, he⟩ := wrap_of_seekToTime_mem p s hrun h
      rw [he]
      rfl
  · intro now n m hm hpass
    have h0 := first_pass_currentTimeMs p now m n hm hpass
    refine ⟨h0, ?_, ?_⟩
    · intro hrun hne hmn
      rw [(run_snoc p now n).1, step_currentTimeMs p _ hrun, h0, hmn, if_neg hne]
      ring
    intro w hd hmn
    have hrun : (run p now n).2.status = .running := by
      by_contra hne
      rw [step_of_not_running p _ hne] at hd
      simp [dispatched] at hd
    rw [(run_snoc p now n).1, step_currentTimeMs p _ hrun, h0, hmn]
    cases hcur : (run p now n).2.cursor with
    | nil =>
      rw [dispatched_step_of_nil p _ hrun hcur] at hd
      simp at hd
    | cons w0 rest =>
      rcases step_event p _ w0 rest hrun hcur with ⟨_, hd2, _⟩ | ⟨_, _, hd2, _⟩
        | ⟨hr, _, hd2, _⟩
      · rw [hd] at hd2; simp at hd2
      · rw [hd] at hd2; simp at hd2
      · rw [hd] at hd2
        obtain rfl : w = w0 := by simpa using hd2
        have htb : targetBeat p (run p now n).2 = w.timeStamp := by
          unfold targetBeat
          rw [hcur]
          exact nextEventTimeStamp_of_not_rewind p w hr
        simp only [List.cons_ne_nil, if_false, htb]
        ring

/-- C22, witness: in the non-loop run at 500 ms per quarter note from beat 0, right after the
iterations that sent the events at beats 1 and 5 the elapsed time is 500 ms and 2500 ms;
in the looped run up to beat 4, right after the iteration that pulled the event at beat 5
it is 2000 ms, the time of the end beat. -/
theorem currentTimeMs_accumulates_deltas_witness :
    (run exNonLoop 0 1).2.currentTimeMs = 0 + 500 * (1 - 0)
      ∧ (run exNonLoop 0 2).2.currentTimeMs = 0 + 500 * (5 - 0)
      ∧ (run exLoop 0 3).2.currentTimeMs = 0 + 500 * (4 - 0) := by
  have h1 := ((currentTimeMs_accumulates_deltas exNonLoop).2 0 0 500
    (fun i hi => absurd hi (Nat.not_lt_zero i)) (by decide!)).2.2 ⟨1, .noteOn 1 60 100, 0⟩
    (by decide!) (by decide!)
  have h2 := ((currentTimeMs_accumulates_deltas exNonLoop).2 0 1 500
    (fun i hi => by
      have : i = 0 := by omega
      subst this
      decide!) (by decide!)).2.2 ⟨5, .noteOff 1 60 0, 0⟩
    (by decide!) (by decide!)
  have h3 := ((currentTimeMs_accumulates_deltas exLoop).2 0 2 500
    (fun i hi => by
      have : i = 0 ∨ i = 1 := by omega
      rcases this with rfl | rfl <;> decide!) (by decide!)).2.1
    (by decide!) (by decide!) (by decide!)
  exact ⟨h1, h2, h3.trans (by decide!)⟩

/-! ## C25 -/

theorem paced_start (p : PlayerThread) (now : ℕ) (hse : p.startBeat ≤ p.endBeat)
    (hm0 : 0 ≤ (p.transport.findTimeAndTempoAt p.startBeat).2)
    (hcache : CursorOk p.startBeat (p.transport.seekToTime p.startBeat)) :
    Paced p (start p now).2 :=
  ⟨hm0, hcache, fun _ => ⟨le_refl _, hse⟩⟩

/-- The delta of the iteration about to run is not negative under the pacing invariant:
always in the event branch, and in loop mode also at the end of the cache. -/
theorem paced_delta_nonneg (p : PlayerThread) (s : State) (h : Paced p s)
    (hcase : p.loopedMode = true ∨ s.cursor ≠ []) :
    0 ≤ s.msPerQuarter * (targetBeat p s - s.prevTimeStamp) := by
  obtain ⟨hm, ⟨_, hge⟩, hloop⟩ := h
  apply mul_nonneg hm
  unfold targetBeat
  cases hc : s.cursor with
  | nil =>
    rcases hcase with hl | hne
    · have := (hloop hl).2
      simp only
      linarith
    · exact absurd hc hne
  | cons w rest =>
    simp only [nextEventTimeStamp]
    have hw := (hge w (by rw [hc]; exact List.mem_cons_self _ _)).1
    split
    · rename_i hr
      have hl := ((shouldRewind_iff p w).1 hr).1
      have := (hloop hl).2
      linarith
    · linarith

/-- The pacing invariant is kept by every iteration that leaves the thread running. -/
theorem paced_step (p : PlayerThread) (hse : p.startBeat ≤ p.endBeat)
    (hcache : CursorOk p.startBeat (p.transport.seekToTime p.startBeat)) (s : State)
    (hrun : s.status = .running) (h : Paced p s) (hrun2 : (step p s).2.status = .running) :
    Paced p (step p s).2 := by
  obtain ⟨hm0, ⟨hsorted, hge⟩, hloop⟩ := h
  have hres := step_result p s hrun
  generalize step p s = r at hres hrun2 ⊢
  cases hres with
  | interrupted q s1 hq hh hk => simp at hrun2
  | ended q s1 hq hh hc hl => simp at hrun2
  | wrapped q s1 hq hh hm hs hl hcw =>
    refine ⟨?_, hcache, fun _ => ⟨le_refl _, hse⟩⟩
    show 0 ≤ s1.msPerQuarter
    rw [hm]
    exact hm0
  | dispatched q s1 w rest hq hh hm hs hc hcu hr hpt hct =>
    have hw := hge w (by rw [hc]; exact List.mem_cons_self _ _)
    rw [hc] at hsorted
    have hs2 := List.pairwise_cons.1 hsorted
    refine ⟨?_, ⟨?_, ?_⟩, ?_⟩
    · rw [dispatch_msPerQuarter, hm]
      split
      · exact mul_nonneg hw.2 (by norm_num)
      · exact hm0
    · rw [dispatch_cursor, hcu]
      exact hs2.2
    · rw [dispatch_cursor, hcu, dispatch_prevTimeStamp, hpt]
      intro w2 hw2
      exact ⟨hs2.1 w2 hw2, (hge w2 (by rw [hc]; exact List.mem_cons_of_mem _ hw2)).2⟩
    · intro hl
      rw [dispatch_prevTimeStamp, hpt]
      refine ⟨(hloop hl).1.trans hw.1, ?_⟩
      have : ¬ (p.loopedMode = true ∧ w.timeStamp > p.endBeat) := by
        rw [← shouldRewind_iff, hr]; simp
      exact not_lt.1 (fun hgt => this ⟨hl, hgt⟩)

theorem paced_run (p : PlayerThread) (now : ℕ) (hse : p.startBeat ≤ p.endBeat)
    (hm0 : 0 ≤ (p.transport.findTimeAndTempoAt p.startBeat).2)
    (hcache : CursorOk p.startBeat (p.transport.seekToTime p.startBeat)) (n : ℕ) :
    (run p now n).2.status = .running → Paced p (run p now n).2 := by
  induction n with
  | zero => intro _; exact paced_start p now hse hm0 hcache
  | succ n ih =>
    intro hrun2
    rw [(run_snoc p now n).1] at hrun2 ⊢
    have hrun : (run p now n).2.status = .running := by
      by_contra hne
      rw [step_of_not_running p _ hne] at hrun2
      exact hne hrun2
    exact paced_step p hse hcache _ hrun (ih hrun) hrun2

/-- C25: in loop mode, when `startBeat ≤ endBeat`, the tempo `findTimeAndTempoAt` gives for
`startBeat` and the tempo of every cached tempo event are not negative, and the cache
after `seekToTime(startBeat)` is in non-decreasing beat order with no event before
`startBeat`: at the head of every iteration `msPerQuarter` is not negative,
`prevTimeStamp` lies in `[startBeat, endBeat]`, and the delta the iteration computes, in
either branch, is not negative, so `uint32` is applied to a non-negative value. -/
theorem loop_deltas_are_nonnegative (p : PlayerThread) (now n : ℕ)
    (hl : p.loopedMode = true) (hse : p.startBeat ≤ p.endBeat)
    (hm0 : 0 ≤ (p.transport.findTimeAndTempoAt p.startBeat).2)
    (hsorted : (p.transport.seekToTime p.startBeat).Pairwise
      (fun a b => a.timeStamp ≤ b.timeStamp))
    (hge : ∀ w ∈ p.transport.seekToTime p.startBeat, p.startBeat ≤ w.timeStamp)
    (htempo : ∀ w ∈ p.transport.seekToTime p.startBeat,
      0 ≤ w.message.getTempoSecondsPerQuarterNote)
    (hrun : (run p now n).2.status = .running) :
    0 ≤ (run p now n).2.msPerQuarter
      ∧ p.startBeat ≤ (run p now n).2.prevTimeStamp
      ∧ (run p now n).2.prevTimeStamp ≤ p.endBeat
      ∧ 0 ≤ (run p now n).2.msPerQuarter
          * (targetBeat p (run p now n).2 - (run p now n).2.prevTimeStamp)
      ∧ ((run p now n).2.cursor = [] →
          0 ≤ (run p now n).2.msPerQuarter * (p.endBeat - (run p now n).2.prevTimeStamp))
      ∧ (∀ w rest, (run p now n).2.cursor = w :: rest →
          0 ≤ (run p now n).2.msPerQuarter
            * (nextEventTimeStamp p w - (run p now n).2.prevTimeStamp)) := by
  have hp := paced_run p now hse hm0 ⟨hsorted, fun w hw => ⟨hge w hw, htempo w hw⟩⟩ n hrun
  have hd := paced_delta_nonneg p _ hp (Or.inl hl)
  refine ⟨hp.1, (hp.2.2 hl).1, (hp.2.2 hl).2, hd, ?_, ?_⟩
  · intro hc
    simpa [targetBeat, hc] using hd
  · intro w rest hc
    simpa [targetBeat, hc] using hd

/-- C25, witness: the looped run over events at beats 1, 2 and 5 with the end beat 4; after
five iterations the previous beat is 2 and the next delta, towards the end beat, is
1000 ms. -/
theorem loop_deltas_are_nonnegative_witness :
    (run exLoop 0 5).2.prevTimeStamp = 2
      ∧ 0 ≤ (run exLoop 0 5).2.msPerQuarter
          * (targetBeat exLoop (run exLoop 0 5).2 - (run exLoop 0 5).2.prevTimeStamp)
      ∧ (run exLoop 0 5).2.msPerQuarter
          * (targetBeat exLoop (run exLoop 0 5).2 - (run exLoop 0 5).2.prevTimeStamp)
        = 1000 := by
  have h := loop_deltas_are_nonnegative exLoop 0 5 rfl (by decide!) (by decide!)
    (by decide!) (by decide!) (by decide!) (by decide!)
  exact ⟨by decide!, h.2.2.2.1, by decide!⟩

/-! ## C27 -/

theorem seekTimes_append (a b : List Effect) :
    seekTimes (a ++ b) = seekTimes a ++ seekTimes b := by
  induction a with
  | nil => rfl
  | cons e a ih => cases e <;> simp [seekTimes, ih]

theorem seekTimes_eq_nil (l : List Effect) (h : ∀ b c t, Effect.broadcastSeek b c t ∉ l) :
    seekTimes l = [] := by
  induction l with
  | nil => rfl
  | cons e l ih =>
    have h2 := ih (fun b c t hm => h b c t (List.mem_cons_of_mem _ hm))
    cases e with
    | broadcastSeek b c t => exact absurd (List.mem_cons_self _ _) (h b c t)
    | _ => simp [seekTimes, h2]

theorem seekTimes_sleepSlices (p : PlayerThread) (fuel : ℕ) (delta : ℚ) (s : State) :
    seekTimes (sleepSlices p fuel delta s).1 = [] := by
  apply seekTimes_eq_nil
  intro b c t hm
  rcases mem_sleepSlices p fuel delta s _ hm with h | ⟨_, h⟩ <;> simp at h

theorem seekTimes_flush (p : PlayerThread) (s : State) :
    seekTimes (sendHoldingNotesOffAndMidiStop p s).1 = [] := by
  apply seekTimes_eq_nil
  simp [sendHoldingNotesOffAndMidiStop, holdingNotesOffAndMidiStop]

theorem seekTimes_rewindOrDispatch (p : PlayerThread) (b : Bool) (w : CachedMidiMessage)
    (s : State) : ∀ y ∈ seekTimes (rewindOrDispatch p b w s).1, y = s.currentTimeMs := by
  intro y hy
  unfold rewindOrDispatch at hy
  split at hy
  · unfold rewind at hy
    cases hb : p.broadcastMode <;> simp [hb, seekTimes] at hy
    exact hy
  · rw [seekTimes_eq_nil _ (seek_not_mem_dispatch p w s)] at hy
    simp at hy

theorem seekTimes_endOfCache (p : PlayerThread) (s : State) :
    ∀ y ∈ seekTimes (endOfCache p s).1, y = s.currentTimeMs := by
  intro y hy
  unfold endOfCache interrupt at hy
  simp only at hy
  have hc := sleepSlices_currentTimeMs p
    (sliceFuel (s.msPerQuarter * (p.endBeat - s.prevTimeStamp)))
    (s.msPerQuarter * (p.endBeat - s.prevTimeStamp)) s
  have hz := seekTimes_sleepSlices p
    (sliceFuel (s.msPerQuarter * (p.endBeat - s.prevTimeStamp)))
    (s.msPerQuarter * (p.endBeat - s.prevTimeStamp)) s
  generalize sleepSlices p (sliceFuel (s.msPerQuarter * (p.endBeat - s.prevTimeStamp)))
    (s.msPerQuarter * (p.endBeat - s.prevTimeStamp)) s = r at hc hz hy
  split at hy
  · simp [seekTimes_append, seekTimes, hz, seekTimes_flush] at hy
  · split at hy
    · unfold rewind at hy
      cases hb : p.broadcastMode <;> simp [hb, seekTimes_append, seekTimes, hz] at hy
      rw [hy, hc]
    · cases hb : p.broadcastMode <;>
        simp [hb, seekTimes_append, seekTimes, hz, seekTimes_flush] at hy

theorem seekTimes_waitThenPlay (p : PlayerThread) (w : CachedMidiMessage) (delta : ℚ)
    (s0 : State) : ∀ y ∈ seekTimes (waitThenPlay p w delta s0).1, y = s0.currentTimeMs := by
  intro y hy
  unfold waitThenPlay interrupt at hy
  simp only at hy
  have hc := sleepSlices_currentTimeMs p (sliceFuel delta) delta s0
  have hz := seekTimes_sleepSlices p (sliceFuel delta) delta s0
  generalize sleepSlices p (sliceFuel delta) delta s0 = r at hc hz hy
  split at hy
  · split at hy
    · simp [seekTimes_append, seekTimes, hz, seekTimes_flush] at hy
    · split at hy
      · simp [seekTimes_append, seekTimes, hz, seekTimes_flush] at hy
      · simp only [seekTimes_append, List.mem_append] at hy
        rcases hy with hy | hy
        · cases hb : p.broadcastMode <;> simp [hb, seekTimes, hz, seekTimes_append] at hy
          rw [hy, hc]
        · rw [seekTimes_rewindOrDispatch p _ w _ y hy]
          exact hc
  · have e : ∀ es, seekTimes (Effect.getNextMessage (some w) :: es) = seekTimes es :=
      fun _ => rfl
    rw [e] at hy
    exact seekTimes_rewindOrDispatch p _ w _ y hy

/-- Every seek notification of an iteration carries the elapsed time the iteration ends
with. -/
theorem seekTimes_step (p : PlayerThread) (s : State) :
    ∀ y ∈ seekTimes (step p s).1, y = (step p s).2.currentTimeMs := by
  intro y hy
  by_cases hrun : s.status = .running
  · unfold step at hy ⊢
    simp only [hrun] at hy ⊢
    cases hc : s.cursor with
    | nil =>
      rw [hc] at hy
      simp only at hy ⊢
      rw [(endOfCache_frame p s).1]
      exact seekTimes_endOfCache p s y hy
    | cons w rest =>
      rw [hc] at hy
      simp only at hy ⊢
      unfold eventTick at hy ⊢
      rw [waitThenPlay_currentTimeMs]
      exact seekTimes_waitThenPlay p w _ _ y hy
  · rw [step_of_not_running p s hrun] at hy
    simp [seekTimes] at hy

theorem run_trace_snoc (p : PlayerThread) (now n : ℕ) :
    (run p now (n + 1)).1 = (run p now n).1 ++ (step p (run p now n).2).1 := by
  simp only [run, runLoop_snoc, List.append_assoc]

/-- Under the pacing preconditions the elapsed time never decreases in an iteration. -/
theorem paced_currentTimeMs_le (p : PlayerThread) (s : State) (hrun : s.status = .running)
    (h : Paced p s) : s.currentTimeMs ≤ (step p s).2.currentTimeMs := by
  rw [step_currentTimeMs p s hrun]
  split
  · simp
  · rename_i hne
    have := paced_delta_nonneg p s h (Or.inr hne)
    linarith

/-- The elapsed times of the seek notifications of a run are in non-decreasing order,
between the initial elapsed time and the current one. -/
theorem run_seekTimes (p : PlayerThread) (now : ℕ) (hse : p.startBeat ≤ p.endBeat)
    (hm0 : 0 ≤ (p.transport.findTimeAndTempoAt p.startBeat).2)
    (hcache : CursorOk p.startBeat (p.transport.seekToTime p.startBeat)) (n : ℕ) :
    (seekTimes (run p now n).1).Pairwise (fun a b => a ≤ b)
      ∧ (∀ y ∈ seekTimes (run p now n).1,
          (p.transport.findTimeAndTempoAt p.startBeat).1 ≤ y
            ∧ y ≤ (run p now n).2.currentTimeMs)
      ∧ (p.transport.findTimeAndTempoAt p.startBeat).1 ≤ (run p now n).2.currentTimeMs := by
  induction n with
  | zero =>
    have e : (run p now 0).1 = (start p now).1 := by simp [run, runLoop]
    have e2 : (run p now 0).2 = (start p now).2 := rfl
    rw [e, e2]
    have hs : seekTimes (start p now).1
        = if p.broadcastMode then [(p.transport.findTimeAndTempoAt p.startBeat).1] else [] := by
      unfold start sendMidiStart
      simp only [seekTimes_append]
      rw [seekTimes_eq_nil (p.transport.uniqueInstruments.map _) (by simp)]
      cases p.broadcastMode <;> simp [seekTimes]
    rw [hs]
    refine ⟨?_, ?_, le_refl _⟩
    · split <;> simp
    · intro y hy
      split at hy
      · simp only [List.mem_singleton] at hy
        subst hy
        exact ⟨le_refl _, le_refl _⟩
      · simp at hy
  | succ n ih =>
    obtain ⟨i1, i2, i3⟩ := ih
    rw [run_trace_snoc, (run_snoc p now n).1, seekTimes_append]
    have hstep := seekTimes_step p (run p now n).2
    have hle : (run p now n).2.currentTimeMs ≤ (step p (run p now n).2).2.currentTimeMs := by
      by_cases hrun : (run p now n).2.status = .running
      · exact paced_currentTimeMs_le p _ hrun (paced_run p now hse hm0 hcache n hrun)
      · rw [step_of_not_running p _ hrun]
    refine ⟨?_, ?_, i3.trans hle⟩
    · rw [List.pairwise_append]
      refine ⟨i1, ?_, ?_⟩
      · apply List.pairwise_of_forall_mem_list
        intro a ha b hb
        rw [hstep a ha, hstep b hb]
      · intro a ha b hb
        rw [hstep b hb]
        exact (i2 a ha).2.trans hle
    · intro y hy
      rcases List.mem_append.1 hy with hy | hy
      · exact ⟨(i2 y hy).1, (i2 y hy).2.trans hle⟩
      · rw [hstep y hy]
        exact ⟨i3.trans hle, le_refl _⟩

/-- C27: an iteration that seeks back to `startBeat` does not reset `currentTimeMs`: it ends
with the value accumulated so far (the old value, plus the delta of the iteration when it
pulled an event), and when broadcasting its last effect is the seek notification at
`startBeat` with exactly that value.  When `startBeat ≤ endBeat`, no tempo is negative and
the cache after `seekToTime(startBeat)` is in non-decreasing beat order with no event
before `startBeat`, the elapsed times of the seek notifications of a run, in the order
they are made, never decrease, and each lies between the elapsed time
`findTimeAndTempoAt` gave for `startBeat` and the current `currentTimeMs`. -/
theorem seek_times_never_decrease (p : PlayerThread) (now n : ℕ)
    (hse : p.startBeat ≤ p.endBeat)
    (hm0 : 0 ≤ (p.transport.findTimeAndTempoAt p.startBeat).2)
    (hsorted : (p.transport.seekToTime p.startBeat).Pairwise
      (fun a b => a.timeStamp ≤ b.timeStamp))
    (hge : ∀ w ∈ p.transport.seekToTime p.startBeat, p.startBeat ≤ w.timeStamp)
    (htempo : ∀ w ∈ p.transport.seekToTime p.startBeat,
      0 ≤ w.message.getTempoSecondsPerQuarterNote) :
    (∀ s : State, s.status = .running → Effect.seekToTime p.startBeat ∈ (step p s).1 →
        (step p s).2.currentTimeMs
          = s.currentTimeMs
            + (if s.cursor = [] then 0
                else s.msPerQuarter * (targetBeat p s - s.prevTimeStamp))
        ∧ (p.broadcastMode = true →
            (step p s).1.getLast?
              = some (Effect.broadcastSeek p.startBeat (step p s).2.currentTimeMs
                  (totalTimeMs p))))
      ∧ (seekTimes (run p now n).1).Pairwise (fun a b => a ≤ b)
      ∧ (∀ y ∈ seekTimes (run p now n).1,
          (p.transport.findTimeAndTempoAt p.startBeat).1 ≤ y
            ∧ y ≤ (run p now n).2.currentTimeMs) := by
  have h := run_seekTimes p now hse hm0 ⟨hsorted, fun w hw => ⟨hge w hw, htempo w hw⟩⟩ n
  refine ⟨?_, h.1, h.2.1⟩
  intro s hrun hwrap
  refine ⟨step_currentTimeMs p s hrun, ?_⟩
  intro hb
  obtain ⟨q, s1, _, _, _, _, he⟩ := wrap_of_seekToTime_mem p s hrun hwrap
  rw [he]
  simp [rewind, hb]

/-- C27, witness: in the looped run over events at beats 1, 2 and 5 with the end beat 4 the
third iteration wraps; its seek notification is at beat 0 with the elapsed time 2000 ms,
where `findTimeAndTempoAt` gives 0 ms for beat 0; the elapsed times notified in the
first six iterations are 0, 500, 1000, 2000, 2000, 2500, 3000, 4000, 4000. -/
theorem seek_times_never_decrease_witness :
    (step exLoop (run exLoop 0 2).2).1.getLast? = some (Effect.broadcastSeek 0 2000 0)
      ∧ (exLoop.transport.findTimeAndTempoAt exLoop.startBeat).1 = 0
      ∧ seekTimes (run exLoop 0 6).1 = [0, 500, 1000, 2000, 2000, 2500, 3000, 4000, 4000]
      ∧ (seekTimes (run exLoop 0 6).1).Pairwise (fun a b => a ≤ b) := by
  have h := seek_times_never_decrease exLoop 0 6 (by decide!) (by decide!) (by decide!)
    (by decide!) (by decide!)
  have h1 := (h.1 (run exLoop 0 2).2 (by decide!) (by decide!)).2 rfl
  exact ⟨h1.trans (by decide!), rfl, by decide!, h.2.1⟩

/-! ## C29 -/

theorem sleepSlices_endBeat (p : PlayerThread) (e : ℚ) (fuel : ℕ) :
    ∀ (delta : ℚ) (s : State),
      sleepSlices { p with endBeat := e } fuel delta s = sleepSlices p fuel delta s := by
  induction fuel with
  | zero => intro delta s; rfl
  | succ n ih =>
    intro delta s
    unfold sleepSlices
    simp only [ih]

/-- In non-loop mode the event branch does not read `endBeat`. -/
theorem step_endBeat (p : PlayerThread) (hl : p.loopedMode = false) (e : ℚ) (s : State)
    (hc : s.cursor ≠ []) : step { p with endBeat := e } s = step p s := by
  have hr : ∀ w, shouldRewind { p with endBeat := e } w = false := by
    intro w; simp [shouldRewind, hl]
  have hr2 : ∀ w, shouldRewind p w = false := by
    intro w; simp [shouldRewind, hl]
  have hd : ∀ w s1, dispatch { p with endBeat := e } w s1 = dispatch p w s1 := fun _ _ => rfl
  have hi : ∀ es s1, interrupt { p with endBeat := e } es s1 = interrupt p es s1 :=
    fun _ _ => rfl
  have ht : totalTimeMs { p with endBeat := e } = totalTimeMs p := rfl
  unfold step
  cases hcur : s.cursor with
  | nil => exact absurd hcur hc
  | cons w rest =>
    cases s.status with
    | running =>
      simp only
      unfold eventTick waitThenPlay
      simp only [nextEventTimeStamp, hr, hr2, sleepSlices_endBeat, rewindOrDispatch, hd, hi, ht,
        Bool.false_eq_true, if_false]
    | interrupted => rfl
    | finished => rfl

/-- Without exit requests a non-loop run sends every event of the cursor, one per
iteration, and then stands at the end of the cache with the beat of the last event. -/
theorem nonloop_sends_all (p : PlayerThread) (hl : p.loopedMode = false)
    (hnc : ∀ k, p.threadShouldExit k = false) (c : List CachedMidiMessage) :
    ∀ s : State, s.status = .running → s.cursor = c →
      dispatched (runLoop p c.length s).1 = c
        ∧ (runLoop p c.length s).2.status = .running
        ∧ (runLoop p c.length s).2.cursor = []
        ∧ (runLoop p c.length s).2.prevTimeStamp
          = (c.getLast?.map (fun w => w.timeStamp)).getD s.prevTimeStamp := by
  induction c with
  | nil => intro s hrun hc; exact ⟨rfl, hrun, hc, rfl⟩
  | cons w rest ih =>
    intro s hrun hc
    have hr : shouldRewind p w = false := by simp [shouldRewind, hl]
    obtain ⟨h1, h2, h3, _, h5⟩ := step_dispatch p hnc s w rest hrun hc hr
    obtain ⟨i1, i2, i3, i4⟩ := ih (step p s).2 h1 h2
    rw [List.length_cons, runLoop_succ]
    simp only
    refine ⟨?_, i2, i3, ?_⟩
    · rw [dispatched_append, h5, i1]
      rfl
    · rw [i4, h3]
      cases rest with
      | nil => rfl
      | cons w2 rest2 =>
        obtain ⟨x, hx⟩ : ∃ x, (w2 :: rest2).getLast? = some x :=
          ⟨_, List.getLast?_eq_getLast _ (List.cons_ne_nil _ _)⟩
        rw [List.getLast?_cons_cons, hx]
        rfl

/-- C29: in non-loop mode no event is held back for its beat: `shouldRewind` is false for
every event, the event branch does not read `endBeat` at all, and without exit requests
the run sends every event the cache returns after `seekToTime(startBeat)`, in order, one
per iteration, also those beyond `endBeat`; only the iteration after the last event uses
`endBeat`, for the final wait, and then the run ends.  When the last event lies beyond
`endBeat` and `msPerQuarter` is positive, the delta of that final wait,
`msPerQuarter * (endBeat - prevTimeStamp)`, is negative. -/
theorem nonloop_run_ignores_endBeat (p : PlayerThread) (now : ℕ)
    (hl : p.loopedMode = false) (hnc : ∀ k, p.threadShouldExit k = false) :
    (∀ w, shouldRewind p w = false)
      ∧ (∀ (e : ℚ) (s : State), s.cursor ≠ [] → step { p with endBeat := e } s = step p s)
      ∧ dispatched (run p now (p.transport.seekToTime p.startBeat).length).1
        = p.transport.seekToTime p.startBeat
      ∧ (run p now (p.transport.seekToTime p.startBeat).length).2.status = .running
      ∧ (run p now (p.transport.seekToTime p.startBeat).length).2.cursor = []
      ∧ targetBeat p (run p now (p.transport.seekToTime p.startBeat).length).2 = p.endBeat
      ∧ (run p now ((p.transport.seekToTime p.startBeat).length + 1)).2.status = .finished
      ∧ dispatched (run p now ((p.transport.seekToTime p.startBeat).length + 1)).1
        = p.transport.seekToTime p.startBeat
      ∧ (∀ w, (p.transport.seekToTime p.startBeat).getLast? = some w →
          (run p now (p.transport.seekToTime p.startBeat).length).2.prevTimeStamp
            = w.timeStamp
          ∧ (p.endBeat < w.timeStamp →
              0 < (run p now (p.transport.seekToTime p.startBeat).length).2.msPerQuarter →
              (run p now (p.transport.seekToTime p.startBeat).length).2.msPerQuarter
                * (p.endBeat
                  - (run p now (p.transport.seekToTime p.startBeat).length).2.prevTimeStamp)
                < 0)) := by
  obtain ⟨h1, h2, h3, h4⟩ := nonloop_sends_all p hl hnc (p.transport.seekToTime p.startBeat)
    (start p now).2 rfl rfl
  have hd : ∀ n, dispatched (run p now n).1 = dispatched (runLoop p n (start p now).2).1 := by
    intro n
    simp only [run, dispatched_append, dispatched_start, List.nil_append]
  have hs : ∀ n, (run p now n).2 = (runLoop p n (start p now).2).2 := fun _ => rfl
  refine ⟨fun w => by simp [shouldRewind, hl], fun e s hc => step_endBeat p hl e s hc,
    by rw [hd]; exact h1, by rw [hs]; exact h2, by rw [hs]; exact h3, ?_, ?_, ?_, ?_⟩
  · rw [hs]
    unfold targetBeat
    rw [h3]
  · rw [hs]
    have hnr := runLoop_terminates p hl (p.transport.seekToTime p.startBeat) (start p now).2 rfl
    have hni := runLoop_not_interrupted p hnc
      ((p.transport.seekToTime p.startBeat).length + 1) (start p now).2 (by simp [start])
    cases hst : (runLoop p ((p.transport.seekToTime p.startBeat).length + 1)
        (start p now).2).2.status with
    | running => exact absurd hst hnr
    | interrupted => exact absurd hst hni
    | finished => rfl
  · rw [hd, runLoop_snoc]
    simp only
    rw [dispatched_append, h1, dispatched_step_of_nil p _ h2 h3, List.append_nil]
  · intro w hw
    have hp : (run p now (p.transport.seekToTime p.startBeat).length).2.prevTimeStamp
        = w.timeStamp := by
      rw [hs, h4, hw]
      rfl
    refine ⟨hp, ?_⟩
    intro hlt hm
    rw [hp]
    exact mul_neg_of_pos_of_neg hm (by linarith)

/-- C29, witness: the non-loop run up to beat 4 over a note-on at beat 1 and its note-off at
beat 5 sends both; the final delta is 500 * (4 - 5) = -500 ms. -/
theorem nonloop_run_ignores_endBeat_witness :
    dispatched (run exNonLoop 0 2).1
        = [⟨1, .noteOn 1 60 100, 0⟩, ⟨5, .noteOff 1 60 0, 0⟩]
      ∧ exNonLoop.endBeat = 4
      ∧ (run exNonLoop 0 2).2.msPerQuarter
          * (exNonLoop.endBeat - (run exNonLoop 0 2).2.prevTimeStamp) < 0
      ∧ (run exNonLoop 0 2).2.msPerQuarter
          * (exNonLoop.endBeat - (run exNonLoop 0 2).2.prevTimeStamp) = -500 := by
  have h := nonloop_run_ignores_endBeat exNonLoop 0 rfl (fun _ => rfl)
  exact ⟨h.2.2.1, rfl, (h.2.2.2.2.2.2.2.2 ⟨5, .noteOff 1 60 0, 0⟩ rfl).2 (by decide!)
    (by decide!), by decide!⟩

/-! ## C30 -/

/-- C30: `perform` returns `false` and leaves the project and the action (its `numEvents`,
`serializedTreeItem` and `xPath`) as they were when `findChildByLayerId` finds nothing,
which is the case exactly when no child of the project is an `AutomationTrackTreeItem`
with the action's layer id; otherwise it stores the event count, the serialized state and
the xPath of the item found and returns the result of `TreeItem::deleteItem`, with the
project as the deletion left it.  `undo` returns `false` exactly when no serialized item
is stored, and then leaves the project and the action as they were; otherwise it returns
`true` after inserting the stored item.  Nothing is stored in a new action; `perform`
stores an item exactly when it finds the child (so after every `perform` that returned
`true`), and `deserialize` stores one. -/
theorem removeAction_fails_without_side_effects (ops : TreeOps) (hfind : FindsByLayerId ops)
    (project : ProjectTreeItem) (a : AutomationTrackRemoveAction) :
    ((∀ c ∈ project.children, ¬ (c.isAutomationTrack = true ∧ c.layerId = a.layerId)) →
        a.perform ops project = (false, project, a))
      ∧ (∀ c ∈ project.children, c.isAutomationTrack = true → c.layerId = a.layerId →
          ∃ item ∈ project.children, item.isAutomationTrack = true
            ∧ item.layerId = a.layerId
            ∧ ops.findChildByLayerId project a.layerId = some item
            ∧ a.perform ops project
              = ((ops.deleteItem project item).1, (ops.deleteItem project item).2,
                  { a with numEvents := item.sequenceSize
                           serializedTreeItem := some item.serialized
                           xPath := item.xPath }))
      ∧ ((a.undo ops project).1 = false ↔ a.serializedTreeItem = none)
      ∧ (a.serializedTreeItem = none → a.undo ops project = (false, project, a))
      ∧ (∀ xml, a.serializedTreeItem = some xml →
          a.undo ops project = (true, ops.insertDeserialized project xml a.xPath, a))
      ∧ (∀ layerId, (AutomationTrackRemoveAction.create layerId).serializedTreeItem = none)
      ∧ ((a.perform ops project).1 = true →
          (a.perform ops project).2.2.serializedTreeItem ≠ none)
      ∧ (a.serializedTreeItem = none →
          ((a.perform ops project).2.2.serializedTreeItem = none
            ↔ ∀ c ∈ project.children, ¬ (c.isAutomationTrack = true ∧ c.layerId = a.layerId)))
      ∧ (∀ x l child a2, a.deserialize x l (some child) = some a2 →
          a2.serializedTreeItem = some child) := by
  have hnone : ops.findChildByLayerId project a.layerId = none
      ↔ ∀ c ∈ project.children, ¬ (c.isAutomationTrack = true ∧ c.layerId = a.layerId) := by
    rw [hfind, List.find?_eq_none]
    simp
  refine ⟨?_, ?_, ?_, ?_, ?_, fun _ => rfl, ?_, ?_, ?_⟩
  · intro h
    unfold AutomationTrackRemoveAction.perform
    rw [hnone.2 h]
  · intro c hc h1 h2
    cases hf : ops.findChildByLayerId project a.layerId with
    | none => exact absurd ⟨h1, h2⟩ (hnone.1 hf c hc)
    | some item =>
      have hf2 := hf
      rw [hfind] at hf2
      have hm := List.mem_of_find?_eq_some hf2
      have hp := List.find?_some hf2
      simp only [Bool.and_eq_true, beq_iff_eq] at hp
      refine ⟨item, hm, hp.1, hp.2, rfl, ?_⟩
      unfold AutomationTrackRemoveAction.perform
      rw [hf]
  · unfold AutomationTrackRemoveAction.undo
    cases a.serializedTreeItem <;> simp
  · intro h
    unfold AutomationTrackRemoveAction.undo
    rw [h]
  · intro xml h
    unfold AutomationTrackRemoveAction.undo
    rw [h]
  · unfold AutomationTrackRemoveAction.perform
    cases ops.findChildByLayerId project a.layerId <;> simp
  · intro h
    rw [← hnone]
    unfold AutomationTrackRemoveAction.perform
    cases ops.findChildByLayerId project a.layerId <;> simp [h]
  · intro x l child a2 h
    unfold AutomationTrackRemoveAction.deserialize at h
    simp only [Option.some.injEq] at h
    rw [← h]

/-- C30, witness: on a project with a piano track `a` and an automation track `b`, removing
the layer `a` fails and changes nothing (the child with that id is no automation track),
and the undo of that action fails too; removing the layer `b` stores seven events, the
serialized state and the xPath, and deletes the item. -/
theorem removeAction_fails_without_side_effects_witness :
    (AutomationTrackRemoveAction.create "a").perform exTreeOps exProject
        = (false, exProject, AutomationTrackRemoveAction.create "a")
      ∧ ((AutomationTrackRemoveAction.create "a").undo exTreeOps exProject).1 = false
      ∧ (AutomationTrackRemoveAction.create "b").perform exTreeOps exProject
        = (true, { children := [⟨false, "a", 3, "<piano/>", "Piano"⟩] },
            { layerId := "b", numEvents := 7, serializedTreeItem := some "<auto/>",
              xPath := "Volume" }) := by
  have h := removeAction_fails_without_side_effects exTreeOps (fun _ _ => rfl) exProject
    (AutomationTrackRemoveAction.create "a")
  exact ⟨h.1 (by decide), h.2.2.1.2 rfl, by decide⟩

/-! ## C5 -/

/-- C5: in non-loop mode (i) an iteration that finds the cache exhausted and in which no
exit check answers `true` makes the sliced sleeps and the final wait for the end beat,
performs the flush, calls `allNotesControllersAndSoundOff`, only when broadcasting calls
`seekToBeat(getSeekBeat())` and then `broadcastStop`, and returns; when the delta towards
the end beat is not negative the final wait targets the clock at the pull plus
`uint32(delta)`, and the flush happens at that time (for a negative delta, where the
conversion is undefined, nothing is said of the target); (ii) the run has returned
after one iteration per cached event plus one, whatever the answers to the exit checks;
(iii) when no exit check of the run answered `true` it has returned at the natural end,
with exactly one `allNotesControllersAndSoundOff` in its whole trace and exactly one
`seekToBeat` and one `broadcastStop` when broadcasting, none otherwise. -/
theorem nonloop_run_ends (p : PlayerThread) (now : ℕ) (hl : p.loopedMode = false) :
    (∀ (s : State) (delta : ℚ), s.status = .running → s.cursor = [] →
        delta = s.msPerQuarter * (p.endBeat - s.prevTimeStamp) →
        Effect.threadShouldExit true ∉ (step p s).1 →
        (step p s).2.status = .finished
          ∧ (step p s).2.holdingNotes = s.holdingNotes
          ∧ ∃ (k targetTime : ℕ) (s2 : State), s2.holdingNotes = s.holdingNotes
            ∧ (step p s).1 = Effect.getNextMessage none
              :: List.flatten
                  (List.replicate k [Effect.sleep 1000, Effect.threadShouldExit false])
              ++ [Effect.waitForMillisecondCounter targetTime]
              ++ (sendHoldingNotesOffAndMidiStop p s2).1
              ++ [Effect.allNotesControllersAndSoundOff]
              ++ (if p.broadcastMode then
                    [Effect.seekToBeat p.transport.seekBeat, Effect.broadcastStop] else [])
            ∧ (k = 0 ∨ ((1000 * k : ℕ) : ℚ) < delta)
            ∧ (0 ≤ delta → targetTime = s.now + toUInt32 delta
                ∧ (delta < 2 ^ 32 → s2.now = s.now + toUInt32 delta)))
      ∧ (run p now ((p.transport.seekToTime p.startBeat).length + 1)).2.status ≠ .running
      ∧ (Effect.threadShouldExit true
            ∉ (run p now ((p.transport.seekToTime p.startBeat).length + 1)).1 →
          (run p now ((p.transport.seekToTime p.startBeat).length + 1)).2.status = .finished
            ∧ (run p now ((p.transport.seekToTime p.startBeat).length + 1)).1.count
                Effect.allNotesControllersAndSoundOff = 1
            ∧ (run p now ((p.transport.seekToTime p.startBeat).length + 1)).1.count
                Effect.broadcastStop = (if p.broadcastMode then 1 else 0)
            ∧ (run p now ((p.transport.seekToTime p.startBeat).length + 1)).1.count
                (Effect.seekToBeat p.transport.seekBeat)
                  = (if p.broadcastMode then 1 else 0)) := by
  have hterm : (run p now ((p.transport.seekToTime p.startBeat).length + 1)).2.status
      ≠ .running := runLoop_terminates p hl _ (start p now).2 rfl
  refine ⟨?_, hterm, ?_⟩
  · intro s delta hrun hc hd hno
    have hni : (step p s).2.status ≠ .interrupted := by
      rcases step_observed p s hrun with ⟨_, q, s1, _, _, he, _⟩ | ⟨h, _⟩
      · exfalso
        apply hno
        rw [he]
        simp
      · exact h
    unfold step at hni ⊢
    simp only [hrun, hc] at hni ⊢
    unfold endOfCache at hni ⊢
    simp only [← hd, hl, Bool.false_eq_true, if_false] at hni ⊢
    have hx := sleepSlices_unobserved p (sliceFuel delta) delta s
    have hh := sleepSlices_holdingNotes p (sliceFuel delta) delta s
    generalize sleepSlices p (sliceFuel delta) delta s = r at hx hh hni ⊢
    obtain ⟨es, s1, b⟩ := r
    simp only at hx hh hni ⊢
    cases b with
    | true => simp [interrupt] at hni
    | false =>
      obtain ⟨k, h1, h2, h3, _⟩ := hx rfl
      subst h1
      simp only [Bool.false_eq_true, if_false]
      refine ⟨trivial, hh, k, s.now + toUInt32 delta, _, ?_, rfl, h3, ?_⟩
      · exact hh
      · intro _
        refine ⟨rfl, ?_⟩
        intro hsmall
        have hle := slices_le_truncated delta k h3 hsmall
        rw [h2]
        exact max_eq_right (by simp only; omega)
  · intro hno
    have hni : (run p now ((p.transport.seekToTime p.startBeat).length + 1)).2.status
        ≠ .interrupted := by
      rcases runLoop_observed p ((p.transport.seekToTime p.startBeat).length + 1)
        (start p now).2 rfl with ⟨_, q, s1, _, he, _⟩ | ⟨h, _⟩
      · exfalso
        apply hno
        simp only [run, he]
        simp
      · exact h
    have hfin : (run p now ((p.transport.seekToTime p.startBeat).length + 1)).2.status
        = .finished := by
      cases hs : (run p now ((p.transport.seekToTime p.startBeat).length + 1)).2.status with
      | running => exact absurd hs hterm
      | interrupted => exact absurd hs hni
      | finished => rfl
    refine ⟨hfin, ?_⟩
    have hc := runLoop_finished_counts p _ (start p now).2 rfl hfin
    have c0 := fun e he => count_eq_zero_of_not_closing _ (not_closing_start p now) e he
    unfold run
    simp only [List.count_append]
    rw [c0 .allNotesControllersAndSoundOff rfl, c0 .broadcastStop rfl, c0 (.seekToBeat _) rfl]
    simpa using hc

/-- C5, witness: the non-loop run up to beat 4 over a note-on at beat 0 and its note-off a
third of a beat later makes no exit check that answers `true` and has returned at its
natural end after three iterations, with one `allNotesControllersAndSoundOff`; its last
iteration starts at 166 ms with 1833 ms and a third to go and waits for 1999 ms. -/
theorem nonloop_run_ends_witness :
    exTrunc.loopedMode = false
      ∧ Effect.threadShouldExit true
          ∉ (run exTrunc 0 ((exTrunc.transport.seekToTime exTrunc.startBeat).length + 1)).1
      ∧ (run exTrunc 0
          ((exTrunc.transport.seekToTime exTrunc.startBeat).length + 1)).2.status
            = .finished
      ∧ (run exTrunc 0
          ((exTrunc.transport.seekToTime exTrunc.startBeat).length + 1)).1.count
            Effect.allNotesControllersAndSoundOff = 1
      ∧ (step exTrunc (run exTrunc 0 2).2).2.status = .finished
      ∧ Effect.waitForMillisecondCounter 1999 ∈ (step exTrunc (run exTrunc 0 2).2).1 := by
  have hl : exTrunc.loopedMode = false := rfl
  have hno : Effect.threadShouldExit true
      ∉ (run exTrunc 0 ((exTrunc.transport.seekToTime exTrunc.startBeat).length + 1)).1 := by
    decide!
  have h := (nonloop_run_ends exTrunc 0 hl).2.2 hno
  have h1 := (nonloop_run_ends exTrunc 0 hl).1 (run exTrunc 0 2).2 (5500 / 3) (by decide!)
    (by decide!) (by decide!) (by decide!)
  exact ⟨hl, hno, h.1, h.2.1, h1.1, by decide!⟩
end Helio
